import Mathlib

/-!
Verification of the fenced agentic-chat runtime against its specification.

The definitions below are a shallow embedding of the TypeScript sources:
  - packages/executor/src/streaming-vm-executor.ts  (StreamingVmExecutor)
  - packages/executor/src/execution-manager.ts      (ExecutionManager)
  - the Runtime interaction loop (Runtime.newInteraction, Runtime.stop)
  - the Data / StreamedData reactive-record module
  - packages/channel/src/websocket-channel.ts       (WebSocketChannel)
  - packages/parser/src/index.ts                    (SegmentParser)

Strings are modelled as List Char. JavaScript evaluation inside the vm
context is abstracted by oracles; everything the TypeScript code itself
computes (string scanning, buffering, state transitions) is translated
directly.
-/

namespace Fenced

/-! ## Character classes

JavaScript String.prototype.trim and the regex class \s share the same
whitespace set (WhiteSpace plus LineTerminator). -/

/-- The JavaScript whitespace set used by String.trim and by regex \s. -/
def jsWs (c : Char) : Bool :=
  c = ' ' || c = '\t' || c = '\n' || c = '\r' ||
  c = Char.ofNat 11 || c = Char.ofNat 12 ||
  c = Char.ofNat 160 || c = Char.ofNat 0x1680 ||
  (0x2000 ≤ c.toNat && c.toNat ≤ 0x200A) ||
  c = Char.ofNat 0x2028 || c = Char.ofNat 0x2029 || c = Char.ofNat 0x202F ||
  c = Char.ofNat 0x205F || c = Char.ofNat 0xFEFF || c = Char.ofNat 0x3000

/-- Model of JavaScript String.prototype.trim on a character list. -/
def jsTrim (l : List Char) : List Char :=
  ((l.dropWhile jsWs).reverse.dropWhile jsWs).reverse

/-- Start of a JavaScript identifier, the regex class [a-zA-Z_$]. -/
def isIdentStart (c : Char) : Bool :=
  (('a' ≤ c && c ≤ 'z') || ('A' ≤ c && c ≤ 'Z')) || c = '_' || c = '$'

/-- Continuation of a JavaScript identifier, the regex class [a-zA-Z0-9_$]. -/
def isIdentChar (c : Char) : Bool :=
  isIdentStart c || ('0' ≤ c && c ≤ '9')

/-- Whether a character list matches the anchored regex for one identifier. -/
def isIdentList (l : List Char) : Bool :=
  match l with
  | [] => false
  | c :: rest => isIdentStart c && rest.all isIdentChar

/-! ## StreamingVmExecutor: variable-name extraction

Translations of the private helpers of StreamingVmExecutor
(streaming-vm-executor.ts, lines 229-363). -/

/-- Opening bracket as classified by findTopLevelIndex / splitAtTopLevel. -/
def isOpenBracket (c : Char) : Bool :=
  c = '{' || c = '[' || c = '('

/-- Closing bracket as classified by findTopLevelIndex / splitAtTopLevel. -/
def isCloseBracket (c : Char) : Bool :=
  c = '}' || c = ']' || c = ')'

/-- Worker for findTopLevelIndex; depth is a JavaScript number and may go
negative, hence Int. -/
def findTopLevelIndexAux (target : Char) : List Char → Nat → Int → Option Nat
  | [], _, _ => none
  | x :: rest, i, depth =>
    if isOpenBracket x then findTopLevelIndexAux target rest (i + 1) (depth + 1)
    else if isCloseBracket x then findTopLevelIndexAux target rest (i + 1) (depth - 1)
    else if x = target ∧ depth = 0 then
      if target = '=' ∧ rest.head? = some '>' then
        findTopLevelIndexAux target rest (i + 1) depth
      else some i
    else findTopLevelIndexAux target rest (i + 1) depth

/-- StreamingVmExecutor.findTopLevelIndex: first occurrence of a character at
bracket depth 0, skipping the arrow in a fat arrow when searching for eq. -/
def findTopLevelIndex (s : List Char) (target : Char) : Option Nat :=
  findTopLevelIndexAux target s 0 0

/-- Worker for splitAtTopLevel. The bracket depth is updated first, then the
delimiter test runs against the updated depth, exactly as in the source. -/
def splitAtTopLevelAux (delim : Char) :
    List Char → Int → List Char → List (List Char) → List (List Char)
  | [], _, current, parts => if current ≠ [] then parts ++ [current] else parts
  | x :: rest, depth, current, parts =>
    let depth' :=
      if isOpenBracket x then depth + 1
      else if isCloseBracket x then depth - 1
      else depth
    if x = delim ∧ depth' = 0 then
      splitAtTopLevelAux delim rest depth' [] (parts ++ [current])
    else splitAtTopLevelAux delim rest depth' (current ++ [x]) parts

/-- StreamingVmExecutor.splitAtTopLevel. -/
def splitAtTopLevel (s : List Char) (delim : Char) : List (List Char) :=
  splitAtTopLevelAux delim s 0 [] []

/-- StreamingVmExecutor.stripDefault: cut a pattern at a top-level eq sign. -/
def stripDefault (s : List Char) : List Char :=
  match findTopLevelIndex s '=' with
  | none => s
  | some i => jsTrim (s.take i)

/-- StreamingVmExecutor.stripTypeAnnotation: drop a type annotation from a
plain-identifier pattern (first colon, not depth aware). -/
def stripTypeAnnotation (pattern : List Char) : List Char :=
  if pattern.head? = some '{' ∨ pattern.head? = some '[' then pattern
  else
    match pattern.findIdx? (fun c => c = ':') with
    | none => pattern
    | some i => jsTrim (pattern.take i)

mutual

/-- StreamingVmExecutor.parsePattern, with fuel for the mutual recursion.
Callers pass fuel larger than the pattern length, which the nesting depth
of any pattern is bounded by. -/
def parsePatternF : Nat → List Char → List (List Char)
  | 0, _ => []
  | fuel + 1, p =>
    let trimmed := jsTrim p
    if isIdentList trimmed then [trimmed]
    else if trimmed.head? = some '{' ∧ trimmed.getLast? = some '}' then
      parseDestructureF fuel ((trimmed.drop 1).dropLast) true
    else if trimmed.head? = some '[' ∧ trimmed.getLast? = some ']' then
      parseDestructureF fuel ((trimmed.drop 1).dropLast) false
    else []

/-- StreamingVmExecutor.parseDestructure; isObj true means object
destructuring (the branch that handles key renames). -/
def parseDestructureF : Nat → List Char → Bool → List (List Char)
  | 0, _, _ => []
  | fuel + 1, inner, isObj =>
    (splitAtTopLevel inner ',').foldl
      (fun names part =>
        let trimmed := jsTrim part
        if trimmed = [] then names
        else if trimmed.take 3 = ['.', '.', '.'] then
          let rest := jsTrim (trimmed.drop 3)
          if isIdentList rest then names ++ [rest] else names
        else if isObj then
          match findTopLevelIndex trimmed ':' with
          | some i =>
            names ++ parsePatternF fuel (stripDefault (jsTrim (trimmed.drop (i + 1))))
          | none => names ++ parsePatternF fuel (stripDefault trimmed)
        else names ++ parsePatternF fuel (stripDefault trimmed))
      []

end

/-- Match of the anchored regex for const or let followed by whitespace;
returns the text after the matched keyword and greedy whitespace run. -/
def matchConstLet (trimmed : List Char) : Option (List Char) :=
  if trimmed.take 5 = ("const").toList ∧ ((trimmed.drop 5).head?.any jsWs) then
    some ((trimmed.drop 5).dropWhile jsWs)
  else if trimmed.take 3 = ("let").toList ∧ ((trimmed.drop 3).head?.any jsWs) then
    some ((trimmed.drop 3).dropWhile jsWs)
  else none

/-- StreamingVmExecutor.extractVariableNames. -/
def extractVariableNames (source : List Char) : List (List Char) :=
  let trimmed := jsTrim source
  match matchConstLet trimmed with
  | none => []
  | some afterKeyword =>
    match findTopLevelIndex afterKeyword '=' with
    | none => []
    | some eqIndex =>
      let pattern := jsTrim (afterKeyword.take eqIndex)
      let patternWithoutType := stripTypeAnnotation pattern
      parsePatternF (patternWithoutType.length + 2) patternWithoutType

/-- StreamingVmExecutor.extractFunctionName: the anchored regex for an
optional async keyword, the function keyword, then a captured identifier. -/
def extractFunctionName (source : List Char) : Option (List Char) :=
  let trimmed := jsTrim source
  let rest :=
    if trimmed.take 5 = ("async").toList ∧ ((trimmed.drop 5).head?.any jsWs) then
      (trimmed.drop 5).dropWhile jsWs
    else trimmed
  if rest.take 8 = ("function").toList ∧ ((rest.drop 8).head?.any jsWs) then
    match (rest.drop 8).dropWhile jsWs with
    | c :: cs => if isIdentStart c then some (c :: cs.takeWhile isIdentChar) else none
    | [] => none
  else none

/-! ## StreamingVmExecutor: statement execution

The vm context is a string-keyed store. Evaluation of JavaScript inside the
context is abstracted by a VmOracle; the wrapper logic of executeStatement
(streaming-vm-executor.ts lines 189-227) is translated directly. -/

/-- A JavaScript value, as far as the claims need one. -/
inductive JsVal where
  | undef : JsVal
  | boolV : Bool → JsVal
  | numV : Int → JsVal
  | strV : List Char → JsVal
  | fnV : List Char → JsVal
deriving DecidableEq

/-- Variable names are strings. -/
abbrev VarName := List Char

/-- The vm context: the mutable global store shared by all statements of a
session (vm.createContext in execution-manager.ts). -/
abbrev Ctx := List (VarName × JsVal)

/-- Write a context global (context[name] = value). -/
def ctxSet (ctx : Ctx) (k : VarName) (v : JsVal) : Ctx :=
  (k, v) :: ctx.filter (fun p => !(p.1 = k : Bool))

/-- Read a context global. -/
def ctxGet (ctx : Ctx) (k : VarName) : Option JsVal :=
  (ctx.find? (fun p => (p.1 = k : Bool))).map Prod.snd

/-- Whether a name is present as a context global. A name that is absent
raises a ReferenceError when read by code in the context. -/
def ctxHas (ctx : Ctx) (k : VarName) : Bool :=
  (ctxGet ctx k).isSome

/-- Effect of running one wrapped statement in the vm: the mutation the
statement body itself applies to the context, the console output captured
during it, the fields of the returned name object, the returned function
value, and the thrown error if any. -/
structure StmtEffect where
  ctxEffect : Ctx → Ctx
  logsOut : List Char
  retVal : VarName → JsVal
  fnVal : JsVal
  thrown : Option (List Char)

/-- Oracle for vm.Script(...).runInContext: what evaluating a statement's
code in a given context does. -/
structure VmOracle where
  eval : List Char → Ctx → StmtEffect

/-- Oracle for the Bun transpiler probe (tryTranspile): whether a buffer is
a complete statement, and the message when it is not. -/
structure TrOracle where
  ok : List Char → Bool
  errMsg : List Char → List Char

/-- StreamingVmExecutor.executeStatement: run one statement and hoist the
names of a variable or function declaration into the shared context.
Returns the context afterwards and the formatted error if one was thrown.
On a throw nothing is hoisted (the writes sit after the await). -/
def execStatement (vm : VmOracle) (ctx : Ctx) (source : List Char) :
    Ctx × Option (List Char) :=
  let varNames := extractVariableNames source
  let funcName := extractFunctionName source
  let eff := vm.eval source ctx
  match eff.thrown with
  | some e => (eff.ctxEffect ctx, some e)
  | none =>
    if varNames ≠ [] then
      (varNames.foldl (fun c n => ctxSet c n (eff.retVal n)) (eff.ctxEffect ctx), none)
    else
      match funcName with
      | some f => (ctxSet (eff.ctxEffect ctx) f eff.fnVal, none)
      | none => (eff.ctxEffect ctx, none)

/-- One per-statement event yielded by a streaming run. -/
structure ExecEvent where
  statement : List Char
  logs : List Char
  error : Option (List Char)
deriving DecidableEq

/-- Result of a streaming run: the events, the concatenated log buffer, the
final error (empty when none), and the context the run ends with. -/
structure RunOutcome where
  events : List ExecEvent
  logs : List Char
  error : List Char
  finalCtx : Ctx

/-- The message prefix used for a non-transpilable tail at end of stream. -/
def incompleteMsg : List Char := ("Incomplete statement: ").toList

/-- Update of the inLineComment flag for one character: entering on a
second slash, leaving on a newline (lines 88-94 of the source; the newline
reset runs after the slash test). -/
def lineCommentUpdate (c : Char) (prev : Option Char) (inLC : Bool) : Bool :=
  if c = '\n' then false
  else if c = '/' ∧ prev = some '/' then true
  else inLC

/-- The event loop of StreamingVmExecutor.run (lines 78-169): iterate the
input character by character, track line comments, try to execute on every
semicolon outside a line comment, stop at the first execution error, and
flush the remaining buffer when the stream ends. -/
def runLoop (tr : TrOracle) (vm : VmOracle) :
    List Char → Ctx → List Char → Option Char → Bool → List ExecEvent → List Char →
    RunOutcome
  | [], ctx, buffer, _prev, _inLC, events, allLogs =>
    let trimmed := jsTrim buffer
    if trimmed = [] then ⟨events, allLogs, [], ctx⟩
    else if tr.ok trimmed then
      let eff := vm.eval trimmed ctx
      let res := execStatement vm ctx trimmed
      let ev : ExecEvent := ⟨trimmed, eff.logsOut, res.2⟩
      ⟨events ++ [ev], allLogs ++ eff.logsOut,
        (match res.2 with | some e => e | none => []), res.1⟩
    else
      let msg := incompleteMsg ++ tr.errMsg trimmed
      ⟨events ++ [⟨trimmed, [], some msg⟩], allLogs, msg, ctx⟩
  | c :: csRest, ctx, buffer, prev, inLC, events, allLogs =>
    let buffer' := buffer ++ [c]
    let inLC2 := lineCommentUpdate c prev inLC
    if c = ';' ∧ inLC2 = false then
      let trimmed := jsTrim buffer'
      if trimmed ≠ [] ∧ tr.ok trimmed then
        let eff := vm.eval trimmed ctx
        let res := execStatement vm ctx trimmed
        let ev : ExecEvent := ⟨trimmed, eff.logsOut, res.2⟩
        match res.2 with
        | some e => ⟨events ++ [ev], allLogs ++ eff.logsOut, e, res.1⟩
        | none =>
          runLoop tr vm csRest res.1 [] (some c) inLC2 (events ++ [ev])
            (allLogs ++ eff.logsOut)
      else runLoop tr vm csRest ctx buffer' (some c) inLC2 events allLogs
    else runLoop tr vm csRest ctx buffer' (some c) inLC2 events allLogs

/-- StreamingVmExecutor.run on a whole input stream. The source iterates
chunks and then the characters of each chunk, so only the concatenation of
the chunks matters; the model takes that concatenation. -/
def streamRun (tr : TrOracle) (vm : VmOracle) (ctx : Ctx) (input : List Char) :
    RunOutcome :=
  runLoop tr vm input ctx [] none false [] []

/-- Execute a sequence of already-delimited statements in order on a shared
context, as successive executeStatement calls of one or more runs of the
same executor do. -/
def execStmts (vm : VmOracle) (ctx : Ctx) (stmts : List (List Char)) : Ctx :=
  stmts.foldl (fun c s => (execStatement vm c s).1) ctx

/-- The statement evaluations never delete the given context global. The
wrapped bodies can in principle mutate the shared context arbitrarily; this
hypothesis says the code of later statements does not itself remove the
binding. -/
def PreservesBinding (vm : VmOracle) (n : VarName) : Prop :=
  ∀ s c, ctxHas c n = true → ctxHas ((vm.eval s c).ctxEffect c) n = true

end Fenced

namespace Fenced

/-! ## Context lemmas -/

instance : Inhabited JsVal := ⟨JsVal.undef⟩

theorem ctxHas_iff (c : Ctx) (n : VarName) :
    ctxHas c n = true ↔ ∃ p ∈ c, p.1 = n := by
  simp [ctxHas, ctxGet, List.find?_isSome]

theorem ctxHas_ctxSet_self (c : Ctx) (k : VarName) (v : JsVal) :
    ctxHas (ctxSet c k v) k = true := by
  rw [ctxHas_iff]
  exact ⟨(k, v), by simp [ctxSet]⟩

theorem ctxHas_ctxSet_of (c : Ctx) (k n : VarName) (v : JsVal)
    (h : ctxHas c n = true) : ctxHas (ctxSet c k v) n = true := by
  rcases (ctxHas_iff c n).1 h with ⟨p, hp, hpn⟩
  by_cases hnk : n = k
  · subst hnk; exact ctxHas_ctxSet_self c n v
  · rw [ctxHas_iff]
    refine ⟨p, ?_, hpn⟩
    simp only [ctxSet, List.mem_cons, List.mem_filter]
    exact Or.inr ⟨hp, by simp [hpn, hnk]⟩

theorem ctxHas_foldl_ctxSet_of (f : VarName → JsVal) (n : VarName) :
    ∀ (names : List VarName) (c : Ctx), ctxHas c n = true →
      ctxHas (names.foldl (fun c k => ctxSet c k (f k)) c) n = true := by
  intro names
  induction names with
  | nil => intro c h; simpa using h
  | cons m rest ih =>
    intro c h
    exact ih (ctxSet c m (f m)) (ctxHas_ctxSet_of c m n (f m) h)

theorem ctxHas_foldl_ctxSet_mem (f : VarName → JsVal) (n : VarName) :
    ∀ (names : List VarName) (c : Ctx), n ∈ names →
      ctxHas (names.foldl (fun c k => ctxSet c k (f k)) c) n = true := by
  intro names
  induction names with
  | nil => intro c h; cases h
  | cons m rest ih =>
    intro c h
    rcases List.mem_cons.1 h with h1 | h2
    · subst h1
      exact ctxHas_foldl_ctxSet_of f n rest (ctxSet c n (f n))
        (ctxHas_ctxSet_self c n (f n))
    · exact ih (ctxSet c m (f m)) h2

/-- The error component of executeStatement is exactly the thrown error of
the evaluation. -/
theorem execStatement_snd (vm : VmOracle) (ctx : Ctx) (s : List Char) :
    (execStatement vm ctx s).2 = (vm.eval s ctx).thrown := by
  unfold execStatement
  cases h : (vm.eval s ctx).thrown with
  | some e => simp [h]
  | none =>
    simp only [h]
    by_cases hv : extractVariableNames s ≠ []
    · simp [hv]
    · simp only [hv, if_neg, ite_false]
      cases extractFunctionName s <;> simp [hv]

/-- A const or let statement can never also carry a function-declaration
name: the two anchored regexes need different leading keywords. -/
theorem extractFunctionName_eq_none_of_vars (s : List Char)
    (h : extractVariableNames s ≠ []) : extractFunctionName s = none := by
  have hcl : matchConstLet (jsTrim s) ≠ none := by
    intro hk
    apply h
    simp only [extractVariableNames]
    rw [hk]
  have htake : (jsTrim s).take 5 = ("const").toList ∨
      (jsTrim s).take 3 = ("let").toList := by
    by_cases h1 : (jsTrim s).take 5 = ("const").toList
    · exact Or.inl h1
    · by_cases h2 : (jsTrim s).take 3 = ("let").toList
      · exact Or.inr h2
      · refine absurd ?_ hcl
        simp only [matchConstLet]
        rw [if_neg (fun hab => h1 hab.1), if_neg (fun hab => h2 hab.1)]
  have htk : ∀ m n : Nat, m ≤ n → ((jsTrim s).take n).take m = (jsTrim s).take m := by
    intro m n hmn
    rw [List.take_take, Nat.min_eq_left hmn]
  simp only [extractFunctionName]
  rcases htake with hc | hl
  · have hasync : ¬ ((jsTrim s).take 5 = ("async").toList ∧
        (((jsTrim s).drop 5).head?.any jsWs) = true) := by
      rintro ⟨ha, -⟩
      rw [hc] at ha
      exact absurd ha (by decide)
    rw [if_neg hasync]
    have hfn : ¬ ((jsTrim s).take 8 = ("function").toList ∧
        (((jsTrim s).drop 8).head?.any jsWs) = true) := by
      rintro ⟨hf, -⟩
      have h5 := htk 5 8 (by norm_num)
      rw [hf, hc] at h5
      exact absurd h5 (by decide)
    rw [if_neg hfn]
  · have hasync : ¬ ((jsTrim s).take 5 = ("async").toList ∧
        (((jsTrim s).drop 5).head?.any jsWs) = true) := by
      rintro ⟨ha, -⟩
      have h3 := htk 3 5 (by norm_num)
      rw [ha, hl] at h3
      exact absurd h3 (by decide)
    rw [if_neg hasync]
    have hfn : ¬ ((jsTrim s).take 8 = ("function").toList ∧
        (((jsTrim s).drop 8).head?.any jsWs) = true) := by
      rintro ⟨hf, -⟩
      have h3 := htk 3 8 (by norm_num)
      rw [hf, hl] at h3
      exact absurd h3 (by decide)
    rw [if_neg hfn]

/-- Executing any statement preserves a context global that the statement
evaluations do not themselves delete. -/
theorem ctxHas_execStatement_of (vm : VmOracle) (n : VarName) (c : Ctx)
    (s : List Char) (hpres : PreservesBinding vm n)
    (h : ctxHas c n = true) : ctxHas (execStatement vm c s).1 n = true := by
  unfold execStatement
  have heff : ctxHas ((vm.eval s c).ctxEffect c) n = true := hpres s c h
  cases hth : (vm.eval s c).thrown with
  | some e => simpa [hth] using heff
  | none =>
    simp only [hth]
    by_cases hv : extractVariableNames s ≠ []
    · rw [if_pos hv]
      exact ctxHas_foldl_ctxSet_of _ n _ _ heff
    · rw [if_neg hv]
      cases extractFunctionName s with
      | some f => exact ctxHas_ctxSet_of _ f n _ heff
      | none => exact heff

/-- Right after a statement that declares the name (by supported const or
let extraction, or as a named function) completes without error, the name
is a context global. -/
theorem ctxHas_execStatement_binds (vm : VmOracle) (n : VarName) (c : Ctx)
    (s : List Char)
    (hbind : n ∈ extractVariableNames s ∨ extractFunctionName s = some n)
    (hok : (execStatement vm c s).2 = none) :
    ctxHas (execStatement vm c s).1 n = true := by
  have hth : (vm.eval s c).thrown = none := by
    rw [← execStatement_snd]; exact hok
  unfold execStatement
  simp only [hth]
  by_cases hv : extractVariableNames s ≠ []
  · rw [if_pos hv]
    rcases hbind with hmem | hfn
    · exact ctxHas_foldl_ctxSet_mem _ n _ _ hmem
    · exact absurd (extractFunctionName_eq_none_of_vars s hv) (by simp [hfn])
  · rw [if_neg hv]
    rcases hbind with hmem | hfn
    · simp only [ne_eq, not_not] at hv
      rw [hv] at hmem
      cases hmem
    · rw [hfn]
      exact ctxHas_ctxSet_self _ n _

theorem execStmts_cons (vm : VmOracle) (c : Ctx) (s : List Char)
    (rest : List (List Char)) :
    execStmts vm c (s :: rest) = execStmts vm (execStatement vm c s).1 rest := rfl

/-- Statement sequences preserve a context global that no statement of the
sequence deletes. -/
theorem ctxHas_execStmts_of (vm : VmOracle) (n : VarName)
    (hpres : PreservesBinding vm n) :
    ∀ (stmts : List (List Char)) (c : Ctx), ctxHas c n = true →
      ctxHas (execStmts vm c stmts) n = true := by
  intro stmts
  induction stmts with
  | nil => intro c h; exact h
  | cons s rest ih =>
    intro c h
    rw [execStmts_cons]
    exact ih _ (ctxHas_execStatement_of vm n c s hpres h)

/-- Claim C4 (amended): a name bound by a top-level const or let declaration
in a form the executor's extraction supports (a single declarator with an
initializer: the name is among extractVariableNames), or by a named
function declaration, is after the declaring statement completes without
error readable as a context global before and after every later statement,
of the same run or of later runs on the same executor (the list later is
the concatenation of all statements executed afterwards on the shared
context), provided the later statements do not themselves delete the
binding. -/
theorem c4_binding_persistence_amended (vm : VmOracle) (n : VarName)
    (stmt : List Char) (ctx : Ctx) (later : List (List Char))
    (hbind : n ∈ extractVariableNames stmt ∨ extractFunctionName stmt = some n)
    (hok : (execStatement vm ctx stmt).2 = none)
    (hpres : PreservesBinding vm n) :
    ctxHas (execStmts vm (execStatement vm ctx stmt).1 later) n = true :=
  ctxHas_execStmts_of vm n hpres later _
    (ctxHas_execStatement_binds vm n ctx stmt hbind hok)

/-- A do-nothing evaluation oracle: the statement bodies neither mutate the
shared context nor throw. Faithful to running a statement like let x inside
the async wrapper, whose block-scoped binding does not escape into the vm
context. -/
def inertVm : VmOracle :=
  ⟨fun _ _ => ⟨id, [], fun _ => JsVal.numV 1, JsVal.undef, none⟩⟩

theorem c4_witness :
    ctxHas (execStmts inertVm
      (execStatement inertVm [] (("const x = 1;").toList)).1
      [("console.log(x);").toList]) (("x").toList) = true :=
  c4_binding_persistence_amended inertVm (("x").toList) (("const x = 1;").toList)
    [] [("console.log(x);").toList]
    (Or.inl (by decide)) (by rfl) (fun _ _ h => h)

/-- Claim C4 fails as stated: the statement let x semicolon binds x by a
top-level let declaration and completes without error, yet the extraction
(which requires a top-level equals sign) captures nothing, nothing is
hoisted, and x is not readable afterwards. -/
theorem c4_counterexample :
    extractVariableNames (("let x;").toList) = [] ∧
    extractFunctionName (("let x;").toList) = none ∧
    (execStatement inertVm [] (("let x;").toList)).2 = none ∧
    ctxHas (execStatement inertVm [] (("let x;").toList)).1 (("x").toList) = false := by
  refine ⟨by decide, by decide, rfl, by decide⟩

end Fenced

namespace Fenced

theorem runLoop_error_struct (tr : TrOracle) (vm : VmOracle) :
    ∀ (input : List Char) (ctx : Ctx) (buffer : List Char) (prev : Option Char)
      (inLC : Bool) (events : List ExecEvent) (allLogs : List Char),
      (∀ ev ∈ events, ev.error = none) →
      ∀ ev e, ev ∈ (runLoop tr vm input ctx buffer prev inLC events allLogs).events →
        ev.error = some e →
        (runLoop tr vm input ctx buffer prev inLC events allLogs).events.getLast? = some ev ∧
        (runLoop tr vm input ctx buffer prev inLC events allLogs).error = e := by
  intro input
  induction input with
  | nil =>
    intro ctx buffer prev inLC events allLogs hacc ev e hmem herr
    set R := runLoop tr vm [] ctx buffer prev inLC events allLogs with hRdef
    clear_value R
    simp only [runLoop] at hRdef
    split at hRdef
    · rw [hRdef] at hmem ⊢
      exact absurd herr (by simp [hacc ev hmem])
    · split at hRdef
      · rw [hRdef] at hmem ⊢
        rcases List.mem_append.1 hmem with hm | hm
        · exact absurd herr (by simp [hacc ev hm])
        · simp only [List.mem_singleton] at hm
          subst hm
          refine ⟨List.getLast?_concat _, ?_⟩
          have h2 : (execStatement vm ctx (jsTrim buffer)).2 = some e := herr
          simp [h2]
      · rw [hRdef] at hmem ⊢
        rcases List.mem_append.1 hmem with hm | hm
        · exact absurd herr (by simp [hacc ev hm])
        · simp only [List.mem_singleton] at hm
          subst hm
          refine ⟨List.getLast?_concat _, ?_⟩
          have h2 : some (incompleteMsg ++ tr.errMsg (jsTrim buffer)) = some e := herr
          simpa using h2
  | cons c csRest ih =>
    intro ctx buffer prev inLC events allLogs hacc ev e hmem herr
    set R := runLoop tr vm (c :: csRest) ctx buffer prev inLC events allLogs with hRdef
    clear_value R
    simp only [runLoop] at hRdef
    split at hRdef
    · split at hRdef
      · split at hRdef
        · rename_i e' heq
          rw [hRdef] at hmem ⊢
          rcases List.mem_append.1 hmem with hm | hm
          · exact absurd herr (by simp [hacc ev hm])
          · simp only [List.mem_singleton] at hm
            subst hm
            refine ⟨List.getLast?_concat _, ?_⟩
            have h2 : (execStatement vm ctx (jsTrim (buffer ++ [c]))).2 = some e := herr
            rw [heq] at h2
            simpa using h2
        · rename_i heq
          rw [hRdef] at hmem ⊢
          refine ih _ _ _ _ _ _ ?_ ev e hmem herr
          intro ev2 hm2
          rcases List.mem_append.1 hm2 with hm | hm
          · exact hacc ev2 hm
          · simp only [List.mem_singleton] at hm
            subst hm
            exact heq
      · rw [hRdef] at hmem ⊢
        exact ih _ _ _ _ _ _ hacc ev e hmem herr
    · rw [hRdef] at hmem ⊢
      exact ih _ _ _ _ _ _ hacc ev e hmem herr

end Fenced

namespace Fenced

/-- Claim C5: first-error stop. In every streaming run, an event carrying an
error is the last event of the run (no later statement executes; the
remaining input is discarded by the early return) and the run result still
resolves, carrying that error. -/
theorem c5_first_error_stop (tr : TrOracle) (vm : VmOracle) (ctx : Ctx)
    (input : List Char) (ev : ExecEvent) (e : List Char)
    (hmem : ev ∈ (streamRun tr vm ctx input).events)
    (herr : ev.error = some e) :
    (streamRun tr vm ctx input).events.getLast? = some ev ∧
    (streamRun tr vm ctx input).error = e :=
  runLoop_error_struct tr vm input ctx [] none false [] []
    (by intro _ h; cases h) ev e hmem herr

/-- Transpiler oracle that accepts every buffer. -/
def probeTr : TrOracle := ⟨fun _ => true, fun _ => []⟩

/-- Evaluation oracle that throws boom on the statement bad and otherwise
does nothing. -/
def failVm : VmOracle :=
  ⟨fun s _ => ⟨id, [], fun _ => JsVal.undef, JsVal.undef,
    if s = ("bad;").toList then some (("boom").toList) else none⟩⟩

theorem c5_witness :
    (streamRun probeTr failVm [] (("bad; more;").toList)).events.getLast? =
      some ⟨("bad;").toList, [], some (("boom").toList)⟩ ∧
    (streamRun probeTr failVm [] (("bad; more;").toList)).error = ("boom").toList :=
  c5_first_error_stop probeTr failVm [] (("bad; more;").toList)
    ⟨("bad;").toList, [], some (("boom").toList)⟩ (("boom").toList)
    (by decide) (by decide)

/-- The structured message of VmExecutionTimeoutError for the documented
60 second ceiling. -/
def timeoutMsg60 : List Char := ("Execution timed out after 60000ms").toList

/-- The statement evaluations themselves never throw the 60 second timeout
message. -/
def NoTimeoutOracle (vm : VmOracle) : Prop :=
  ∀ s c e, (vm.eval s c).thrown = some e → e ≠ timeoutMsg60

/-- Every error a streaming run can end with is either empty, thrown by a
statement evaluation, or the incomplete-statement message: the loop itself
consults no clock and has no abort path. -/
theorem runLoop_error_origin (tr : TrOracle) (vm : VmOracle) :
    ∀ (input : List Char) (ctx : Ctx) (buffer : List Char) (prev : Option Char)
      (inLC : Bool) (events : List ExecEvent) (allLogs : List Char),
      (runLoop tr vm input ctx buffer prev inLC events allLogs).error = [] ∨
      (∃ s c, (vm.eval s c).thrown =
        some ((runLoop tr vm input ctx buffer prev inLC events allLogs).error)) ∨
      (∃ m, (runLoop tr vm input ctx buffer prev inLC events allLogs).error =
        incompleteMsg ++ m) := by
  intro input
  induction input with
  | nil =>
    intro ctx buffer prev inLC events allLogs
    set R := runLoop tr vm [] ctx buffer prev inLC events allLogs with hRdef
    clear_value R
    simp only [runLoop] at hRdef
    split at hRdef
    · rw [hRdef]; exact Or.inl rfl
    · split at hRdef
      · rw [hRdef]
        cases hres : (execStatement vm ctx (jsTrim buffer)).2 with
        | none => exact Or.inl (by simp [hres])
        | some e2 =>
          refine Or.inr (Or.inl ⟨jsTrim buffer, ctx, ?_⟩)
          rw [← execStatement_snd, hres]
      · rw [hRdef]
        exact Or.inr (Or.inr ⟨tr.errMsg (jsTrim buffer), rfl⟩)
  | cons c csRest ih =>
    intro ctx buffer prev inLC events allLogs
    set R := runLoop tr vm (c :: csRest) ctx buffer prev inLC events allLogs with hRdef
    clear_value R
    simp only [runLoop] at hRdef
    split at hRdef
    · split at hRdef
      · split at hRdef
        · rename_i e' heq
          rw [hRdef]
          refine Or.inr (Or.inl ⟨jsTrim (buffer ++ [c]), ctx, ?_⟩)
          rw [← execStatement_snd, heq]
        · rw [hRdef]; exact ih _ _ _ _ _ _
      · rw [hRdef]; exact ih _ _ _ _ _ _
    · rw [hRdef]; exact ih _ _ _ _ _ _

/-- Claim C6: the streaming executor used by the interaction loop has no
60 second per-run ceiling. Unless a statement evaluation itself throws the
timeout message, no run result can carry it: the run processes its entire
input with no wall-clock abort. The repository documentation promises a
60 second maximum per agent.run execution, which this run path does not
implement. -/
theorem c6_no_timeout_in_streaming_run (tr : TrOracle) (vm : VmOracle)
    (ctx : Ctx) (input : List Char) (hvm : NoTimeoutOracle vm) :
    (streamRun tr vm ctx input).error ≠ timeoutMsg60 := by
  unfold streamRun
  rcases runLoop_error_origin tr vm input ctx [] none false [] [] with h | ⟨s, c, h⟩ | ⟨m, h⟩
  · rw [h]; decide
  · exact hvm s c _ h
  · rw [h]
    have hI : incompleteMsg = 'I' :: ("ncomplete statement: ").toList := by decide
    have hE : timeoutMsg60 = 'E' :: ("xecution timed out after 60000ms").toList := by decide
    rw [hI, hE]
    intro hc
    simp at hc
end Fenced

namespace Fenced

theorem c6_witness :
    NoTimeoutOracle inertVm ∧
    (streamRun probeTr inertVm [] (("await forever();").toList)).error ≠ timeoutMsg60 := by
  have hvm : NoTimeoutOracle inertVm := by
    intro s c e h
    exact absurd h (by simp [inertVm])
  exact ⟨hvm, c6_no_timeout_in_streaming_run probeTr inertVm [] (("await forever();").toList) hvm⟩

/-- Claim C10: a statement whose top-level binding uses var is not hoisted.
The extraction matches only const and let, so executeStatement takes the
plain branch and writes nothing beyond what the statement body itself does;
since a var inside the async wrapper is scoped to the wrapper (modelled by
the inert oracle), the shared context stays empty and a later read of x
finds no context global, which in the vm raises a ReferenceError. -/
theorem c10_var_not_hoisted :
    extractVariableNames (("var x = 1;").toList) = [] ∧
    extractFunctionName (("var x = 1;").toList) = none ∧
    (∀ vm ctx, (execStatement vm ctx (("var x = 1;").toList)).1 =
      ((vm.eval (("var x = 1;").toList) ctx).ctxEffect ctx)) ∧
    ctxGet (execStmts inertVm [] [("var x = 1;").toList]) (("x").toList) = none := by
  have h1 : extractVariableNames (("var x = 1;").toList) = [] := by decide
  have h2 : extractFunctionName (("var x = 1;").toList) = none := by decide
  refine ⟨h1, h2, ?_, by decide⟩
  intro vm ctx
  simp only [execStatement, h1, h2]
  cases hth : (vm.eval (("var x = 1;").toList) ctx).thrown <;> simp [hth]

end Fenced

namespace Fenced

/-! ## Runtime interaction loop

Model of Runtime.newInteraction's turn loop. Consuming the assistant
stream of turn k (parser dispatch, code execution, transcript merging) is
abstracted as an oracle from the turn number to the normalized transcript
payload it produces. -/

/-- The merged transcript payload of one turn (LlmLogsPayload). -/
structure LlmLogsPayload where
  logs : Option (List Char)
  error : Option (List Char)

/-- The hasTranscript helper: a payload counts as non-empty when either
field is present with non-whitespace content. -/
def hasTranscript (p : LlmLogsPayload) : Bool :=
  (match p.logs with | some s => !(jsTrim s).isEmpty | none => false) ||
  (match p.error with | some s => !(jsTrim s).isEmpty | none => false)

/-- Runtime.maxTurns. -/
def maxTurns : Nat := 15

/-- The while loop of Runtime.newInteraction (consume the stream, stop on
an empty transcript, advance the turn counter, stop at the cap), returning
how many model turns were consumed. Each loop pass consumes one model
stream; fuel only realizes the recursion and is always at least the number
of passes the cap admits. -/
def interactionLoopAux (consume : Nat → LlmLogsPayload) : Nat → Nat → Nat
  | 0, turn => turn
  | fuel + 1, turn =>
    if ¬ hasTranscript (consume turn) then turn + 1
    else if turn + 1 ≥ maxTurns then turn + 1
    else interactionLoopAux consume fuel (turn + 1)

/-- Number of model turns a fresh interaction consumes. -/
def interactionTurns (consume : Nat → LlmLogsPayload) : Nat :=
  interactionLoopAux consume maxTurns 0

theorem interactionLoopAux_le (consume : Nat → LlmLogsPayload) :
    ∀ (fuel turn : Nat), turn < maxTurns →
      interactionLoopAux consume fuel turn ≤ maxTurns := by
  intro fuel
  induction fuel with
  | zero => intro turn h; exact Nat.le_of_lt h
  | succ f ih =>
    intro turn h
    simp only [interactionLoopAux]
    split
    · exact h
    · split
      · exact h
      · rename_i hcap
        exact ih (turn + 1) (Nat.lt_of_not_le (fun hle => hcap hle))

theorem interactionLoopAux_override (consume : Nat → LlmLogsPayload) :
    ∀ (fuel turn : Nat), turn + fuel = maxTurns →
      interactionLoopAux consume fuel turn =
      interactionLoopAux
        (fun k => if k = maxTurns - 1 then ⟨none, none⟩ else consume k) fuel turn := by
  intro fuel
  induction fuel with
  | zero => intro turn _; rfl
  | succ f ih =>
    intro turn hsum
    by_cases hlast : turn = maxTurns - 1
    · subst hlast
      have hf : f = 0 := by omega
      subst hf
      simp [interactionLoopAux, hasTranscript, maxTurns]
    · simp only [interactionLoopAux, hlast, if_neg, ite_false]
      split
      · rfl
      · split
        · rfl
        · exact ih (turn + 1) (by omega)

/-- Claim C2: the turn cap. Any interaction consumes at most
maxTurns = 15 model turns, and its turn consumption is exactly what it
would be if the transcript of the final (15th) turn were empty: reaching
the cap ends the interaction the same way an empty transcript does. -/
theorem c2_turn_cap :
    (∀ consume : Nat → LlmLogsPayload, interactionTurns consume ≤ maxTurns) ∧
    (∀ consume : Nat → LlmLogsPayload,
      interactionTurns consume =
      interactionTurns
        (fun k => if k = maxTurns - 1 then ⟨none, none⟩ else consume k)) := by
  constructor
  · intro consume
    exact interactionLoopAux_le consume maxTurns 0 (by decide)
  · intro consume
    exact interactionLoopAux_override consume maxTurns 0 rfl

/-! ## Session-level stop -/

/-- ExecutionManager.stop: its body is only the comment that the streaming
executor has no stop method yet, so it changes nothing; in particular an
in-flight run state is left exactly as it is. -/
def managerStop {α : Type} (execState : α) : α := execState

/-- The parts of Runtime state that stop touches. -/
structure RuntimeState where
  stopped : Bool
  running : Bool
  execCtx : Ctx

/-- Runtime.stop: set the stopped flag and call the executor's stop. -/
def runtimeStop (r : RuntimeState) : RuntimeState :=
  { r with stopped := true, execCtx := managerStop r.execCtx }

/-- The loop head of Runtime.newInteraction checks the stopped flag before
consuming any stream: a stopped session consumes no model turns. -/
def interactionTurnsFrom (stopped : Bool) (consume : Nat → LlmLogsPayload) : Nat :=
  if stopped then 0 else interactionTurns consume

/-- Claim C7 fails as stated: stopping is a no-op on the executor. At a
concrete in-flight run, applying the manager-level stop leaves the run
state untouched, and the run's result error is empty rather than the
synthetic Execution stopped. -/
theorem c7_counterexample :
    managerStop (streamRun probeTr inertVm [] (("slow();").toList)) =
      streamRun probeTr inertVm [] (("slow();").toList) ∧
    (streamRun probeTr inertVm [] (("slow();").toList)).error = [] ∧
    (streamRun probeTr inertVm [] (("slow();").toList)).error ≠
      ("Execution stopped").toList :=
  ⟨rfl, by decide, by decide⟩

/-- Claim C7 (amended): session-level stop sets the stopped flag, which the
interaction loop consults (a stopped session starts no further model
turns), but ExecutionManager.stop is a no-op: the in-flight interpreter
run is not aborted, no Execution stopped error is injected, and the
executor state is unchanged; stop after completion is likewise a no-op. -/
theorem c7_stop_amended :
    (∀ r : RuntimeState, (runtimeStop r).stopped = true ∧
      (runtimeStop r).execCtx = r.execCtx ∧
      (runtimeStop r).running = r.running) ∧
    (∀ st : RunOutcome, managerStop st = st) ∧
    (∀ consume : Nat → LlmLogsPayload, interactionTurnsFrom true consume = 0) :=
  ⟨fun _ => ⟨rfl, rfl, rfl⟩, fun _ => rfl, fun _ => rfl⟩

end Fenced

namespace Fenced

/-! ## Data: reactive records with a hidden identity

Model of the Data class. The valtio proxy is property-transparent, so the
record is modelled directly as a JavaScript object: a list of own
properties with attributes. -/

/-- A JavaScript property key: a string key or a registered symbol
(Symbol.for). -/
inductive JsKey where
  | strK : List Char → JsKey
  | symK : List Char → JsKey
deriving DecidableEq

/-- Property attributes as set by Object.defineProperty. -/
structure PropAttrs where
  enumerable : Bool
  writable : Bool
  configurable : Bool
deriving DecidableEq

/-- One own property of an object. -/
structure JsProp where
  key : JsKey
  val : JsVal
  attrs : PropAttrs
deriving DecidableEq

/-- A JavaScript object as its ordered list of own properties. -/
structure JsObject where
  props : List JsProp
deriving DecidableEq

/-- The hidden identity key Symbol.for fenced.data.id. -/
def DATA_ID : JsKey := JsKey.symK (("fenced.data.id").toList)

/-- Look up an own property. -/
def objFindProp (o : JsObject) (k : JsKey) : Option JsProp :=
  o.props.find? (fun p => (p.key = k : Bool))

/-- Attributes of an own property. -/
def attrsOf (o : JsObject) (k : JsKey) : Option PropAttrs :=
  (objFindProp o k).map (fun p => p.attrs)

/-- Whether a key is an own property. -/
def hasKey (o : JsObject) (k : JsKey) : Bool :=
  (objFindProp o k).isSome

/-- The Data constructor: wrap the record (the valtio proxy forwards
property operations to it) and defineProperty the hidden identity, not
enumerable, not writable, not configurable. -/
def mkData (initial : JsObject) (id : List Char) : JsObject :=
  ⟨initial.props ++ [⟨DATA_ID, JsVal.strV id, ⟨false, false, false⟩⟩]⟩

/-- Data.getId: read the identity property; a non-string id is the throw
case, modelled as none. -/
def getId (o : JsObject) : Option (List Char) :=
  match (objFindProp o DATA_ID).map (fun p => p.val) with
  | some (JsVal.strV id) => some id
  | _ => none

/-- Property assignment (sloppy mode): a write to a non-writable own
property is silently ignored; otherwise the value is updated in place, or
a fresh plain property is appended. -/
def jsSetProp (o : JsObject) (k : JsKey) (v : JsVal) : JsObject :=
  match objFindProp o k with
  | some p =>
    if p.attrs.writable then
      ⟨o.props.map (fun q => if (q.key = k : Bool) then {q with val := v} else q)⟩
    else o
  | none => ⟨o.props ++ [⟨k, v, ⟨true, true, true⟩⟩]⟩

/-- Property deletion (sloppy mode): delete removes a configurable own
property and is silently ignored on a non-configurable one. -/
def jsDeleteProp (o : JsObject) (k : JsKey) : JsObject :=
  match objFindProp o k with
  | some p =>
    if p.attrs.configurable then
      ⟨o.props.filter (fun q => !(q.key = k : Bool))⟩
    else o
  | none => o

/-- A mutation performed on the record after wrapping. -/
inductive ObjOp where
  | set : JsKey → JsVal → ObjOp
  | del : JsKey → ObjOp

/-- Apply a sequence of mutations. -/
def applyOps (o : JsObject) (ops : List ObjOp) : JsObject :=
  ops.foldl
    (fun acc op =>
      match op with
      | ObjOp.set k v => jsSetProp acc k v
      | ObjOp.del k => jsDeleteProp acc k) o

/-- Data.snapshot. Modelled from the spec for the external valtio snapshot
call: snapshot yields a deep copy of the record as a fresh plain object
(its own properties carry default attributes). The code then checks
DATA_ID in copy and deletes it; on the fresh copy the property is
configurable, so the delete removes it. -/
def snapshotData (o : JsObject) : JsObject :=
  jsDeleteProp ⟨o.props.map (fun p => ⟨p.key, p.val, ⟨true, true, true⟩⟩)⟩ DATA_ID

/-- A plain record: every key is a string key (so the hidden symbol cannot
already be present). -/
def stringKeyedB (o : JsObject) : Bool :=
  o.props.all (fun p => match p.key with | JsKey.strK _ => true | JsKey.symK _ => false)

theorem findProp_append_of_found (props l2 : List JsProp) (pr : JsProp)
    (pred : JsProp → Bool) (h : props.find? pred = some pr) :
    (props ++ l2).find? pred = some pr := by
  induction props with
  | nil => simp [List.find?] at h
  | cons q rest ih =>
    rw [List.cons_append]
    cases hq : pred q with
    | true => rw [List.find?_cons_of_pos _ hq] at h ⊢; exact h
    | false => rw [List.find?_cons_of_neg _ (by simp [hq])] at h ⊢; exact ih h

theorem findProp_append_of_none (props l2 : List JsProp)
    (pred : JsProp → Bool) (h : props.find? pred = none) :
    (props ++ l2).find? pred = l2.find? pred := by
  induction props with
  | nil => simp
  | cons q rest ih =>
    rw [List.cons_append]
    cases hq : pred q with
    | true => rw [List.find?_cons_of_pos _ hq] at h; cases h
    | false =>
      rw [List.find?_cons_of_neg _ (by simp [hq])] at h ⊢
      exact ih h

theorem findProp_map_setval (props : List JsProp) (k t : JsKey) (v : JsVal)
    (hne : t ≠ k) :
    (props.map (fun q => if (q.key = k : Bool) then {q with val := v} else q)).find?
        (fun p => (p.key = t : Bool)) =
      props.find? (fun p => (p.key = t : Bool)) := by
  induction props with
  | nil => rfl
  | cons q rest ih =>
    by_cases hk : q.key = k
    · have hqt : ¬ (q.key = t) := by rw [hk]; exact fun he => hne he.symm
      rw [List.map_cons, if_pos (by simp [hk])]
      rw [List.find?_cons_of_neg _ (by simp [hqt]), List.find?_cons_of_neg _ (by simp [hqt])]
      exact ih
    · rw [List.map_cons, if_neg (by simp [hk])]
      by_cases hqt : q.key = t
      · rw [List.find?_cons_of_pos _ (by simp [hqt]), List.find?_cons_of_pos _ (by simp [hqt])]
      · rw [List.find?_cons_of_neg _ (by simp [hqt]), List.find?_cons_of_neg _ (by simp [hqt])]
        exact ih

theorem findProp_filter_ne (props : List JsProp) (k t : JsKey) (hne : t ≠ k) :
    (props.filter (fun q => !(q.key = k : Bool))).find? (fun p => (p.key = t : Bool)) =
      props.find? (fun p => (p.key = t : Bool)) := by
  induction props with
  | nil => rfl
  | cons q rest ih =>
    by_cases hk : q.key = k
    · have hqt : ¬ (q.key = t) := by rw [hk]; exact fun he => hne he.symm
      rw [List.filter_cons_of_neg (by simp [hk]),
        List.find?_cons_of_neg _ (by simp [hqt])]
      exact ih
    · rw [List.filter_cons_of_pos (by simp [hk])]
      by_cases hqt : q.key = t
      · rw [List.find?_cons_of_pos _ (by simp [hqt]), List.find?_cons_of_pos _ (by simp [hqt])]
      · rw [List.find?_cons_of_neg _ (by simp [hqt]), List.find?_cons_of_neg _ (by simp [hqt])]
        exact ih

/-- The identity invariant: the identity property is present with the
constructed id, not enumerable, not writable, not configurable. -/
def IdInv (o : JsObject) (id : List Char) : Prop :=
  objFindProp o DATA_ID = some ⟨DATA_ID, JsVal.strV id, ⟨false, false, false⟩⟩

theorem idInv_mkData (initial : JsObject) (id : List Char)
    (hplain : stringKeyedB initial = true) : IdInv (mkData initial id) id := by
  have hnone : initial.props.find? (fun p => (p.key = DATA_ID : Bool)) = none := by
    rw [List.find?_eq_none]
    intro p hp
    have := (List.all_eq_true.1 hplain) p hp
    cases hk : p.key with
    | strK s => simp [hk, DATA_ID]
    | symK s => rw [hk] at this; simp at this
  unfold IdInv mkData objFindProp
  rw [findProp_append_of_none _ _ _ hnone]
  simp [List.find?]

theorem findProp_append_single_ne (props : List JsProp) (pr : JsProp) (t : JsKey)
    (hne : (pr.key = t : Bool) = false) :
    (props ++ [pr]).find? (fun q => (q.key = t : Bool)) =
      props.find? (fun q => (q.key = t : Bool)) := by
  cases hf : props.find? (fun q => (q.key = t : Bool)) with
  | some r => exact findProp_append_of_found _ _ _ _ hf
  | none =>
    rw [findProp_append_of_none _ _ _ hf,
      List.find?_cons_of_neg _ (by simp [hne])]
    rfl

theorem objFindProp_jsSetProp_ne (o : JsObject) (k t : JsKey) (v : JsVal)
    (hne : t ≠ k) : objFindProp (jsSetProp o k v) t = objFindProp o t := by
  unfold jsSetProp
  split
  · split
    · unfold objFindProp
      exact findProp_map_setval o.props k t v hne
    · rfl
  · unfold objFindProp
    refine findProp_append_single_ne o.props _ t ?_
    simp only [decide_eq_false_iff_not]
    exact fun he => hne he.symm

theorem objFindProp_jsDeleteProp_ne (o : JsObject) (k t : JsKey)
    (hne : t ≠ k) : objFindProp (jsDeleteProp o k) t = objFindProp o t := by
  unfold jsDeleteProp
  split
  · split
    · unfold objFindProp
      exact findProp_filter_ne o.props k t hne
    · rfl
  · rfl

theorem idInv_jsSetProp (o : JsObject) (id : List Char) (k : JsKey) (v : JsVal)
    (h : IdInv o id) : IdInv (jsSetProp o k v) id := by
  by_cases hk : k = DATA_ID
  · subst hk
    unfold IdInv jsSetProp
    rw [show objFindProp o DATA_ID =
      some ⟨DATA_ID, JsVal.strV id, ⟨false, false, false⟩⟩ from h]
    exact h
  · unfold IdInv
    rw [objFindProp_jsSetProp_ne o k DATA_ID v (fun he => hk he.symm)]
    exact h

theorem idInv_jsDeleteProp (o : JsObject) (id : List Char) (k : JsKey)
    (h : IdInv o id) : IdInv (jsDeleteProp o k) id := by
  by_cases hk : k = DATA_ID
  · subst hk
    unfold IdInv jsDeleteProp
    rw [show objFindProp o DATA_ID =
      some ⟨DATA_ID, JsVal.strV id, ⟨false, false, false⟩⟩ from h]
    exact h
  · unfold IdInv
    rw [objFindProp_jsDeleteProp_ne o k DATA_ID (fun he => hk he.symm)]
    exact h

theorem idInv_applyOps (o : JsObject) (id : List Char) (ops : List ObjOp)
    (h : IdInv o id) : IdInv (applyOps o ops) id := by
  induction ops generalizing o with
  | nil => exact h
  | cons op rest ih =>
    cases op with
    | set k v => exact ih _ (idInv_jsSetProp o id k v h)
    | del k => exact ih _ (idInv_jsDeleteProp o id k h)

/-- Snapshots never expose the identity key, for any record: the copy has
default attributes, so the delete always removes it when present. -/
theorem hasKey_snapshotData (o : JsObject) :
    hasKey (snapshotData o) DATA_ID = false := by
  unfold snapshotData jsDeleteProp
  split
  next p hfind =>
    have hattrs : p.attrs.configurable = true := by
      have hmem := List.mem_of_find?_eq_some hfind
      rcases List.mem_map.1 hmem with ⟨q, -, hq⟩
      rw [← hq]
    rw [if_pos hattrs]
    unfold hasKey objFindProp
    have hnone : List.find? (fun p => (p.key = DATA_ID : Bool))
        (List.filter (fun q => !(q.key = DATA_ID : Bool))
          (List.map (fun p => (⟨p.key, p.val, ⟨true, true, true⟩⟩ : JsProp)) o.props)) = none := by
      rw [List.find?_eq_none]
      intro q hq
      have := (List.mem_filter.1 hq).2
      simpa using this
    rw [hnone]
    rfl
  next hfind =>
    unfold hasKey
    rw [hfind]
    rfl

/-- Claim C8: for every plain record, the hidden identity property placed
by the Data constructor is not enumerable, not writable, not configurable;
Data.getId returns the same constructed identifier no matter what property
mutations run in between (the identity is neither overwritable nor
deletable); and Data.snapshot yields a copy without the identity key. -/
theorem c8_identity_invariants (initial : JsObject) (id : List Char)
    (ops : List ObjOp) (hplain : stringKeyedB initial = true) :
    attrsOf (mkData initial id) DATA_ID = some ⟨false, false, false⟩ ∧
    getId (applyOps (mkData initial id) ops) = some id ∧
    hasKey (snapshotData (applyOps (mkData initial id) ops)) DATA_ID = false := by
  have h0 := idInv_mkData initial id hplain
  have hops := idInv_applyOps _ id ops h0
  refine ⟨?_, ?_, hasKey_snapshotData _⟩
  · unfold attrsOf
    rw [show objFindProp (mkData initial id) DATA_ID = _ from h0]
    rfl
  · unfold getId
    rw [show objFindProp (applyOps (mkData initial id) ops) DATA_ID = _ from hops]
    rfl

theorem c8_witness :
    stringKeyedB ⟨[⟨JsKey.strK (("n").toList), JsVal.numV 0, ⟨true, true, true⟩⟩]⟩ = true ∧
    (attrsOf (mkData ⟨[⟨JsKey.strK (("n").toList), JsVal.numV 0, ⟨true, true, true⟩⟩]⟩
        (("id-1").toList)) DATA_ID = some ⟨false, false, false⟩ ∧
      getId (applyOps (mkData ⟨[⟨JsKey.strK (("n").toList), JsVal.numV 0, ⟨true, true, true⟩⟩]⟩
        (("id-1").toList))
        [ObjOp.set (JsKey.strK (("n").toList)) (JsVal.numV 7),
         ObjOp.del DATA_ID,
         ObjOp.set DATA_ID (JsVal.strV (("evil").toList))]) = some (("id-1").toList) ∧
      hasKey (snapshotData (applyOps (mkData ⟨[⟨JsKey.strK (("n").toList), JsVal.numV 0,
        ⟨true, true, true⟩⟩]⟩ (("id-1").toList))
        [ObjOp.set (JsKey.strK (("n").toList)) (JsVal.numV 7),
         ObjOp.del DATA_ID,
         ObjOp.set DATA_ID (JsVal.strV (("evil").toList))])) DATA_ID = false) :=
  ⟨by decide,
    c8_identity_invariants ⟨[⟨JsKey.strK (("n").toList), JsVal.numV 0, ⟨true, true, true⟩⟩]⟩
      (("id-1").toList)
      [ObjOp.set (JsKey.strK (("n").toList)) (JsVal.numV 7),
       ObjOp.del DATA_ID,
       ObjOp.set DATA_ID (JsVal.strV (("evil").toList))]
      (by decide)⟩

end Fenced

namespace Fenced

/-! ## WebSocketChannel: the mount-result protocol -/

/-- The channel state the mount-result protocol touches: the keys of the
pendingResults map, the resolver invocations in order (each fulfils the
result promise of that mount), and the mount identifiers logged with code
unknown_ui_submit. -/
structure ChannelState where
  pendingIds : List (List Char)
  resolutions : List (List Char × JsVal)
  unknownLogs : List (List Char)

/-- WebSocketChannel.sendMount: send the mount envelope and register a
pending resolver under the mount identifier (Map.set). -/
def sendMount (s : ChannelState) (mountId : List Char) : ChannelState :=
  { s with pendingIds := mountId :: s.pendingIds.filter (fun i => !(i = mountId : Bool)) }

/-- An inbound ui_submit payload. -/
structure UiSubmitPayload where
  mountId : List Char
  value : JsVal
deriving DecidableEq

/-- WebSocketChannel.resolveUiSubmit: with no pending resolver, log
unknown_ui_submit and drop; otherwise remove the entry and resolve the
promise with the submitted value. -/
def resolveUiSubmit (s : ChannelState) (p : UiSubmitPayload) : ChannelState :=
  if p.mountId ∈ s.pendingIds then
    { s with pendingIds := s.pendingIds.filter (fun i => !(i = p.mountId : Bool)),
             resolutions := s.resolutions ++ [(p.mountId, p.value)] }
  else
    { s with unknownLogs := s.unknownLogs ++ [p.mountId] }

/-- Process a sequence of inbound ui_submit frames in arrival order. -/
def processSubmits (s : ChannelState) (subs : List UiSubmitPayload) : ChannelState :=
  subs.foldl resolveUiSubmit s

theorem resolveUiSubmit_pos (s : ChannelState) (u : UiSubmitPayload)
    (h : u.mountId ∈ s.pendingIds) :
    resolveUiSubmit s u =
      { s with pendingIds := s.pendingIds.filter (fun i => !(i = u.mountId : Bool)),
               resolutions := s.resolutions ++ [(u.mountId, u.value)] } := by
  unfold resolveUiSubmit
  rw [if_pos h]

theorem resolveUiSubmit_neg (s : ChannelState) (u : UiSubmitPayload)
    (h : u.mountId ∉ s.pendingIds) :
    resolveUiSubmit s u = { s with unknownLogs := s.unknownLogs ++ [u.mountId] } := by
  unfold resolveUiSubmit
  rw [if_neg h]

theorem processSubmits_resolved (mid : List Char) :
    ∀ (subs : List UiSubmitPayload) (s : ChannelState), mid ∉ s.pendingIds →
      ((processSubmits s subs).resolutions.filter (fun r => (r.1 = mid : Bool)) =
        s.resolutions.filter (fun r => (r.1 = mid : Bool))) ∧
      ((processSubmits s subs).unknownLogs.filter (fun i => (i = mid : Bool))).length =
        (s.unknownLogs.filter (fun i => (i = mid : Bool))).length +
        (subs.filter (fun u => (u.mountId = mid : Bool))).length := by
  intro subs
  induction subs with
  | nil => intro s h; exact ⟨rfl, by simp [processSubmits]⟩
  | cons u rest ih =>
    intro s h
    have hstep : processSubmits s (u :: rest) = processSubmits (resolveUiSubmit s u) rest := rfl
    by_cases hum : u.mountId = mid
    · have hnotp : ¬ u.mountId ∈ s.pendingIds := by rw [hum]; exact h
      have hs' := resolveUiSubmit_neg s u hnotp
      have hnext : mid ∉ ({ s with unknownLogs := s.unknownLogs ++ [u.mountId] } :
          ChannelState).pendingIds := h
      rcases ih _ hnext with ⟨h1, h2⟩
      rw [hstep, hs']
      refine ⟨h1, ?_⟩
      rw [h2]
      simp [List.filter_append, hum, List.filter_cons]
      omega
    · by_cases hp : u.mountId ∈ s.pendingIds
      · have hs' := resolveUiSubmit_pos s u hp
        have hnext : mid ∉ ({ s with
            pendingIds := s.pendingIds.filter (fun i => !(i = u.mountId : Bool)),
            resolutions := s.resolutions ++ [(u.mountId, u.value)] } :
            ChannelState).pendingIds := by
          intro hmem
          exact h (List.mem_filter.1 hmem).1
        rcases ih _ hnext with ⟨h1, h2⟩
        rw [hstep, hs']
        constructor
        · rw [h1]
          simp [List.filter_append, hum]
        · rw [h2]
          simp [List.filter_cons, hum]
      · have hs' := resolveUiSubmit_neg s u hp
        have hnext : mid ∉ ({ s with unknownLogs := s.unknownLogs ++ [u.mountId] } :
            ChannelState).pendingIds := h
        rcases ih _ hnext with ⟨h1, h2⟩
        rw [hstep, hs']
        refine ⟨h1, ?_⟩
        rw [h2]
        simp [List.filter_append, hum, List.filter_cons]

theorem processSubmits_pending (mid : List Char) :
    ∀ (subs : List UiSubmitPayload) (s : ChannelState), mid ∈ s.pendingIds →
      s.resolutions.filter (fun r => (r.1 = mid : Bool)) = [] →
      (s.unknownLogs.filter (fun i => (i = mid : Bool))).length = 0 →
      ((processSubmits s subs).resolutions.filter (fun r => (r.1 = mid : Bool)) =
        (match (subs.filter (fun u => (u.mountId = mid : Bool))).head? with
          | some u => [(mid, u.value)]
          | none => [])) ∧
      ((processSubmits s subs).unknownLogs.filter (fun i => (i = mid : Bool))).length =
        (subs.filter (fun u => (u.mountId = mid : Bool))).length - 1 := by
  intro subs
  induction subs with
  | nil =>
    intro s hp hres hlog
    exact ⟨by simpa [processSubmits] using hres, by simpa [processSubmits] using hlog⟩
  | cons u rest ih =>
    intro s hp hres hlog
    have hstep : processSubmits s (u :: rest) = processSubmits (resolveUiSubmit s u) rest := rfl
    by_cases hum : u.mountId = mid
    · have hpm : u.mountId ∈ s.pendingIds := by rw [hum]; exact hp
      have hs' := resolveUiSubmit_pos s u hpm
      have hnext : mid ∉ ({ s with
          pendingIds := s.pendingIds.filter (fun i => !(i = u.mountId : Bool)),
          resolutions := s.resolutions ++ [(u.mountId, u.value)] } :
          ChannelState).pendingIds := by
        intro hmem
        have := (List.mem_filter.1 hmem).2
        rw [hum] at this
        simp at this
      rcases processSubmits_resolved mid rest _ hnext with ⟨h1, h2⟩
      rw [hstep, hs']
      constructor
      · rw [h1]
        simp [List.filter_append, List.filter_cons, hum, hres]
      · rw [h2]
        simp [List.filter_append, List.filter_cons, hum, hlog]
    · have hmine : (List.filter (fun u => (u.mountId = mid : Bool)) (u :: rest)) =
          List.filter (fun u => (u.mountId = mid : Bool)) rest := by
        simp [List.filter_cons, hum]
      by_cases hpu : u.mountId ∈ s.pendingIds
      · have hs' := resolveUiSubmit_pos s u hpu
        have hp' : mid ∈ ({ s with
            pendingIds := s.pendingIds.filter (fun i => !(i = u.mountId : Bool)),
            resolutions := s.resolutions ++ [(u.mountId, u.value)] } :
            ChannelState).pendingIds := by
          show mid ∈ s.pendingIds.filter (fun i => !(i = u.mountId : Bool))
          rw [List.mem_filter]
          refine ⟨hp, ?_⟩
          simp only [Bool.not_eq_eq_eq_not, Bool.not_true, decide_eq_false_iff_not]
          exact fun he => hum he.symm
        have hres' : (({ s with
            pendingIds := s.pendingIds.filter (fun i => !(i = u.mountId : Bool)),
            resolutions := s.resolutions ++ [(u.mountId, u.value)] } :
            ChannelState).resolutions).filter (fun r => (r.1 = mid : Bool)) = [] := by
          show ((s.resolutions ++ [(u.mountId, u.value)]).filter
            (fun r => (r.1 = mid : Bool))) = []
          simp [List.filter_append, hres, hum]
        have hlog' : ((({ s with
            pendingIds := s.pendingIds.filter (fun i => !(i = u.mountId : Bool)),
            resolutions := s.resolutions ++ [(u.mountId, u.value)] } :
            ChannelState).unknownLogs).filter (fun i => (i = mid : Bool))).length = 0 := hlog
        rcases ih _ hp' hres' hlog' with ⟨h1, h2⟩
        rw [hstep, hs']
        rw [hmine]
        exact ⟨h1, h2⟩
      · have hs' := resolveUiSubmit_neg s u hpu
        have hp' : mid ∈ ({ s with unknownLogs := s.unknownLogs ++ [u.mountId] } :
            ChannelState).pendingIds := hp
        have hres' : (({ s with unknownLogs := s.unknownLogs ++ [u.mountId] } :
            ChannelState).resolutions).filter (fun r => (r.1 = mid : Bool)) = [] := hres
        have hlog' : ((({ s with unknownLogs := s.unknownLogs ++ [u.mountId] } :
            ChannelState).unknownLogs).filter (fun i => (i = mid : Bool))).length = 0 := by
          show ((s.unknownLogs ++ [u.mountId]).filter (fun i => (i = mid : Bool))).length = 0
          simp [List.filter_append, List.filter_cons, hum, hlog]
        rcases ih _ hp' hres' hlog' with ⟨h1, h2⟩
        rw [hstep, hs']
        rw [hmine]
        exact ⟨h1, h2⟩

/-- Claim C9: for every mount, the result resolves exactly once, on the
first inbound ui_submit carrying its identifier, with that submission's
value; every subsequent submit for the identifier is logged with code
unknown_ui_submit and resolves nothing again (the resolver list for the
identifier keeps exactly one entry, and the unknown_ui_submit log count
for it is the number of submits beyond the first). -/
theorem c9_mount_result_exactly_once (s0 : ChannelState) (mid : List Char)
    (subs : List UiSubmitPayload)
    (hres : s0.resolutions.filter (fun r => (r.1 = mid : Bool)) = [])
    (hlog : (s0.unknownLogs.filter (fun i => (i = mid : Bool))).length = 0) :
    ((processSubmits (sendMount s0 mid) subs).resolutions.filter
        (fun r => (r.1 = mid : Bool)) =
      (match (subs.filter (fun u => (u.mountId = mid : Bool))).head? with
        | some u => [(mid, u.value)]
        | none => [])) ∧
    ((processSubmits (sendMount s0 mid) subs).unknownLogs.filter
        (fun i => (i = mid : Bool))).length =
      (subs.filter (fun u => (u.mountId = mid : Bool))).length - 1 := by
  refine processSubmits_pending mid subs (sendMount s0 mid) ?_ hres hlog
  unfold sendMount
  exact List.mem_cons_self _ _

theorem c9_witness :
    (([] : List ((List Char) × JsVal)).filter (fun r => (r.1 = ("m1").toList : Bool)) = []) ∧
    ((processSubmits (sendMount ⟨[], [], []⟩ (("m1").toList))
        [⟨("m1").toList, JsVal.numV 1⟩, ⟨("m1").toList, JsVal.numV 2⟩,
         ⟨("m2").toList, JsVal.numV 3⟩]).resolutions.filter
        (fun r => (r.1 = ("m1").toList : Bool)) = [((("m1").toList), JsVal.numV 1)]) ∧
    ((processSubmits (sendMount ⟨[], [], []⟩ (("m1").toList))
        [⟨("m1").toList, JsVal.numV 1⟩, ⟨("m1").toList, JsVal.numV 2⟩,
         ⟨("m2").toList, JsVal.numV 3⟩]).unknownLogs.filter
        (fun i => (i = ("m1").toList : Bool))).length = 1 := by
  have h := c9_mount_result_exactly_once ⟨[], [], []⟩ (("m1").toList)
    [⟨("m1").toList, JsVal.numV 1⟩, ⟨("m1").toList, JsVal.numV 2⟩,
     ⟨("m2").toList, JsVal.numV 3⟩] (by decide) (by decide)
  refine ⟨by decide, ?_, ?_⟩
  · have h1 := h.1
    rwa [show (List.filter (fun u => (u.mountId = ("m1").toList : Bool))
      [⟨("m1").toList, JsVal.numV 1⟩, ⟨("m1").toList, JsVal.numV 2⟩,
       ⟨("m2").toList, JsVal.numV 3⟩] : List UiSubmitPayload).head? =
      some ⟨("m1").toList, JsVal.numV 1⟩ from by decide] at h1
  · have h2 := h.2
    rwa [show (List.filter (fun u => (u.mountId = ("m1").toList : Bool))
      [⟨("m1").toList, JsVal.numV 1⟩, ⟨("m1").toList, JsVal.numV 2⟩,
       ⟨("m2").toList, JsVal.numV 3⟩] : List UiSubmitPayload).length = 2 from by decide] at h2

end Fenced

namespace Fenced

/-! ## Fence parser (SegmentParser)

Translation of packages/parser/src/index.ts. Segment bodies are
materialized: a segment is recorded in the output list when it closes, in
open order (segments never overlap, so open order and close order agree;
the markdown stream created for a passthrough stays open and keeps
collecting the surrounding prose, as in the source). -/

/-- The backtick character. -/
def btick : Char := Char.ofNat 96

/-- The fence sentinel, three backticks. -/
def fenceL : List Char := [btick, btick, btick]

/-- MAX_TAIL = FENCE.length - 1. -/
def MAX_TAIL : Nat := 2

/-- The whitespace set of updateLastNonWhitespace: space, tab, newline,
carriage return. -/
def isWsCore (c : Char) : Bool :=
  c = ' ' || c = '\t' || c = '\n' || c = '\r'

/-- Zero-width space. -/
def zwsp : Char := Char.ofNat 0x200B

/-- The character set of isWhitespaceOnly: also the zero-width space. -/
def isWsZ (c : Char) : Bool :=
  isWsCore c || c = zwsp

/-- isWhitespaceOnly. -/
def isWhitespaceOnly (l : List Char) : Bool := l.all isWsZ

/-- Length of the trailing backtick run of a list. -/
def trailTicks (l : List Char) : Nat :=
  (l.reverse.takeWhile (fun c => c = btick)).length

/-- countTrailingBackticks: the trailing backtick run, counted up to
MAX_TAIL. -/
def countTrailingBackticks (l : List Char) : Nat :=
  min (trailTicks l) MAX_TAIL

/-- buffer.indexOf of the fence sentinel. -/
def findFence : List Char → Option Nat
  | [] => none
  | c :: rest =>
    if fenceL.isPrefixOf (c :: rest) then some 0
    else (findFence rest).map (fun i => i + 1)

/-- buffer.indexOf of a newline, searching from index FENCE.length. -/
def findNlFrom3 (l : List Char) : Option Nat :=
  ((l.drop 3).findIdx? (fun c => c = '\n')).map (fun i => i + 3)

/-- stripCarriageReturn. -/
def stripCarriageReturn (l : List Char) : List Char :=
  if l.getLast? = some '\r' then l.dropLast else l

/-- isAgentRunHeader: the lowercased header equals tsx agent.run. -/
def isAgentRunHeader (header : List Char) : Bool :=
  header.map Char.toLower = ("tsx agent.run").toList

/-- Case-insensitive literal match: consume the expected (lowercase)
characters from the front and return the remainder. -/
def expectCI : List Char → List Char → Option (List Char)
  | [], rest => some rest
  | _ :: _, [] => none
  | k :: ks, c :: cs => if c.toLower = k then expectCI ks cs else none

/-- The single quote character. -/
def squote : Char := Char.ofNat 39

/-- A quote as matched by the data-header regex. -/
def isQuote (c : Char) : Bool := c = '"' || c = squote

/-- matchAgentDataHeader: the anchored case-insensitive regex json, one or
more whitespace, agent.data, optional whitespace, the arrow, optional
whitespace, a quote, a non-empty run of non-quote characters (captured),
a quote, end. -/
def matchAgentDataHeader (header : List Char) : Option (List Char) :=
  match expectCI (("json").toList) header with
  | none => none
  | some r1 =>
    match r1 with
    | [] => none
    | c :: r2 =>
      if jsWs c then
        match expectCI (("agent.data").toList) (r2.dropWhile jsWs) with
        | none => none
        | some r4 =>
          match r4.dropWhile jsWs with
          | '=' :: '>' :: r6 =>
            match r6.dropWhile jsWs with
            | [] => none
            | q :: r8 =>
              if isQuote q then
                let idPart := r8.takeWhile (fun c => !(isQuote c))
                match r8.dropWhile (fun c => !(isQuote c)) with
                | [q2] => if isQuote q2 ∧ idPart ≠ [] then some idPart else none
                | _ => none
              else none
          | _ => none
      else none

/-- The classification of a recognized fence header. -/
inductive BlockInfo where
  | runInfo : BlockInfo
  | dataInfo : List Char → BlockInfo
deriving DecidableEq

/-- SegmentParser.parseHeader. -/
def parseHeader (header : List Char) : Option BlockInfo :=
  if isAgentRunHeader header then some BlockInfo.runInfo
  else (matchAgentDataHeader header).map BlockInfo.dataInfo

/-- A parser segment with its fully collected body. -/
inductive ParserSeg where
  | markdownSeg : List Char → ParserSeg
  | agentRunSeg : Nat → List Char → ParserSeg
  | agentDataSeg : Nat → List Char → List Char → ParserSeg
deriving DecidableEq

/-- The active block of the parser. -/
inductive ActiveBlock where
  | agentRunB : Nat → List Char → Option Char → ActiveBlock
  | agentDataB : Nat → List Char → List Char → ActiveBlock
  | passthroughB : ActiveBlock
deriving DecidableEq

/-- SegmentParser state: the pending buffer, the block counter, the open
markdown body if a markdown stream is open, the active block (a
passthrough pushes into the open markdown stream), and the segments
closed so far. -/
structure ParserState where
  buffer : List Char
  blockIndex : Nat
  mdStream : Option (List Char)
  activeBlock : Option ActiveBlock
  out : List ParserSeg
deriving DecidableEq

/-- A fresh SegmentParser. -/
def initParser : ParserState := ⟨[], 0, none, none, []⟩

/-- updateLastNonWhitespace: the last non-whitespace character of the
chunk, keeping the previous value when the chunk is all whitespace. -/
def updateLastNonWhitespace (lnw : Option Char) (chunk : List Char) : Option Char :=
  match chunk.reverse.find? (fun c => !(isWsCore c)) with
  | some c => some c
  | none => lnw

/-- SegmentParser.pushMarkdown: drop empty text; drop whitespace-only text
when no markdown stream is open; otherwise append to the open stream or
open a fresh one. -/
def pushMarkdown (s : ParserState) (text : List Char) : ParserState :=
  if text = [] then s
  else if s.mdStream = none ∧ isWhitespaceOnly text then s
  else
    match s.mdStream with
    | some b => { s with mdStream := some (b ++ text) }
    | none => { s with mdStream := some text }

/-- ensureMarkdownStream followed by stream.push: used for passthrough
headers and bodies, which bypass the whitespace suppression (during a
passthrough the markdown stream is always open). -/
def pushMarkdownForce (s : ParserState) (text : List Char) : ParserState :=
  if text = [] then s
  else
    match s.mdStream with
    | some b => { s with mdStream := some (b ++ text) }
    | none => { s with mdStream := some text }

/-- SegmentParser.closeMarkdownStream: emit the collected markdown body. -/
def closeMarkdownStream (s : ParserState) : ParserState :=
  match s.mdStream with
  | some b => { s with mdStream := none, out := s.out ++ [ParserSeg.markdownSeg b] }
  | none => s

/-- Body finalization of closeAgentRunBlock: append a semicolon when the
last non-whitespace character exists and is not a semicolon. -/
def closeAgentRunBody (body : List Char) (lnw : Option Char) : List Char :=
  match lnw with
  | some c => if c ≠ ';' then body ++ [';'] else body
  | none => body

/-- Close the active agent-run block. -/
def closeRunState (s : ParserState) : ParserState :=
  match s.activeBlock with
  | some (ActiveBlock.agentRunB idx body lnw) =>
    { s with activeBlock := none,
             out := s.out ++ [ParserSeg.agentRunSeg idx (closeAgentRunBody body lnw)] }
  | _ => s

/-- Close the active agent-data block. -/
def closeDataState (s : ParserState) : ParserState :=
  match s.activeBlock with
  | some (ActiveBlock.agentDataB idx id body) =>
    { s with activeBlock := none,
             out := s.out ++ [ParserSeg.agentDataSeg idx id body] }
  | _ => s

/-- Result of one iteration of the drain loop: stop, or continue with the
updated state (the progressed flag of the source). -/
inductive StepRes where
  | done : ParserState → StepRes
  | more : ParserState → StepRes
deriving DecidableEq

/-- The guarded prose emission of flushMarkdown: push the first emitLength
buffered characters when there are any. -/
def flushEmit (s : ParserState) (emitLength : Nat) : ParserState :=
  if 0 < emitLength then
    pushMarkdown { s with buffer := s.buffer.drop emitLength } (s.buffer.take emitLength)
  else s

/-- The final-flush remainder push of flushMarkdown. -/
def flushFinalRest (s1 : ParserState) : ParserState :=
  if s1.buffer ≠ [] then pushMarkdown { s1 with buffer := [] } s1.buffer else s1

/-- SegmentParser.flushMarkdown: emit the buffer as prose, holding back up
to MAX_TAIL trailing backticks unless the stream is final. -/
def flushMarkdown (final : Bool) (s : ParserState) : ParserState :=
  if s.buffer = [] then
    (if final then closeMarkdownStream s else s)
  else
    let keep := if final then 0 else min (countTrailingBackticks s.buffer) MAX_TAIL
    let s1 := flushEmit s (s.buffer.length - keep)
    if final then closeMarkdownStream (flushFinalRest s1) else s1

/-- Partial body emission of consumeAgentRunBlock: move the first
emitLength buffered characters into the run body (no-op without any). -/
def runEmit (s : ParserState) (idx : Nat) (body : List Char) (lnw : Option Char)
    (emitLength : Nat) : ParserState :=
  if 0 < emitLength then
    { s with buffer := s.buffer.drop emitLength
             activeBlock := some (ActiveBlock.agentRunB idx
               (body ++ s.buffer.take emitLength)
               (updateLastNonWhitespace lnw (s.buffer.take emitLength))) }
  else s

/-- Fence found inside a run block: move the prefix into the body and drop
it with the sentinel from the buffer. -/
def runTakeClose (s : ParserState) (idx : Nat) (body : List Char) (lnw : Option Char)
    (i : Nat) : ParserState :=
  { s with buffer := s.buffer.drop (i + 3)
           activeBlock := some (ActiveBlock.agentRunB idx (body ++ s.buffer.take i)
             (updateLastNonWhitespace lnw (s.buffer.take i))) }

/-- Partial body emission of consumeAgentDataBlock. -/
def dataEmit (s : ParserState) (idx : Nat) (id body : List Char)
    (emitLength : Nat) : ParserState :=
  if 0 < emitLength then
    { s with buffer := s.buffer.drop emitLength
             activeBlock := some (ActiveBlock.agentDataB idx id
               (body ++ s.buffer.take emitLength)) }
  else s

/-- Fence found inside a data block. -/
def dataTakeClose (s : ParserState) (idx : Nat) (id body : List Char)
    (i : Nat) : ParserState :=
  { s with buffer := s.buffer.drop (i + 3)
           activeBlock := some (ActiveBlock.agentDataB idx id (body ++ s.buffer.take i)) }

/-- Final flush of an unterminated passthrough: push the whole buffer into
the markdown stream and end the block. -/
def passFinal (s : ParserState) : ParserState :=
  { (pushMarkdownForce s s.buffer) with buffer := [], activeBlock := none }

/-- Partial passthrough emission, holding back trailing backticks. -/
def passEmit (s : ParserState) (emitLength : Nat) : ParserState :=
  { (pushMarkdownForce s (s.buffer.take emitLength)) with
    buffer := s.buffer.drop emitLength }

/-- Closing fence of a passthrough: push the prefix and the sentinel back
into the surrounding prose. -/
def passClose (s : ParserState) (i : Nat) : ParserState :=
  { (pushMarkdownForce (pushMarkdownForce s (s.buffer.take i)) fenceL) with
    buffer := s.buffer.drop (i + 3), activeBlock := none }

/-- End of stream inside an unterminated fence header: emit the buffer as
plain markdown and close the stream. -/
def headerAbort (s : ParserState) : ParserState :=
  closeMarkdownStream (pushMarkdown { s with buffer := [] } s.buffer)

/-- Prose before a fence: emit the prefix as markdown. -/
def proseChunk (s : ParserState) (fi : Nat) : ParserState :=
  pushMarkdown { s with buffer := s.buffer.drop fi } (s.buffer.take fi)

/-- A complete fence header: classify it and open the matching block, or
start a passthrough that replays the header into the prose stream. -/
def openFromHeader (s : ParserState) (he : Nat) : ParserState :=
  let rawHeader := stripCarriageReturn ((s.buffer.take he).drop 3)
  let s0 : ParserState := { s with buffer := s.buffer.drop (he + 1) }
  match parseHeader (jsTrim rawHeader) with
  | none =>
    { (pushMarkdownForce s0 (fenceL ++ rawHeader ++ ['\n'])) with
      activeBlock := some ActiveBlock.passthroughB }
  | some BlockInfo.runInfo =>
    { (closeMarkdownStream s0) with
      blockIndex := s0.blockIndex + 1
      activeBlock := some (ActiveBlock.agentRunB s0.blockIndex [] none) }
  | some (BlockInfo.dataInfo id) =>
    { (closeMarkdownStream s0) with
      blockIndex := s0.blockIndex + 1
      activeBlock := some (ActiveBlock.agentDataB s0.blockIndex id []) }

/-- One iteration of SegmentParser.drain: consume the active block if any
(consumeAgentRunBlock, consumeAgentDataBlock, consumePassthroughBlock),
otherwise look for a fence, emit leading prose, or open a block from a
complete header. The source's unreachable guard branch for a fence match
that does not start the buffer is omitted. -/
def stepP (final : Bool) (s : ParserState) : StepRes :=
  match s.activeBlock with
  | some (ActiveBlock.agentRunB idx body lnw) =>
    match findFence s.buffer with
    | none =>
      if final then StepRes.more (closeRunState (runEmit s idx body lnw s.buffer.length))
      else if 0 < s.buffer.length - MAX_TAIL then
        StepRes.more (runEmit s idx body lnw (s.buffer.length - MAX_TAIL))
      else StepRes.done s
    | some i => StepRes.more (closeRunState (runTakeClose s idx body lnw i))
  | some (ActiveBlock.agentDataB idx id body) =>
    match findFence s.buffer with
    | none =>
      if final then StepRes.more (closeDataState (dataEmit s idx id body s.buffer.length))
      else if 0 < s.buffer.length - MAX_TAIL then
        StepRes.more (dataEmit s idx id body (s.buffer.length - MAX_TAIL))
      else StepRes.done s
    | some i => StepRes.more (closeDataState (dataTakeClose s idx id body i))
  | some ActiveBlock.passthroughB =>
    match findFence s.buffer with
    | none =>
      if final then StepRes.more (passFinal s)
      else if 0 < s.buffer.length - min (countTrailingBackticks s.buffer) MAX_TAIL then
        StepRes.more (passEmit s
          (s.buffer.length - min (countTrailingBackticks s.buffer) MAX_TAIL))
      else StepRes.done s
    | some i => StepRes.more (passClose s i)
  | none =>
    match findFence s.buffer with
    | none => StepRes.done (flushMarkdown final s)
    | some fi =>
      if fi = 0 then
        match findNlFrom3 s.buffer with
        | none =>
          if final then StepRes.done (headerAbort s) else StepRes.done s
        | some he => StepRes.more (openFromHeader s he)
      else StepRes.more (proseChunk s fi)

/-- The drain loop, by fuel; pMeasure bounds the number of iterations. -/
def drainF : Nat → Bool → ParserState → ParserState
  | 0, _, s => s
  | fuel + 1, final, s =>
    match stepP final s with
    | StepRes.done s' => s'
    | StepRes.more s' => drainF fuel final s'

/-- Iteration bound for the drain loop: every progressing iteration either
consumes buffer or clears the active block. -/
def pMeasure (s : ParserState) : Nat :=
  2 * s.buffer.length + (if s.activeBlock.isSome then 1 else 0) + 1

/-- SegmentParser.drain. -/
def drainP (final : Bool) (s : ParserState) : ParserState :=
  drainF (pMeasure s) final s

/-- SegmentParser.append. -/
def appendChunk (s : ParserState) (text : List Char) : ParserState :=
  { s with buffer := s.buffer ++ text }

/-- One chunk arrival: append then a non-final drain. -/
def stepChunk (s : ParserState) (text : List Char) : ParserState :=
  drainP false (appendChunk s text)

/-- The exported parse function: feed every chunk, then the final drain;
the result is the closed segment sequence. -/
def parse (chunks : List (List Char)) : List ParserSeg :=
  (drainP true (chunks.foldl stepChunk initParser)).out

end Fenced

namespace Fenced

/-! ## Code-segment terminator (C3) -/

/-- The last non-whitespace character of a collected body. -/
def lastNonWsOf (l : List Char) : Option Char :=
  l.reverse.find? (fun c => !(isWsCore c))

/-- Whether a body ends with a semicolon, ignoring trailing whitespace. -/
def endsWithSemi (l : List Char) : Bool :=
  match (l.reverse.dropWhile isWsCore).head? with
  | some c => c == ';'
  | none => false

theorem find?_append_chars (l1 l2 : List Char) (p : Char → Bool) :
    (l1 ++ l2).find? p = ((l1.find? p).orElse (fun _ => l2.find? p)) := by
  induction l1 with
  | nil => simp [Option.orElse]
  | cons c rest ih =>
    cases hc : p c with
    | true => rw [List.cons_append, List.find?_cons_of_pos _ hc, List.find?_cons_of_pos _ hc]; rfl
    | false =>
      rw [List.cons_append, List.find?_cons_of_neg _ (by simp [hc]),
        List.find?_cons_of_neg _ (by simp [hc])]
      exact ih

theorem updateLastNonWhitespace_spec (b chunk : List Char) :
    updateLastNonWhitespace (lastNonWsOf b) chunk = lastNonWsOf (b ++ chunk) := by
  unfold updateLastNonWhitespace lastNonWsOf
  rw [List.reverse_append, find?_append_chars]
  cases hf : chunk.reverse.find? (fun c => !(isWsCore c)) with
  | some c => rfl
  | none => rfl

theorem find?_semi_dropWhile (l : List Char)
    (h : l.find? (fun c => !(isWsCore c)) = some ';') :
    (l.dropWhile isWsCore).head? = some ';' := by
  induction l with
  | nil => simp [List.find?] at h
  | cons c rest ih =>
    cases hc : isWsCore c with
    | true =>
      rw [List.find?_cons_of_neg _ (by simp [hc])] at h
      rw [List.dropWhile_cons_of_pos hc]
      exact ih h
    | false =>
      rw [List.find?_cons_of_pos _ (by simp [hc])] at h
      rw [List.dropWhile_cons_of_neg (by simp [hc])]
      simpa using h

theorem closeAgentRunBody_ok (body : List Char) :
    (closeAgentRunBody body (lastNonWsOf body)).any (fun c => !(isWsCore c)) = true →
    endsWithSemi (closeAgentRunBody body (lastNonWsOf body)) = true := by
  intro hany
  unfold closeAgentRunBody at hany ⊢
  cases hl : lastNonWsOf body with
  | none =>
    rw [hl] at hany
    exfalso
    rcases List.any_eq_true.1 hany with ⟨c, hc, hnc⟩
    have : body.reverse.find? (fun c => !(isWsCore c)) = none := hl
    rw [List.find?_eq_none] at this
    exact absurd hnc (by simpa using this c (List.mem_reverse.2 hc))
  | some c =>
    by_cases hsemi : c = ';'
    · subst hsemi
      simp only [hl, ne_eq, not_true_eq_false, ite_false, if_neg]
      unfold endsWithSemi
      rw [find?_semi_dropWhile body.reverse hl]
      rfl
    · simp only [hl, ne_eq, hsemi, not_false_eq_true, ite_true, if_pos]
      unfold endsWithSemi
      rw [List.reverse_append]
      simp only [List.reverse_cons, List.reverse_nil, List.nil_append, List.singleton_append]
      rw [List.dropWhile_cons_of_neg (by decide)]
      rfl

/-- No semicolon duty for non-run segments; for a run segment with a
non-whitespace body character the body ends with a semicolon ignoring
trailing whitespace. -/
def RunSegOk (seg : ParserSeg) : Prop :=
  ∀ i body, seg = ParserSeg.agentRunSeg i body →
    body.any (fun c => !(isWsCore c)) = true → endsWithSemi body = true

/-- The terminator invariant: every closed run segment satisfies RunSegOk,
and the active run block's tracked character is the last non-whitespace
character of its collected body. -/
def TermInv (s : ParserState) : Prop :=
  (∀ seg ∈ s.out, RunSegOk seg) ∧
  (∀ idx body lnw, s.activeBlock = some (ActiveBlock.agentRunB idx body lnw) →
    lnw = lastNonWsOf body)

theorem termInv_transfer (s s' : ParserState) (hout : s'.out = s.out)
    (hact : s'.activeBlock = s.activeBlock) (h : TermInv s) : TermInv s' := by
  refine ⟨?_, ?_⟩
  · rw [hout]; exact h.1
  · intro idx body lnw hb
    rw [hact] at hb
    exact h.2 idx body lnw hb

theorem pushMarkdown_out (s : ParserState) (t : List Char) :
    (pushMarkdown s t).out = s.out ∧ (pushMarkdown s t).activeBlock = s.activeBlock := by
  unfold pushMarkdown
  split
  · exact ⟨rfl, rfl⟩
  · split
    · exact ⟨rfl, rfl⟩
    · split <;> exact ⟨rfl, rfl⟩

theorem pushMarkdownForce_out (s : ParserState) (t : List Char) :
    (pushMarkdownForce s t).out = s.out ∧
    (pushMarkdownForce s t).activeBlock = s.activeBlock := by
  unfold pushMarkdownForce
  split
  · exact ⟨rfl, rfl⟩
  · split <;> exact ⟨rfl, rfl⟩

theorem termInv_pushMarkdown (s : ParserState) (t : List Char) (h : TermInv s) :
    TermInv (pushMarkdown s t) :=
  termInv_transfer s _ (pushMarkdown_out s t).1 (pushMarkdown_out s t).2 h

theorem termInv_pushMarkdownForce (s : ParserState) (t : List Char) (h : TermInv s) :
    TermInv (pushMarkdownForce s t) :=
  termInv_transfer s _ (pushMarkdownForce_out s t).1 (pushMarkdownForce_out s t).2 h

theorem termInv_closeMarkdownStream (s : ParserState) (h : TermInv s) :
    TermInv (closeMarkdownStream s) := by
  unfold closeMarkdownStream
  split
  · refine ⟨?_, h.2⟩
    intro seg hseg
    rcases List.mem_append.1 hseg with hm | hm
    · exact h.1 seg hm
    · simp only [List.mem_singleton] at hm
      subst hm
      intro i body hb
      cases hb
  · exact h

theorem termInv_flushEmit (s : ParserState) (e : Nat) (h : TermInv s) :
    TermInv (flushEmit s e) := by
  unfold flushEmit
  split
  · exact termInv_pushMarkdown _ _ h
  · exact h

theorem termInv_flushFinalRest (s : ParserState) (h : TermInv s) :
    TermInv (flushFinalRest s) := by
  unfold flushFinalRest
  split
  · exact termInv_pushMarkdown _ _ h
  · exact h

theorem termInv_flushMarkdown (final : Bool) (s : ParserState) (h : TermInv s) :
    TermInv (flushMarkdown final s) := by
  unfold flushMarkdown
  split
  · split
    · exact termInv_closeMarkdownStream s h
    · exact h
  · split
    · exact termInv_closeMarkdownStream _
        (termInv_flushFinalRest _ (termInv_flushEmit _ _ h))
    · exact termInv_flushEmit _ _ h

theorem termInv_closeRunState (s : ParserState) (h : TermInv s) :
    TermInv (closeRunState s) := by
  unfold closeRunState
  split
  next idx body lnw hact =>
    have hlnw := h.2 idx body lnw hact
    refine ⟨?_, ?_⟩
    · intro seg hseg
      rcases List.mem_append.1 hseg with hm | hm
      · exact h.1 seg hm
      · simp only [List.mem_singleton] at hm
        subst hm
        intro i b hb hany
        cases hb
        rw [hlnw]
        rw [hlnw] at hany
        exact closeAgentRunBody_ok body hany
    · intro idx2 body2 lnw2 hb
      cases hb
  next hact => exact h

theorem termInv_closeDataState (s : ParserState) (h : TermInv s) :
    TermInv (closeDataState s) := by
  unfold closeDataState
  split
  next idx id body hact =>
    refine ⟨?_, ?_⟩
    · intro seg hseg
      rcases List.mem_append.1 hseg with hm | hm
      · exact h.1 seg hm
      · simp only [List.mem_singleton] at hm
        subst hm
        intro i b hb
        cases hb
    · intro idx2 body2 lnw2 hb
      cases hb
  next hact => exact h

end Fenced

namespace Fenced

theorem termInv_runEmit (s : ParserState) (idx : Nat) (body : List Char)
    (lnw : Option Char) (e : Nat) (h : TermInv s)
    (hact : s.activeBlock = some (ActiveBlock.agentRunB idx body lnw)) :
    TermInv (runEmit s idx body lnw e) := by
  have hlnw := h.2 idx body lnw hact
  unfold runEmit
  split
  · refine ⟨h.1, ?_⟩
    intro i2 b2 l2 hb
    simp only at hb
    cases hb
    rw [hlnw]
    exact updateLastNonWhitespace_spec body _
  · exact h

theorem termInv_runTakeClose (s : ParserState) (idx : Nat) (body : List Char)
    (lnw : Option Char) (i : Nat) (h : TermInv s)
    (hact : s.activeBlock = some (ActiveBlock.agentRunB idx body lnw)) :
    TermInv (runTakeClose s idx body lnw i) := by
  have hlnw := h.2 idx body lnw hact
  unfold runTakeClose
  refine ⟨h.1, ?_⟩
  intro i2 b2 l2 hb
  simp only at hb
  cases hb
  rw [hlnw]
  exact updateLastNonWhitespace_spec body _

theorem termInv_dataEmit (s : ParserState) (idx : Nat) (id body : List Char)
    (e : Nat) (h : TermInv s) : TermInv (dataEmit s idx id body e) := by
  unfold dataEmit
  split
  · refine ⟨h.1, ?_⟩
    intro i2 b2 l2 hb
    simp only at hb
    cases hb
  · exact h

theorem termInv_dataTakeClose (s : ParserState) (idx : Nat) (id body : List Char)
    (i : Nat) (h : TermInv s) : TermInv (dataTakeClose s idx id body i) := by
  unfold dataTakeClose
  refine ⟨h.1, ?_⟩
  intro i2 b2 l2 hb
  simp only at hb
  cases hb

theorem termInv_passFinal (s : ParserState) (h : TermInv s) :
    TermInv (passFinal s) := by
  unfold passFinal
  refine ⟨((pushMarkdownForce_out s s.buffer).1) ▸ h.1, ?_⟩
  intro i2 b2 l2 hb
  simp only at hb
  cases hb

theorem termInv_passEmit (s : ParserState) (e : Nat) (h : TermInv s)
    (hact : s.activeBlock = some ActiveBlock.passthroughB) :
    TermInv (passEmit s e) := by
  unfold passEmit
  refine ⟨((pushMarkdownForce_out s _).1) ▸ h.1, ?_⟩
  intro i2 b2 l2 hb
  simp only [(pushMarkdownForce_out s _).2, hact, Option.some.injEq] at hb
  cases hb

theorem termInv_passClose (s : ParserState) (i : Nat) (h : TermInv s) :
    TermInv (passClose s i) := by
  unfold passClose
  have h1 := termInv_pushMarkdownForce s (s.buffer.take i) h
  have h2 := termInv_pushMarkdownForce _ fenceL h1
  refine ⟨h2.1, ?_⟩
  intro i2 b2 l2 hb
  simp only at hb
  cases hb

theorem termInv_proseChunk (s : ParserState) (fi : Nat) (h : TermInv s) :
    TermInv (proseChunk s fi) := by
  unfold proseChunk
  exact termInv_pushMarkdown _ _ (termInv_transfer s _ rfl rfl h)

theorem termInv_openFromHeader (s : ParserState) (he : Nat) (h : TermInv s) :
    TermInv (openFromHeader s he) := by
  simp only [openFromHeader]
  split
  · have h1 := termInv_pushMarkdownForce { s with buffer := s.buffer.drop (he + 1) }
      (fenceL ++ stripCarriageReturn ((s.buffer.take he).drop 3) ++ ['\n'])
      (termInv_transfer s _ rfl rfl h)
    refine ⟨h1.1, ?_⟩
    intro i2 b2 l2 hb
    simp only at hb
    cases hb
  · have h1 := termInv_closeMarkdownStream { s with buffer := s.buffer.drop (he + 1) }
      (termInv_transfer s _ rfl rfl h)
    refine ⟨h1.1, ?_⟩
    intro i2 b2 l2 hb
    simp only at hb
    cases hb
    rfl
  · have h1 := termInv_closeMarkdownStream { s with buffer := s.buffer.drop (he + 1) }
      (termInv_transfer s _ rfl rfl h)
    refine ⟨h1.1, ?_⟩
    intro i2 b2 l2 hb
    simp only at hb
    cases hb

theorem termInv_stepP_more (final : Bool) (s t : ParserState) (h : TermInv s)
    (hstep : stepP final s = StepRes.more t) : TermInv t := by
  unfold stepP at hstep
  split at hstep
  next idx body lnw hact =>
    split at hstep
    · split at hstep
      · cases hstep
        exact termInv_closeRunState _ (termInv_runEmit s idx body lnw _ h hact)
      · split at hstep
        · cases hstep
          exact termInv_runEmit s idx body lnw _ h hact
        · cases hstep
    · cases hstep
      exact termInv_closeRunState _ (termInv_runTakeClose s idx body lnw _ h hact)
  next idx id body hact =>
    split at hstep
    · split at hstep
      · cases hstep
        exact termInv_closeDataState _ (termInv_dataEmit s idx id body _ h)
      · split at hstep
        · cases hstep
          exact termInv_dataEmit s idx id body _ h
        · cases hstep
    · cases hstep
      exact termInv_closeDataState _ (termInv_dataTakeClose s idx id body _ h)
  next hact =>
    split at hstep
    · split at hstep
      · cases hstep
        exact termInv_passFinal s h
      · split at hstep
        · cases hstep
          exact termInv_passEmit s _ h hact
        · cases hstep
    · cases hstep
      exact termInv_passClose s _ h
  next hact =>
    split at hstep
    · cases hstep
    · split at hstep
      · split at hstep
        · split at hstep <;> cases hstep
        · cases hstep
          exact termInv_openFromHeader s _ h
      · cases hstep
        exact termInv_proseChunk s _ h

theorem termInv_stepP_done (final : Bool) (s t : ParserState) (h : TermInv s)
    (hstep : stepP final s = StepRes.done t) : TermInv t := by
  unfold stepP at hstep
  split at hstep
  · split at hstep
    · split at hstep
      · cases hstep
      · split at hstep
        · cases hstep
        · cases hstep; exact h
    · cases hstep
  · split at hstep
    · split at hstep
      · cases hstep
      · split at hstep
        · cases hstep
        · cases hstep; exact h
    · cases hstep
  · split at hstep
    · split at hstep
      · cases hstep
      · split at hstep
        · cases hstep
        · cases hstep; exact h
    · cases hstep
  · split at hstep
    · cases hstep
      exact termInv_flushMarkdown final s h
    · split at hstep
      · split at hstep
        · split at hstep
          · cases hstep
            unfold headerAbort
            exact termInv_closeMarkdownStream _
              (termInv_pushMarkdown _ _ (termInv_transfer s _ rfl rfl h))
          · cases hstep; exact h
        · cases hstep
      · cases hstep

theorem termInv_drainF (fuel : Nat) (final : Bool) :
    ∀ s, TermInv s → TermInv (drainF fuel final s) := by
  induction fuel with
  | zero => intro s h; exact h
  | succ f ih =>
    intro s h
    simp only [drainF]
    cases hstep : stepP final s with
    | done t => exact termInv_stepP_done final s t h hstep
    | more t => exact ih t (termInv_stepP_more final s t h hstep)

theorem termInv_parse (chunks : List (List Char)) :
    ∀ seg ∈ parse chunks, RunSegOk seg := by
  have hinit : TermInv initParser := by
    refine ⟨?_, ?_⟩
    · intro seg hseg; cases hseg
    · intro idx body lnw hb; cases hb
  have hfold : TermInv (chunks.foldl stepChunk initParser) := by
    have hgen : ∀ (cs : List (List Char)) (s : ParserState), TermInv s →
        TermInv (cs.foldl stepChunk s) := by
      intro cs
      induction cs with
      | nil => intro s h; exact h
      | cons c rest ih =>
        intro s h
        exact ih _ (termInv_drainF _ false _ (termInv_transfer s _ rfl rfl h))
    exact hgen chunks initParser hinit
  exact (termInv_drainF _ true _ hfold).1

end Fenced

namespace Fenced

/-- Claim C3 fails as stated: a code fence whose body is only whitespace
closes without any terminator (there is no last non-whitespace byte), so
its body does not end with a semicolon even ignoring trailing whitespace. -/
theorem c3_counterexample :
    parse [("```tsx agent.run\n\n```").toList] =
      [ParserSeg.agentRunSeg 0 (("\n").toList)] ∧
    endsWithSemi (("\n").toList) = false :=
  ⟨by decide, by decide⟩

/-- Claim C3 (amended): every emitted code segment whose consumed body
contains at least one non-whitespace byte ends with a semicolon ignoring
trailing whitespace; and at close the parser appends a semicolon token
exactly when the last non-whitespace byte of the body is not already a
semicolon. -/
theorem c3_code_terminator_amended :
    (∀ (chunks : List (List Char)) (i : Nat) (body : List Char),
      ParserSeg.agentRunSeg i body ∈ parse chunks →
      body.any (fun c => !(isWsCore c)) = true → endsWithSemi body = true) ∧
    (∀ (b : List Char) (c : Char), lastNonWsOf b = some c → ¬ c = ';' →
      closeAgentRunBody b (lastNonWsOf b) = b ++ [';']) := by
  constructor
  · intro chunks i body hmem hany
    exact termInv_parse chunks _ hmem i body rfl hany
  · intro b c hl hc
    unfold closeAgentRunBody
    rw [hl]
    simp [hc]

theorem c3_witness :
    endsWithSemi (("foo()\n;").toList) = true ∧
    closeAgentRunBody (("foo()").toList) (lastNonWsOf (("foo()").toList)) =
      ("foo()").toList ++ [';'] := by
  constructor
  · exact c3_code_terminator_amended.1 [("```tsx agent.run\nfoo()\n```").toList] 0
      (("foo()\n;").toList) (by decide) (by decide)
  · exact c3_code_terminator_amended.2 (("foo()").toList) ')' (by decide) (by decide)

end Fenced

namespace Fenced

/-! ## Chunk invariance (C1): list toolbox -/

/-- Taking within the left part of an append. -/
theorem take_append_left (a b : List Char) (n : Nat) (h : n ≤ a.length) :
    (a ++ b).take n = a.take n := by
  rw [List.take_append_eq_append_take, Nat.sub_eq_zero_of_le h, List.take_zero,
    List.append_nil]

/-- Dropping within the left part of an append. -/
theorem drop_append_left (a b : List Char) (n : Nat) (h : n ≤ a.length) :
    (a ++ b).drop n = a.drop n ++ b := by
  rw [List.drop_append_eq_append_drop, Nat.sub_eq_zero_of_le h, List.drop_zero]

/-- Splitting a take at an interior point of the left part. -/
theorem take_append_split (a b : List Char) (k j : Nat) (h : k ≤ a.length) :
    (a ++ b).take (k + j) = a.take k ++ (a.drop k ++ b).take j := by
  rw [List.take_add, take_append_left a b k h, drop_append_left a b k h]

/-- Splitting a drop at an interior point of the left part. -/
theorem drop_append_split (a b : List Char) (k j : Nat) (h : k ≤ a.length) :
    (a ++ b).drop (k + j) = (a.drop k ++ b).drop j := by
  rw [← List.drop_drop, drop_append_left a b k h]

/-- takeWhile is an initial segment of its list. -/
theorem takeWhile_eq_take (p : Char → Bool) :
    ∀ l : List Char, l.takeWhile p = l.take (l.takeWhile p).length
  | [] => rfl
  | c :: rest => by
    by_cases h : p c
    · simp only [List.takeWhile_cons, h, if_true, List.length_cons, List.take_succ_cons]
      exact congrArg (c :: ·) (takeWhile_eq_take p rest)
    · simp [List.takeWhile_cons, h]

/-- A predicate-true initial segment is no longer than the takeWhile. -/
theorem le_length_takeWhile (p : Char → Bool) :
    ∀ (l : List Char) (n : Nat), n ≤ l.length → (∀ c ∈ l.take n, p c = true) →
      n ≤ (l.takeWhile p).length
  | _, 0, _, _ => Nat.zero_le _
  | [], n + 1, hn, _ => absurd hn (by simp)
  | c :: rest, n + 1, hn, hall => by
    have hc : p c = true := hall c (by simp [List.take_succ_cons])
    simp only [List.takeWhile_cons, hc, if_true, List.length_cons]
    have := le_length_takeWhile p rest n (by simpa using hn)
      (fun d hd => hall d (by simp [List.take_succ_cons, hd]))
    omega

/-- The reverse of a drop is a take of the reverse. -/
theorem reverse_drop_eq_take_reverse (a : List Char) (i : Nat) (h : i ≤ a.length) :
    (a.drop i).reverse = a.reverse.take (a.length - i) := by
  calc (a.drop i).reverse
      = ((a.drop i).reverse ++ (a.take i).reverse).take (a.drop i).reverse.length := by
        rw [take_append_left _ _ _ (le_refl _), List.take_length]
    _ = a.reverse.take (a.length - i) := by
        rw [← List.reverse_append, List.take_append_drop, List.length_reverse,
          List.length_drop]

end Fenced

namespace Fenced

/-! ## Trailing backticks and fence occurrences -/

/-- trailTicks is bounded by the length. -/
theorem trailTicks_le_length (a : List Char) : trailTicks a ≤ a.length := by
  have h := List.length_le_of_sublist (List.takeWhile_sublist
    (l := a.reverse) (fun c => c = btick))
  simpa [trailTicks] using h

/-- The positions at or past length - trailTicks are backticks. -/
theorem mem_drop_trail_eq_btick (a : List Char) (c : Char)
    (h : c ∈ a.drop (a.length - trailTicks a)) : c = btick := by
  have hle : trailTicks a ≤ a.length := trailTicks_le_length a
  have hrev : (a.drop (a.length - trailTicks a)).reverse =
      a.reverse.take (trailTicks a) := by
    rw [reverse_drop_eq_take_reverse _ _ (by omega)]
    congr 1
    omega
  have hmem : c ∈ a.reverse.take (trailTicks a) := by
    rw [← hrev]
    simpa using h
  have hmem2 : c ∈ a.reverse.takeWhile (fun c => c = btick) := by
    have heq := takeWhile_eq_take (fun c : Char => (c = btick : Bool)) a.reverse
    rw [show trailTicks a =
      (a.reverse.takeWhile (fun c : Char => (c = btick : Bool))).length from rfl] at hmem
    rw [heq]
    exact hmem
  have := List.mem_takeWhile_imp hmem2
  exact by simpa using this

/-- A suffix of backticks is no longer than trailTicks. -/
theorem ticks_suffix_le_trailTicks (a : List Char) (i : Nat) (hi : i ≤ a.length)
    (h : ∀ c ∈ a.drop i, c = btick) : a.length - i ≤ trailTicks a := by
  have hrev : a.reverse.take (a.length - i) = (a.drop i).reverse :=
    (reverse_drop_eq_take_reverse a i hi).symm
  have hall : ∀ c ∈ a.reverse.take (a.length - i),
      (fun c : Char => (c = btick : Bool)) c = true := by
    intro c hc
    rw [hrev] at hc
    simp only [List.mem_reverse] at hc
    simp [h c hc]
  have := le_length_takeWhile (fun c : Char => (c = btick : Bool)) a.reverse
    (a.length - i) (by rw [List.length_reverse]; omega) hall
  simpa [trailTicks] using this

/-- An all-backtick list has trailTicks equal to its length. -/
theorem trailTicks_of_all_ticks (a : List Char) (h : ∀ c ∈ a, c = btick) :
    trailTicks a = a.length := by
  have h1 := trailTicks_le_length a
  have h2 := ticks_suffix_le_trailTicks a 0 (Nat.zero_le _) (by simpa using h)
  omega

/-- Fence occurrence at a position, as buffer.indexOf sees it. -/
def fenceAt (l : List Char) (i : Nat) : Bool :=
  fenceL.isPrefixOf (l.drop i)

/-- Unfolding fenceAt to the prefix order. -/
theorem fenceAt_iff (l : List Char) (i : Nat) :
    fenceAt l i = true ↔ fenceL <+: l.drop i := by
  simp [fenceAt, List.isPrefixOf_iff_prefix]

/-- Unfolding the negation of fenceAt. -/
theorem fenceAt_false_iff (l : List Char) (i : Nat) :
    fenceAt l i = false ↔ ¬ fenceL <+: l.drop i := by
  rw [← Bool.not_eq_true, fenceAt_iff]

/-- A fence occurrence at a shifted position of a cons. -/
theorem fenceAt_cons_succ (c : Char) (rest : List Char) (j : Nat) :
    fenceAt (c :: rest) (j + 1) = fenceAt rest j := by
  simp [fenceAt]

/-- findFence finds exactly the least fence occurrence. -/
theorem findFence_eq_some_iff :
    ∀ (l : List Char) (i : Nat),
      findFence l = some i ↔
        (fenceAt l i = true ∧ ∀ j, j < i → fenceAt l j = false)
  | [], i => by
    constructor
    · intro h; cases h
    · rintro ⟨h1, -⟩
      rw [fenceAt_iff] at h1
      have := h1.length_le
      simp [fenceL] at this
  | c :: rest, i => by
    rw [findFence]
    by_cases hp : fenceL.isPrefixOf (c :: rest)
    · rw [if_pos hp]
      constructor
      · rintro h
        cases h
        refine ⟨by simpa [fenceAt] using hp, fun j hj => absurd hj (Nat.not_lt_zero j)⟩
      · rintro ⟨h1, hmin⟩
        rcases Nat.eq_zero_or_pos i with rfl | hpos
        · rfl
        · have h0 := hmin 0 hpos
          rw [fenceAt_false_iff] at h0
          rw [List.isPrefixOf_iff_prefix] at hp
          simp only [List.drop_zero] at h0
          exact absurd hp h0
    · rw [if_neg hp]
      constructor
      · intro h
        rw [Option.map_eq_some'] at h
        obtain ⟨i', hi', rfl⟩ := h
        have hiff := (findFence_eq_some_iff rest i').mp hi'
        refine ⟨by rw [fenceAt_cons_succ]; exact hiff.1, ?_⟩
        intro j hj
        cases j with
        | zero =>
          rw [fenceAt_false_iff, List.drop_zero]
          rw [List.isPrefixOf_iff_prefix] at hp
          exact hp
        | succ j' =>
          rw [fenceAt_cons_succ]
          exact hiff.2 j' (by omega)
      · rintro ⟨h1, hmin⟩
        cases i with
        | zero =>
          rw [fenceAt_iff, List.drop_zero] at h1
          rw [List.isPrefixOf_iff_prefix] at hp
          exact absurd h1 hp
        | succ i' =>
          have hsome : findFence rest = some i' := by
            rw [findFence_eq_some_iff rest i']
            refine ⟨by rw [← fenceAt_cons_succ c]; exact h1, ?_⟩
            intro j hj
            rw [← fenceAt_cons_succ c]
            exact hmin (j + 1) (by omega)
          rw [hsome]
          rfl

/-- findFence misses exactly when no position holds a fence. -/
theorem findFence_eq_none_iff :
    ∀ l : List Char, findFence l = none ↔ ∀ j, fenceAt l j = false
  | [] => by
    constructor
    · intro _ j
      rw [fenceAt_false_iff]
      intro hpre
      have := hpre.length_le
      simp [fenceL] at this
    · intro _; rfl
  | c :: rest => by
    rw [findFence]
    by_cases hp : fenceL.isPrefixOf (c :: rest)
    · rw [if_pos hp]
      constructor
      · intro h; cases h
      · intro h
        have h0 := h 0
        rw [fenceAt_false_iff, List.drop_zero] at h0
        rw [List.isPrefixOf_iff_prefix] at hp
        exact absurd hp h0
    · rw [if_neg hp]
      constructor
      · intro h j
        have hre : findFence rest = none := by
          cases hfr : findFence rest
          · rfl
          · rw [hfr] at h; cases h
        cases j with
        | zero =>
          rw [fenceAt_false_iff, List.drop_zero]
          rw [List.isPrefixOf_iff_prefix] at hp
          exact hp
        | succ j' =>
          rw [fenceAt_cons_succ]
          exact (findFence_eq_none_iff rest).mp hre j'
      · intro h
        have hre : findFence rest = none := by
          rw [findFence_eq_none_iff rest]
          intro j
          rw [← fenceAt_cons_succ c]
          exact h (j + 1)
        rw [hre]
        rfl

end Fenced

namespace Fenced

/-- Lists shorter than the sentinel hold no fence. -/
theorem findFence_small (l : List Char) (h : l.length < 3) : findFence l = none := by
  rw [findFence_eq_none_iff]
  intro j
  rw [fenceAt_false_iff]
  intro hpre
  have h1 := hpre.length_le
  have h2 : (l.drop j).length ≤ l.length := by
    rw [List.length_drop]; omega
  simp [fenceL] at h1
  omega

/-- A fence occurrence fits inside the buffer. -/
theorem findFence_some_bound (l : List Char) (i : Nat) (h : findFence l = some i) :
    i + 3 ≤ l.length := by
  have h1 := ((findFence_eq_some_iff l i).mp h).1
  rw [fenceAt_iff] at h1
  have h2 := h1.length_le
  rw [List.length_drop] at h2
  simp [fenceL] at h2
  omega

/-- A short prefix of an append is a prefix of the left part. -/
theorem prefix_of_prefix_append (l x b : List Char) (hl : l.length ≤ x.length)
    (h : l <+: x ++ b) : l <+: x := by
  rw [List.prefix_iff_eq_take] at h ⊢
  rw [take_append_left x b l.length hl] at h
  exact h

/-- The first fence of a prefix is the first fence of the whole. -/
theorem findFence_append_some (a b : List Char) (i : Nat)
    (h : findFence a = some i) : findFence (a ++ b) = some i := by
  have hb := findFence_some_bound a i h
  have hiff := (findFence_eq_some_iff a i).mp h
  rw [findFence_eq_some_iff]
  constructor
  · rw [fenceAt_iff] at hiff ⊢
    rw [drop_append_left a b i (by omega)]
    exact hiff.1.trans (List.prefix_append _ _)
  · intro j hj
    have hjb : j + 3 ≤ a.length := by omega
    have hmin := hiff.2 j hj
    rw [fenceAt_false_iff] at hmin ⊢
    rw [drop_append_left a b j (by omega)]
    intro hpre
    refine hmin (prefix_of_prefix_append _ _ _ ?_ hpre)
    rw [List.length_drop]
    simp [fenceL]
    omega

/-- Suffixes of a fence-free buffer are fence-free. -/
theorem findFence_drop_none (a : List Char) (k : Nat) (h : findFence a = none) :
    findFence (a.drop k) = none := by
  rw [findFence_eq_none_iff] at h ⊢
  intro j
  have := h (k + j)
  rw [fenceAt_false_iff] at this ⊢
  rw [List.drop_drop]
  exact this

/-- A fence-free buffer keeps at most two trailing backticks. -/
theorem trailTicks_le_two_of_none (a : List Char) (h : findFence a = none) :
    trailTicks a ≤ 2 := by
  by_contra hgt
  have h3 : 3 ≤ trailTicks a := by omega
  have hle := trailTicks_le_length a
  have hAt : fenceAt a (a.length - 3) = true := by
    rw [fenceAt_iff]
    have hlen : (a.drop (a.length - 3)).length = 3 := by
      rw [List.length_drop]; omega
    have hall : ∀ c ∈ a.drop (a.length - 3), c = btick := by
      intro c hc
      refine mem_drop_trail_eq_btick a c ?_
      have hdd : a.drop (a.length - 3) =
          (a.drop (a.length - trailTicks a)).drop (trailTicks a - 3) := by
        rw [List.drop_drop]
        congr 1
        omega
      rw [hdd] at hc
      exact List.mem_of_mem_drop hc
    have hfl : a.drop (a.length - 3) = fenceL := by
      obtain ⟨x, y, z, hxyz⟩ := (List.length_eq_three).mp hlen
      rw [hxyz]
      have hx : x = btick := hall x (by rw [hxyz]; simp)
      have hy : y = btick := hall y (by rw [hxyz]; simp)
      have hz : z = btick := hall z (by rw [hxyz]; simp)
      rw [hx, hy, hz]
      rfl
    rw [hfl]
  rw [findFence_eq_none_iff] at h
  have := h (a.length - 3)
  rw [hAt] at this
  cases this

/-- A fence spanning the boundary of an append starts inside the trailing
backtick run of the left part. -/
theorem fence_span_in_trail (a b : List Char) (j : Nat) (hja : j < a.length)
    (hat : fenceAt (a ++ b) j = true) (hspan : a.length < j + 3) :
    a.length - j ≤ trailTicks a := by
  refine ticks_suffix_le_trailTicks a j (by omega) ?_
  intro c hc
  rw [fenceAt_iff] at hat
  have hdropPre : a.drop j <+: (a ++ b).drop j := by
    rw [drop_append_left a b j (by omega)]
    exact List.prefix_append _ _
  have hcases := List.prefix_or_prefix_of_prefix hdropPre hat
  have hdj : a.drop j <+: fenceL := by
    rcases hcases with hcase | hcase
    · exact hcase
    · have := hcase.length_le
      rw [List.length_drop] at this
      simp [fenceL] at this
      omega
  have hcmem : c ∈ fenceL := hdj.sublist.subset hc
  simp [fenceL] at hcmem
  tauto

/-- First-occurrence shift: past a fence-free buffer, the first fence of an
extension is found inside the kept tail. -/
theorem findFence_append_shift (a b : List Char) (k : Nat)
    (hnone : findFence a = none) (hk : k + trailTicks a ≤ a.length) :
    findFence (a ++ b) = (findFence (a.drop k ++ b)).map (· + k) := by
  have hka : k ≤ a.length := by omega
  have hAtShift : ∀ i, k ≤ i → fenceAt (a ++ b) i = fenceAt (a.drop k ++ b) (i - k) := by
    intro i hki
    have hdd : (a ++ b).drop i = (a.drop k ++ b).drop (i - k) := by
      have h2 := drop_append_split a b k (i - k) hka
      rw [show k + (i - k) = i by omega] at h2
      exact h2
    simp [fenceAt, hdd]
  have hBelow : ∀ j, j < k → fenceAt (a ++ b) j = false := by
    intro j hj
    cases hat : fenceAt (a ++ b) j
    · rfl
    · exfalso
      by_cases hin : j + 3 ≤ a.length
      · have hfa : fenceAt a j = true := by
          rw [fenceAt_iff] at hat ⊢
          rw [drop_append_left a b j (by omega)] at hat
          refine prefix_of_prefix_append _ _ _ ?_ hat
          rw [List.length_drop]
          simp [fenceL]
          omega
        rw [findFence_eq_none_iff] at hnone
        have := hnone j
        rw [hfa] at this
        cases this
      · have hspan := fence_span_in_trail a b j (by omega) hat (by omega)
        omega
  cases hf : findFence (a.drop k ++ b) with
  | none =>
    simp only [Option.map_none']
    rw [findFence_eq_none_iff] at hf ⊢
    intro j
    by_cases hjk : j < k
    · exact hBelow j hjk
    · rw [hAtShift j (by omega)]
      exact hf (j - k)
  | some j =>
    simp only [Option.map_some']
    rw [findFence_eq_some_iff] at hf ⊢
    constructor
    · rw [hAtShift (j + k) (by omega)]
      simpa using hf.1
    · intro j' hj'
      by_cases hjk : j' < k
      · exact hBelow j' hjk
      · rw [hAtShift j' (by omega)]
        exact hf.2 (j' - k) (by omega)

end Fenced

namespace Fenced

/-! ## Trailing-run arithmetic and the markdown stream effect -/

/-- Trailing backticks across an append. -/
theorem trailTicks_append (a b : List Char) :
    trailTicks (a ++ b) =
      if trailTicks b = b.length then trailTicks a + b.length else trailTicks b := by
  unfold trailTicks
  rw [List.reverse_append, List.takeWhile_append]
  by_cases hb : (b.reverse.takeWhile (fun c => c = btick)).length = b.reverse.length
  · rw [if_pos hb, List.length_append, List.length_reverse]
    rw [List.length_reverse] at hb
    rw [if_pos hb]
    omega
  · rw [if_neg hb]
    rw [List.length_reverse] at hb
    rw [if_neg hb]

/-- The trailing tick run has itself as trailing run. -/
theorem trailTicks_drop_trail (a : List Char) :
    trailTicks (a.drop (a.length - trailTicks a)) = trailTicks a := by
  have hle := trailTicks_le_length a
  have hall : ∀ c ∈ a.drop (a.length - trailTicks a), c = btick :=
    fun c hc => mem_drop_trail_eq_btick a c hc
  rw [trailTicks_of_all_ticks _ hall, List.length_drop]
  omega

/-- Appending past a fence-free buffer only the kept tail matters for the
trailing run. -/
theorem trailTicks_append_drop (a b : List Char) (h : findFence a = none) :
    trailTicks (a ++ b) = trailTicks (a.drop (a.length - trailTicks a) ++ b) := by
  rw [trailTicks_append, trailTicks_append, trailTicks_drop_trail]

/-- The keep count of flushMarkdown and consumePassthroughBlock. -/
theorem min_ctb (l : List Char) :
    min (countTrailingBackticks l) MAX_TAIL = min (trailTicks l) 2 := by
  simp [countTrailingBackticks, MAX_TAIL, Nat.min_assoc]

/-- The effect of pushMarkdown on the markdown stream. -/
def mdPush (m : Option (List Char)) (t : List Char) : Option (List Char) :=
  if t = [] then m
  else
    match m with
    | some b => some (b ++ t)
    | none => if isWhitespaceOnly t then none else some t

/-- The effect of pushMarkdownForce on the markdown stream. -/
def mdPushF (m : Option (List Char)) (t : List Char) : Option (List Char) :=
  if t = [] then m
  else
    match m with
    | some b => some (b ++ t)
    | none => some t

/-- pushMarkdown only rewrites the markdown stream. -/
theorem pushMarkdown_eq (s : ParserState) (t : List Char) :
    pushMarkdown s t = { s with mdStream := mdPush s.mdStream t } := by
  obtain ⟨buf, bi, md, ab, outs⟩ := s
  unfold pushMarkdown mdPush
  by_cases h0 : t = []
  · rw [if_pos h0, if_pos h0]
  · rw [if_neg h0, if_neg h0]
    cases md with
    | none =>
      by_cases hw : isWhitespaceOnly t
      · rw [if_pos ⟨rfl, hw⟩, if_pos hw]
      · rw [if_neg (by rintro ⟨-, hw'⟩; exact hw hw'), if_neg hw]
    | some b =>
      rw [if_neg (by rintro ⟨hc, -⟩; cases hc)]

/-- pushMarkdownForce only rewrites the markdown stream. -/
theorem pushMarkdownForce_eq (s : ParserState) (t : List Char) :
    pushMarkdownForce s t = { s with mdStream := mdPushF s.mdStream t } := by
  obtain ⟨buf, bi, md, ab, outs⟩ := s
  unfold pushMarkdownForce mdPushF
  by_cases h0 : t = []
  · rw [if_pos h0, if_pos h0]
  · rw [if_neg h0, if_neg h0]
    cases md <;> rfl

/-- Pushing nothing is a no-op. -/
theorem mdPush_nil (m : Option (List Char)) : mdPush m [] = m := rfl

/-- Force-pushing nothing is a no-op. -/
theorem mdPushF_nil (m : Option (List Char)) : mdPushF m [] = m := rfl

/-- Force pushes merge exactly. -/
theorem mdPushF_split (m : Option (List Char)) (a b : List Char) :
    mdPushF m (a ++ b) = mdPushF (mdPushF m a) b := by
  by_cases ha : a = []
  · subst ha
    rw [List.nil_append, mdPushF_nil]
  · by_cases hb : b = []
    · subst hb
      rw [List.append_nil, mdPushF_nil]
    · have hab : ¬ a ++ b = [] := by simp [ha]
      unfold mdPushF
      rw [if_neg hab, if_neg ha, if_neg hb]
      cases m <;> simp

end Fenced

namespace Fenced

/-! ## The chunk-invariance relation

Different chunkings of the same text agree everywhere except that leading
whitespace of a markdown section can be suppressed or kept depending on
how it is split (pushMarkdown drops whitespace-only texts while no stream
is open). Bodies of markdown segments are therefore compared after
dropping leading whitespace; everything else is compared exactly. -/

/-- Markdown bodies agree up to leading whitespace. -/
def BodyRel (a b : List Char) : Prop :=
  a.dropWhile isWsZ = b.dropWhile isWsZ

/-- Open markdown streams agree up to leading whitespace, and are open in
the same states. -/
def MdRel : Option (List Char) → Option (List Char) → Prop
  | none, none => True
  | some a, some b => BodyRel a b
  | _, _ => False

/-- Segments agree: markdown up to leading whitespace, blocks exactly. -/
def SegRel : ParserSeg → ParserSeg → Prop
  | ParserSeg.markdownSeg a, ParserSeg.markdownSeg b => BodyRel a b
  | ParserSeg.agentRunSeg i a, ParserSeg.agentRunSeg j b => i = j ∧ a = b
  | ParserSeg.agentDataSeg i d a, ParserSeg.agentDataSeg j e b =>
      i = j ∧ d = e ∧ a = b
  | _, _ => False

/-- Parser states agree: all control state exactly, markdown up to leading
whitespace. -/
def SRel (s s' : ParserState) : Prop :=
  s.buffer = s'.buffer ∧ s.blockIndex = s'.blockIndex ∧
    s.activeBlock = s'.activeBlock ∧ MdRel s.mdStream s'.mdStream ∧
    List.Forall₂ SegRel s.out s'.out

theorem bodyRel_refl (a : List Char) : BodyRel a a := rfl

theorem bodyRel_symm {a b : List Char} (h : BodyRel a b) : BodyRel b a := h.symm

theorem bodyRel_trans {a b c : List Char} (h1 : BodyRel a b) (h2 : BodyRel b c) :
    BodyRel a c := h1.trans h2

/-- Appending the same text preserves the body relation. -/
theorem bodyRel_append {a b : List Char} (t : List Char) (h : BodyRel a b) :
    BodyRel (a ++ t) (b ++ t) := by
  unfold BodyRel at h ⊢
  rw [List.dropWhile_append, List.dropWhile_append, h]

theorem mdRel_refl (m : Option (List Char)) : MdRel m m := by
  cases m
  · trivial
  · exact bodyRel_refl _

theorem mdRel_symm {m m' : Option (List Char)} (h : MdRel m m') : MdRel m' m := by
  cases m <;> cases m' <;> first | trivial | exact bodyRel_symm h

theorem mdRel_trans {m1 m2 m3 : Option (List Char)} (h1 : MdRel m1 m2)
    (h2 : MdRel m2 m3) : MdRel m1 m3 := by
  cases m1 <;> cases m2 <;> cases m3 <;>
    first | trivial | exact bodyRel_trans h1 h2 | exact h1.elim | exact h2.elim

theorem segRel_refl (g : ParserSeg) : SegRel g g := by
  cases g
  · exact bodyRel_refl _
  · exact ⟨rfl, rfl⟩
  · exact ⟨rfl, rfl, rfl⟩

theorem segRel_symm {g g' : ParserSeg} (h : SegRel g g') : SegRel g' g := by
  cases g <;> cases g' <;> simp only [SegRel] at h ⊢ <;>
    first
      | exact h.elim
      | exact bodyRel_symm h
      | exact ⟨h.1.symm, h.2.symm⟩
      | exact ⟨h.1.symm, h.2.1.symm, h.2.2.symm⟩

theorem segRel_trans {g1 g2 g3 : ParserSeg} (h1 : SegRel g1 g2)
    (h2 : SegRel g2 g3) : SegRel g1 g3 := by
  cases g1 <;> cases g2 <;> cases g3 <;> simp only [SegRel] at h1 h2 ⊢ <;>
    first
      | exact h1.elim
      | exact h2.elim
      | exact bodyRel_trans h1 h2
      | exact ⟨h1.1.trans h2.1, h1.2.trans h2.2⟩
      | exact ⟨h1.1.trans h2.1, h1.2.1.trans h2.2.1, h1.2.2.trans h2.2.2⟩

theorem outRel_refl (l : List ParserSeg) : List.Forall₂ SegRel l l := by
  induction l with
  | nil => exact List.Forall₂.nil
  | cons g rest ih => exact List.Forall₂.cons (segRel_refl g) ih

theorem outRel_symm {l l' : List ParserSeg} (h : List.Forall₂ SegRel l l') :
    List.Forall₂ SegRel l' l := by
  induction h with
  | nil => exact List.Forall₂.nil
  | cons hg _ ih => exact List.Forall₂.cons (segRel_symm hg) ih

theorem outRel_trans {l1 l2 l3 : List ParserSeg} (h1 : List.Forall₂ SegRel l1 l2)
    (h2 : List.Forall₂ SegRel l2 l3) : List.Forall₂ SegRel l1 l3 := by
  induction h1 generalizing l3 with
  | nil => cases h2; exact List.Forall₂.nil
  | cons hg _ ih =>
    cases h2 with
    | cons hg' htail => exact List.Forall₂.cons (segRel_trans hg hg') (ih htail)

theorem outRel_append {l1 l2 r1 r2 : List ParserSeg}
    (h1 : List.Forall₂ SegRel l1 l2) (h2 : List.Forall₂ SegRel r1 r2) :
    List.Forall₂ SegRel (l1 ++ r1) (l2 ++ r2) := by
  induction h1 with
  | nil => exact h2
  | cons hg _ ih => exact List.Forall₂.cons hg ih

theorem srel_refl (s : ParserState) : SRel s s :=
  ⟨rfl, rfl, rfl, mdRel_refl _, outRel_refl _⟩

theorem srel_symm {s s' : ParserState} (h : SRel s s') : SRel s' s :=
  ⟨h.1.symm, h.2.1.symm, h.2.2.1.symm, mdRel_symm h.2.2.2.1, outRel_symm h.2.2.2.2⟩

theorem srel_trans {s1 s2 s3 : ParserState} (h1 : SRel s1 s2) (h2 : SRel s2 s3) :
    SRel s1 s3 :=
  ⟨h1.1.trans h2.1, h1.2.1.trans h2.2.1, h1.2.2.1.trans h2.2.2.1,
    mdRel_trans h1.2.2.2.1 h2.2.2.2.1, outRel_trans h1.2.2.2.2 h2.2.2.2.2⟩

/-- A whitespace-only text contributes nothing after dropWhile. -/
theorem dropWhile_of_ws (t : List Char) (h : isWhitespaceOnly t = true) :
    t.dropWhile isWsZ = [] := by
  rw [List.dropWhile_eq_nil_iff]
  intro c hc
  exact (List.all_eq_true.mp h) c hc

/-- Evaluation rules for the guarded push. -/
theorem mdPush_some (b t : List Char) (h : ¬ t = []) :
    mdPush (some b) t = some (b ++ t) := by
  unfold mdPush
  rw [if_neg h]

theorem mdPush_none_ws (t : List Char) (h : ¬ t = [])
    (hw : isWhitespaceOnly t = true) : mdPush none t = none := by
  unfold mdPush
  rw [if_neg h, if_pos hw]

theorem mdPush_none_nws (t : List Char) (h : ¬ t = [])
    (hw : ¬ isWhitespaceOnly t = true) : mdPush none t = some t := by
  unfold mdPush
  rw [if_neg h, if_neg hw]

/-- Splitting one guarded push into two relates the streams. -/
theorem mdPush_split (m : Option (List Char)) (a b : List Char) :
    MdRel (mdPush m (a ++ b)) (mdPush (mdPush m a) b) := by
  by_cases ha : a = []
  · subst ha
    rw [List.nil_append, mdPush_nil]
    exact mdRel_refl _
  · by_cases hb : b = []
    · subst hb
      rw [List.append_nil, mdPush_nil]
      exact mdRel_refl _
    · have hab : ¬ a ++ b = [] := by simp [ha]
      cases m with
      | some c =>
        rw [mdPush_some c (a ++ b) hab, mdPush_some c a ha, mdPush_some (c ++ a) b hb,
          List.append_assoc]
        exact mdRel_refl _
      | none =>
        by_cases hwa : isWhitespaceOnly a
        · by_cases hwb : isWhitespaceOnly b
          · have hwab : isWhitespaceOnly (a ++ b) = true := by
              simp only [isWhitespaceOnly, List.all_append]
              simp only [isWhitespaceOnly] at hwa hwb
              rw [hwa, hwb]
              rfl
            rw [mdPush_none_ws (a ++ b) hab hwab, mdPush_none_ws a ha hwa,
              mdPush_none_ws b hb hwb]
            trivial
          · have hwab : ¬ isWhitespaceOnly (a ++ b) = true := by
              simp only [isWhitespaceOnly, List.all_append]
              simp only [isWhitespaceOnly] at hwb
              rw [Bool.and_eq_true]
              rintro ⟨-, hc⟩
              exact hwb hc
            rw [mdPush_none_nws (a ++ b) hab hwab, mdPush_none_ws a ha hwa,
              mdPush_none_nws b hb hwb]
            show BodyRel (a ++ b) b
            unfold BodyRel
            rw [List.dropWhile_append, dropWhile_of_ws a hwa]
            rfl
        · have hwab : ¬ isWhitespaceOnly (a ++ b) = true := by
            simp only [isWhitespaceOnly, List.all_append]
            simp only [isWhitespaceOnly] at hwa
            rw [Bool.and_eq_true]
            rintro ⟨hc, -⟩
            exact hwa hc
          rw [mdPush_none_nws (a ++ b) hab hwab, mdPush_none_nws a ha hwa,
            mdPush_some a b hb]
          exact mdRel_refl _

/-- Guarded pushes of the same text preserve the stream relation. -/
theorem mdPush_congr {m m' : Option (List Char)} (t : List Char)
    (h : MdRel m m') : MdRel (mdPush m t) (mdPush m' t) := by
  cases m with
  | none =>
    cases m' with
    | none => exact mdRel_refl _
    | some b => exact h.elim
  | some a =>
    cases m' with
    | none => exact h.elim
    | some b =>
      by_cases h0 : t = []
      · subst h0
        rw [mdPush_nil, mdPush_nil]
        exact h
      · unfold mdPush
        rw [if_neg h0, if_neg h0]
        exact bodyRel_append t h

/-- Force pushes of the same text preserve the stream relation. -/
theorem mdPushF_congr {m m' : Option (List Char)} (t : List Char)
    (h : MdRel m m') : MdRel (mdPushF m t) (mdPushF m' t) := by
  cases m with
  | none =>
    cases m' with
    | none => exact mdRel_refl _
    | some b => exact h.elim
  | some a =>
    cases m' with
    | none => exact h.elim
    | some b =>
      by_cases h0 : t = []
      · subst h0
        rw [mdPushF_nil, mdPushF_nil]
        exact h
      · unfold mdPushF
        rw [if_neg h0, if_neg h0]
        exact bodyRel_append t h

end Fenced

namespace Fenced

/-! ## Header newline search and the drain measure -/

/-- A found index lies within the searched list (offset form). -/
theorem findIdx?_bounds (p : Char → Bool) :
    ∀ (l : List Char) (i r : Nat), List.findIdx? p l i = some r →
      i ≤ r ∧ r < i + l.length
  | [], i, r => by
    intro h
    rw [List.findIdx?_nil] at h
    cases h
  | c :: rest, i, r => by
    intro h
    rw [List.findIdx?_cons] at h
    by_cases hc : p c
    · rw [if_pos hc] at h
      cases h
      simp
    · rw [if_neg hc] at h
      have := findIdx?_bounds p rest (i + 1) r h
      simp only [List.length_cons]
      omega

/-- The first match of a prefix is the first match of the whole. -/
theorem findIdx?_append_some (p : Char → Bool) :
    ∀ (l l' : List Char) (i r : Nat), List.findIdx? p l i = some r →
      List.findIdx? p (l ++ l') i = some r
  | [], _, i, r => by
    intro h
    rw [List.findIdx?_nil] at h
    cases h
  | c :: rest, l', i, r => by
    intro h
    rw [List.findIdx?_cons] at h
    rw [List.cons_append, List.findIdx?_cons]
    by_cases hc : p c
    · rw [if_pos hc] at h ⊢
      exact h
    · rw [if_neg hc] at h ⊢
      exact findIdx?_append_some p rest l' (i + 1) r h

/-- The header-line newline found is a real interior position. -/
theorem findNlFrom3_bounds (l : List Char) (he : Nat)
    (h : findNlFrom3 l = some he) : 3 ≤ he ∧ he < l.length := by
  unfold findNlFrom3 at h
  rw [Option.map_eq_some'] at h
  obtain ⟨r, hr, rfl⟩ := h
  have := findIdx?_bounds _ _ _ _ hr
  rw [List.length_drop] at this
  omega

/-- The header-line newline survives appending more input. -/
theorem findNlFrom3_append (l u : List Char) (he : Nat) (h3 : 3 ≤ l.length)
    (h : findNlFrom3 l = some he) : findNlFrom3 (l ++ u) = some he := by
  unfold findNlFrom3 at h ⊢
  rw [Option.map_eq_some'] at h
  obtain ⟨r, hr, rfl⟩ := h
  rw [drop_append_left l u 3 h3]
  rw [findIdx?_append_some _ _ u _ _ hr]
  rfl

/-- The measure is positive. -/
theorem pMeasure_pos (s : ParserState) : 0 < pMeasure s := by
  unfold pMeasure
  omega

/-- Every progressing iteration decreases the measure. -/
theorem pMeasure_step (final : Bool) (s s' : ParserState)
    (h : stepP final s = StepRes.more s') : pMeasure s' < pMeasure s := by
  unfold stepP at h
  split at h
  · -- agent_run block
    next idx body lnw heq =>
    split at h
    · -- no fence
      split at h
      · -- final: emit everything and close
        injection h with h'
        subst h'
        unfold runEmit
        split
        · next hpos =>
          unfold closeRunState
          simp [pMeasure, heq, List.length_drop]
          try omega
        · next hpos =>
          unfold closeRunState
          rw [heq]
          simp [pMeasure, heq]
          try omega
      · split at h
        · -- partial emit
          next hemit =>
          injection h with h'
          subst h'
          unfold runEmit
          rw [if_pos hemit]
          simp [pMeasure, heq, List.length_drop]
          omega
        · cases h
    · -- fence: close the block
      next i hF =>
      injection h with h'
      subst h'
      unfold closeRunState runTakeClose
      simp [pMeasure, heq, List.length_drop]
      try omega
  · -- agent_data block
    next idx id body heq =>
    split at h
    · split at h
      · injection h with h'
        subst h'
        unfold dataEmit
        split
        · next hpos =>
          unfold closeDataState
          simp [pMeasure, heq, List.length_drop]
          try omega
        · next hpos =>
          unfold closeDataState
          rw [heq]
          simp [pMeasure, heq]
          try omega
      · split at h
        · next hemit =>
          injection h with h'
          subst h'
          unfold dataEmit
          rw [if_pos hemit]
          simp [pMeasure, heq, List.length_drop]
          omega
        · cases h
    · next i hF =>
      injection h with h'
      subst h'
      unfold closeDataState dataTakeClose
      simp [pMeasure, heq, List.length_drop]
      try omega
  · -- passthrough block
    next heq =>
    split at h
    · split at h
      · injection h with h'
        subst h'
        unfold passFinal
        rw [pushMarkdownForce_eq]
        simp [pMeasure, heq]
        try omega
      · split at h
        · next hemit =>
          injection h with h'
          subst h'
          unfold passEmit
          rw [pushMarkdownForce_eq]
          simp [pMeasure, heq, List.length_drop]
          try omega
        · cases h
    · next i hF =>
      injection h with h'
      subst h'
      unfold passClose
      rw [pushMarkdownForce_eq, pushMarkdownForce_eq]
      simp [pMeasure, heq, List.length_drop]
      try omega
  · -- no active block
    next heq =>
    split at h
    · cases h
    · next fi hF =>
      have hbound := findFence_some_bound _ _ hF
      split at h
      · -- fence at the head: header handling
        next hfi0 =>
        split at h
        · split at h
          · cases h
          · cases h
        · next he hNl =>
          have hhe := findNlFrom3_bounds _ _ hNl
          injection h with h'
          subst h'
          simp only [openFromHeader]
          split
          · rw [pushMarkdownForce_eq]
            simp [pMeasure, heq, List.length_drop]
            omega
          · unfold closeMarkdownStream
            split
            · simp [pMeasure, heq, List.length_drop]
              omega
            · simp [pMeasure, heq, List.length_drop]
              omega
          · unfold closeMarkdownStream
            split
            · simp [pMeasure, heq, List.length_drop]
              omega
            · simp [pMeasure, heq, List.length_drop]
              omega
      · next hfi0 =>
        injection h with h'
        subst h'
        unfold proseChunk
        rw [pushMarkdown_eq]
        simp [pMeasure, heq, List.length_drop]
        omega

end Fenced

namespace Fenced

/-- Any sufficient fuel computes the same drain. -/
theorem drainF_fuel_eq (final : Bool) :
    ∀ (n m : Nat) (s : ParserState), pMeasure s ≤ n → pMeasure s ≤ m →
      drainF n final s = drainF m final s
  | 0, _, s, hn, _ => absurd (pMeasure_pos s) (by omega)
  | _ + 1, 0, s, _, hm => absurd (pMeasure_pos s) (by omega)
  | n + 1, m + 1, s, hn, hm => by
    unfold drainF
    cases hstep : stepP final s with
    | done s0 => rfl
    | more s' =>
      have hlt := pMeasure_step final s s' hstep
      exact drainF_fuel_eq final n m s' (by omega) (by omega)

/-- Fuel at least the measure suffices. -/
theorem drainF_eq_drainP (final : Bool) (n : Nat) (s : ParserState)
    (h : pMeasure s ≤ n) : drainF n final s = drainP final s :=
  drainF_fuel_eq final n (pMeasure s) s h (le_refl _)

/-- A stopping step ends the drain. -/
theorem drainP_done (final : Bool) (s s0 : ParserState)
    (h : stepP final s = StepRes.done s0) : drainP final s = s0 := by
  unfold drainP
  have hpos := pMeasure_pos s
  obtain ⟨k, hk⟩ : ∃ k, pMeasure s = k + 1 := ⟨pMeasure s - 1, by omega⟩
  rw [hk]
  unfold drainF
  rw [h]

/-- A progressing step continues the drain. -/
theorem drainP_more (final : Bool) (s s' : ParserState)
    (h : stepP final s = StepRes.more s') : drainP final s = drainP final s' := by
  unfold drainP
  have hpos := pMeasure_pos s
  have hlt := pMeasure_step final s s' h
  obtain ⟨k, hk⟩ : ∃ k, pMeasure s = k + 1 := ⟨pMeasure s - 1, by omega⟩
  rw [hk]
  unfold drainF
  rw [h]
  exact drainF_fuel_eq final k (pMeasure s') s' (by omega) (le_refl _)

end Fenced

namespace Fenced

/-! ## Drain characterizations per mode -/

/-- The non-final flush in stream-effect form. -/
theorem flushMarkdown_false_eq (s : ParserState) :
    flushMarkdown false s =
      { s with
        mdStream := mdPush s.mdStream
          (s.buffer.take (s.buffer.length - min (trailTicks s.buffer) 2))
        buffer := s.buffer.drop (s.buffer.length - min (trailTicks s.buffer) 2) } := by
  by_cases hbuf : s.buffer = []
  · simp only [flushMarkdown, if_pos hbuf]
    rw [if_neg (show ¬((false : Bool) = true) by simp)]
    obtain ⟨buf, bi, md, ab, outs⟩ := s
    simp only at hbuf
    subst hbuf
    simp [mdPush_nil]
  · simp only [flushMarkdown, if_neg hbuf]
    rw [if_neg (show ¬((false : Bool) = true) by simp),
      if_neg (show ¬((false : Bool) = true) by simp), min_ctb]
    unfold flushEmit
    split
    · next hpos =>
      rw [pushMarkdown_eq]
    · next hpos =>
      have h0 : s.buffer.length - min (trailTicks s.buffer) 2 = 0 := by omega
      rw [h0]
      simp [mdPush_nil]

/-- Draining with an open run block: close at the fence, or emit all but
the kept tail. -/
theorem runDrain (s : ParserState) (idx : Nat) (body : List Char) (lnw : Option Char)
    (hA : s.activeBlock = some (ActiveBlock.agentRunB idx body lnw)) :
    drainP false s =
      match findFence s.buffer with
      | some i => drainP false (closeRunState (runTakeClose s idx body lnw i))
      | none => runEmit s idx body lnw (s.buffer.length - MAX_TAIL) := by
  cases hF : findFence s.buffer with
  | some i =>
    have hstep : stepP false s =
        StepRes.more (closeRunState (runTakeClose s idx body lnw i)) := by
      simp [stepP, hA, hF]
    exact drainP_more false s _ hstep
  | none =>
    by_cases hemit : 0 < s.buffer.length - MAX_TAIL
    · have hstep : stepP false s =
          StepRes.more (runEmit s idx body lnw (s.buffer.length - MAX_TAIL)) := by
        simp [stepP, hA, hF, hemit]
      rw [drainP_more false s _ hstep]
      have hguard : runEmit s idx body lnw (s.buffer.length - MAX_TAIL) =
          { s with buffer := s.buffer.drop (s.buffer.length - MAX_TAIL)
                   activeBlock := some (ActiveBlock.agentRunB idx
                     (body ++ s.buffer.take (s.buffer.length - MAX_TAIL))
                     (updateLastNonWhitespace lnw
                       (s.buffer.take (s.buffer.length - MAX_TAIL)))) } := by
        unfold runEmit
        rw [if_pos hemit]
      rw [hguard]
      refine drainP_done false _ _ ?_
      have hlen1 : (s.buffer.drop (s.buffer.length - MAX_TAIL)).length = MAX_TAIL := by
        rw [List.length_drop]
        unfold MAX_TAIL at hemit ⊢
        omega
      have hF1 : findFence (s.buffer.drop (s.buffer.length - MAX_TAIL)) = none := by
        refine findFence_small _ ?_
        rw [hlen1]
        norm_num [MAX_TAIL]
      simp [stepP, hF1, hlen1]
    · have hstep : stepP false s = StepRes.done s := by
        simp [stepP, hA, hF, hemit]
      rw [drainP_done false s s hstep]
      unfold runEmit
      rw [if_neg hemit]

/-- Draining with an open data block. -/
theorem dataDrain (s : ParserState) (idx : Nat) (id body : List Char)
    (hA : s.activeBlock = some (ActiveBlock.agentDataB idx id body)) :
    drainP false s =
      match findFence s.buffer with
      | some i => drainP false (closeDataState (dataTakeClose s idx id body i))
      | none => dataEmit s idx id body (s.buffer.length - MAX_TAIL) := by
  cases hF : findFence s.buffer with
  | some i =>
    have hstep : stepP false s =
        StepRes.more (closeDataState (dataTakeClose s idx id body i)) := by
      simp [stepP, hA, hF]
    exact drainP_more false s _ hstep
  | none =>
    by_cases hemit : 0 < s.buffer.length - MAX_TAIL
    · have hstep : stepP false s =
          StepRes.more (dataEmit s idx id body (s.buffer.length - MAX_TAIL)) := by
        simp [stepP, hA, hF, hemit]
      rw [drainP_more false s _ hstep]
      have hguard : dataEmit s idx id body (s.buffer.length - MAX_TAIL) =
          { s with buffer := s.buffer.drop (s.buffer.length - MAX_TAIL)
                   activeBlock := some (ActiveBlock.agentDataB idx id
                     (body ++ s.buffer.take (s.buffer.length - MAX_TAIL))) } := by
        unfold dataEmit
        rw [if_pos hemit]
      rw [hguard]
      refine drainP_done false _ _ ?_
      have hlen1 : (s.buffer.drop (s.buffer.length - MAX_TAIL)).length = MAX_TAIL := by
        rw [List.length_drop]
        unfold MAX_TAIL at hemit ⊢
        omega
      have hF1 : findFence (s.buffer.drop (s.buffer.length - MAX_TAIL)) = none := by
        refine findFence_small _ ?_
        rw [hlen1]
        norm_num [MAX_TAIL]
      simp [stepP, hF1, hlen1]
    · have hstep : stepP false s = StepRes.done s := by
        simp [stepP, hA, hF, hemit]
      rw [drainP_done false s s hstep]
      unfold dataEmit
      rw [if_neg hemit]

/-- A passthrough whose buffer is a short backtick run is quiescent. -/
theorem stepP_pass_done (s1 : ParserState)
    (h1 : s1.activeBlock = some ActiveBlock.passthroughB)
    (hlen : s1.buffer.length ≤ 2)
    (hall : trailTicks s1.buffer = s1.buffer.length) :
    stepP false s1 = StepRes.done s1 := by
  have hF1 : findFence s1.buffer = none := findFence_small _ (by omega)
  unfold stepP
  rw [h1, hF1]
  rw [if_neg (show ¬((false : Bool) = true) by simp)]
  rw [if_neg ?hguard]
  case hguard =>
    rw [min_ctb, hall, Nat.min_eq_left hlen]
    omega

/-- Draining with an open passthrough block. -/
theorem passDrain (s : ParserState)
    (hA : s.activeBlock = some ActiveBlock.passthroughB) :
    drainP false s =
      match findFence s.buffer with
      | some i => drainP false (passClose s i)
      | none =>
          passEmit s
            (s.buffer.length - min (countTrailingBackticks s.buffer) MAX_TAIL) := by
  cases hF : findFence s.buffer with
  | some i =>
    have hstep : stepP false s = StepRes.more (passClose s i) := by
      simp [stepP, hA, hF]
    exact drainP_more false s _ hstep
  | none =>
    have htt := trailTicks_le_two_of_none _ hF
    have httl := trailTicks_le_length s.buffer
    have hE : s.buffer.length - min (countTrailingBackticks s.buffer) MAX_TAIL =
        s.buffer.length - trailTicks s.buffer := by
      rw [min_ctb]
      omega
    by_cases hemit :
        0 < s.buffer.length - min (countTrailingBackticks s.buffer) MAX_TAIL
    · have hstep : stepP false s = StepRes.more
          (passEmit s
            (s.buffer.length - min (countTrailingBackticks s.buffer) MAX_TAIL)) := by
        simp [stepP, hA, hF, hemit]
      rw [drainP_more false s _ hstep]
      have hbuf1 : (passEmit s
          (s.buffer.length - min (countTrailingBackticks s.buffer) MAX_TAIL)).buffer =
          s.buffer.drop (s.buffer.length - trailTicks s.buffer) := by
        unfold passEmit
        rw [pushMarkdownForce_eq, hE]
      have hact1 : (passEmit s
          (s.buffer.length - min (countTrailingBackticks s.buffer) MAX_TAIL)).activeBlock =
          some ActiveBlock.passthroughB := by
        unfold passEmit
        rw [pushMarkdownForce_eq]
        exact hA
      refine drainP_done false _ _ (stepP_pass_done _ hact1 ?_ ?_)
      · rw [hbuf1, List.length_drop]
        omega
      · rw [hbuf1, trailTicks_drop_trail, List.length_drop]
        omega
    · have hstep : stepP false s = StepRes.done s := by
        simp [stepP, hA, hF, hemit]
      rw [drainP_done false s s hstep]
      unfold passEmit
      have h0 : s.buffer.length - min (countTrailingBackticks s.buffer) MAX_TAIL = 0 := by
        omega
      rw [h0]
      rw [pushMarkdownForce_eq]
      simp [mdPushF_nil]

end Fenced

namespace Fenced


/-! ## Buffer accounting of the chunk feed -/

/-- Appending the empty chunk is a no-op. -/
theorem appendChunk_nil (s : ParserState) : appendChunk s [] = s := by
  unfold appendChunk
  rw [List.append_nil]

/-- Chunk appends merge. -/
theorem appendChunk_assoc (s : ParserState) (u v : List Char) :
    appendChunk (appendChunk s u) v = appendChunk s (u ++ v) := by
  unfold appendChunk
  rw [List.append_assoc]

/-- Tracking no chunk keeps the marker. -/
theorem updateLastNonWhitespace_nil (l : Option Char) :
    updateLastNonWhitespace l [] = l := rfl

/-- Tracking chunks composes. -/
theorem updateLastNonWhitespace_append (l : Option Char) (a b : List Char) :
    updateLastNonWhitespace l (a ++ b) =
      updateLastNonWhitespace (updateLastNonWhitespace l a) b := by
  unfold updateLastNonWhitespace
  rw [List.reverse_append, find?_append_chars]
  cases hb : b.reverse.find? (fun c => !(isWsCore c)) with
  | some c => rfl
  | none =>
    cases ha : a.reverse.find? (fun c => !(isWsCore c)) with
    | some c => rfl
    | none => rfl

/-- The shapes a non-final drain can stop in. -/
theorem stepP_done_shape (s s0 : ParserState)
    (h : stepP false s = StepRes.done s0) :
    s0 = s ∨ (s.activeBlock = none ∧ findFence s.buffer = none ∧
      s0 = flushMarkdown false s) := by
  unfold stepP at h
  split at h
  · next idx body lnw heq =>
    split at h
    · rw [if_neg (show ¬((false : Bool) = true) by simp)] at h
      split at h
      · cases h
      · injection h with h'
        exact Or.inl h'.symm
    · cases h
  · next idx id body heq =>
    split at h
    · rw [if_neg (show ¬((false : Bool) = true) by simp)] at h
      split at h
      · cases h
      · injection h with h'
        exact Or.inl h'.symm
    · cases h
  · next heq =>
    split at h
    · rw [if_neg (show ¬((false : Bool) = true) by simp)] at h
      split at h
      · cases h
      · injection h with h'
        exact Or.inl h'.symm
    · cases h
  · next heq =>
    split at h
    · next hF =>
      injection h with h'
      exact Or.inr ⟨heq, hF, h'.symm⟩
    · next fi hF =>
      split at h
      · split at h
        · rw [if_neg (show ¬((false : Bool) = true) by simp)] at h
          injection h with h'
          exact Or.inl h'.symm
        · cases h
      · cases h

end Fenced

namespace Fenced

/-! ## Commuting a drain step with later input -/

/-- Closing a run block at a fence commutes with appending input. -/
theorem runCloseComm (s : ParserState) (idx : Nat) (body : List Char)
    (lnw : Option Char) (u : List Char) (i : Nat)
    (hA : s.activeBlock = some (ActiveBlock.agentRunB idx body lnw))
    (hF : findFence s.buffer = some i) :
    drainP false (appendChunk s u) =
      drainP false (appendChunk (closeRunState (runTakeClose s idx body lnw i)) u) := by
  have hb := findFence_some_bound _ _ hF
  have hFu : findFence (s.buffer ++ u) = some i := findFence_append_some _ _ _ hF
  have hstep : stepP false (appendChunk s u) =
      StepRes.more (closeRunState (runTakeClose (appendChunk s u) idx body lnw i)) := by
    simp [stepP, appendChunk, hA, hFu]
  rw [drainP_more false _ _ hstep]
  congr 1
  unfold closeRunState runTakeClose appendChunk
  simp only [take_append_left s.buffer u i (by omega),
    drop_append_left s.buffer u (i + 3) (by omega)]

end Fenced

namespace Fenced

/-- Closing a data block at a fence commutes with appending input. -/
theorem dataCloseComm (s : ParserState) (idx : Nat) (id body : List Char)
    (u : List Char) (i : Nat)
    (hA : s.activeBlock = some (ActiveBlock.agentDataB idx id body))
    (hF : findFence s.buffer = some i) :
    drainP false (appendChunk s u) =
      drainP false (appendChunk (closeDataState (dataTakeClose s idx id body i)) u) := by
  have hb := findFence_some_bound _ _ hF
  have hFu : findFence (s.buffer ++ u) = some i := findFence_append_some _ _ _ hF
  have hstep : stepP false (appendChunk s u) =
      StepRes.more (closeDataState (dataTakeClose (appendChunk s u) idx id body i)) := by
    simp [stepP, appendChunk, hA, hFu]
  rw [drainP_more false _ _ hstep]
  congr 1
  unfold closeDataState dataTakeClose appendChunk
  simp only [take_append_left s.buffer u i (by omega),
    drop_append_left s.buffer u (i + 3) (by omega)]

/-- The force push only sees the markdown stream, so it commutes with
appending to the buffer. -/
theorem pushF_appendChunk (s : ParserState) (u t : List Char) :
    pushMarkdownForce (appendChunk s u) t = appendChunk (pushMarkdownForce s t) u := by
  rw [pushMarkdownForce_eq, pushMarkdownForce_eq]
  rfl

/-- The guarded push likewise commutes with appending to the buffer. -/
theorem push_appendChunk (s : ParserState) (u t : List Char) :
    pushMarkdown (appendChunk s u) t = appendChunk (pushMarkdown s t) u := by
  rw [pushMarkdown_eq, pushMarkdown_eq]
  rfl

/-- Closing the markdown stream commutes with appending to the buffer. -/
theorem closeMd_appendChunk (s : ParserState) (u : List Char) :
    closeMarkdownStream (appendChunk s u) = appendChunk (closeMarkdownStream s) u := by
  obtain ⟨buf, bi, md, ab, outs⟩ := s
  unfold closeMarkdownStream appendChunk
  cases md <;> rfl

/-- Closing a passthrough at a fence commutes with appending input. -/
theorem passCloseComm (s : ParserState) (u : List Char) (i : Nat)
    (hA : s.activeBlock = some ActiveBlock.passthroughB)
    (hF : findFence s.buffer = some i) :
    drainP false (appendChunk s u) =
      drainP false (appendChunk (passClose s i) u) := by
  have hb := findFence_some_bound _ _ hF
  have hFu : findFence (s.buffer ++ u) = some i := findFence_append_some _ _ _ hF
  have hstep : stepP false (appendChunk s u) =
      StepRes.more (passClose (appendChunk s u) i) := by
    simp [stepP, appendChunk, hA, hFu]
  rw [drainP_more false _ _ hstep]
  congr 1
  unfold passClose
  rw [show (appendChunk s u).buffer = s.buffer ++ u from rfl,
    take_append_left s.buffer u i (by omega),
    drop_append_left s.buffer u (i + 3) (by omega)]
  rw [pushF_appendChunk, pushF_appendChunk]
  rfl

/-- Emitting prose before a fence commutes with appending input. -/
theorem proseChunkComm (s : ParserState) (u : List Char) (fi : Nat)
    (hA : s.activeBlock = none)
    (hF : findFence s.buffer = some fi) (hfi0 : ¬ fi = 0) :
    drainP false (appendChunk s u) =
      drainP false (appendChunk (proseChunk s fi) u) := by
  have hb := findFence_some_bound _ _ hF
  have hFu : findFence (s.buffer ++ u) = some fi := findFence_append_some _ _ _ hF
  have hstep : stepP false (appendChunk s u) =
      StepRes.more (proseChunk (appendChunk s u) fi) := by
    simp [stepP, appendChunk, hA, hFu, hfi0]
  rw [drainP_more false _ _ hstep]
  congr 1
  unfold proseChunk
  rw [show (appendChunk s u).buffer = s.buffer ++ u from rfl,
    take_append_left s.buffer u fi (by omega),
    drop_append_left s.buffer u fi (by omega)]
  rw [pushMarkdown_eq, pushMarkdown_eq]
  rfl

/-- openFromHeader reads only the header part of the buffer, so it
commutes with appending input. -/
theorem openFromHeader_appendChunk (s : ParserState) (u : List Char) (he : Nat)
    (hlt : he < s.buffer.length) :
    openFromHeader (appendChunk s u) he = appendChunk (openFromHeader s he) u := by
  obtain ⟨buf, bi, md, ab, outs⟩ := s
  simp only [appendChunk, openFromHeader]
  simp only at hlt
  rw [take_append_left buf u he (by omega), drop_append_left buf u (he + 1) (by omega)]
  cases parseHeader (jsTrim (stripCarriageReturn ((buf.take he).drop 3))) with
  | none =>
    dsimp only
    rw [pushMarkdownForce_eq, pushMarkdownForce_eq]
  | some bi2 =>
    cases bi2 with
    | runInfo =>
      dsimp only
      cases md <;> rfl
    | dataInfo id =>
      dsimp only
      cases md <;> rfl

/-- Opening a block from a complete header commutes with appending input. -/
theorem openComm (s : ParserState) (u : List Char) (he : Nat)
    (hA : s.activeBlock = none)
    (hF : findFence s.buffer = some 0) (hNl : findNlFrom3 s.buffer = some he) :
    drainP false (appendChunk s u) =
      drainP false (appendChunk (openFromHeader s he) u) := by
  have hb := findFence_some_bound _ _ hF
  have hhe := findNlFrom3_bounds _ _ hNl
  have hFu : findFence (s.buffer ++ u) = some 0 := findFence_append_some _ _ _ hF
  have hNlu : findNlFrom3 (s.buffer ++ u) = some he :=
    findNlFrom3_append _ _ _ (by omega) hNl
  have hstep : stepP false (appendChunk s u) =
      StepRes.more (openFromHeader (appendChunk s u) he) := by
    simp [stepP, appendChunk, hA, hFu, hNlu]
  rw [drainP_more false _ _ hstep]
  congr 1
  exact openFromHeader_appendChunk s u he (by omega)

end Fenced

namespace Fenced

/-- The guarded run emission in record form. -/
theorem runEmit_eq (s : ParserState) (idx : Nat) (body : List Char)
    (lnw : Option Char) (e : Nat)
    (hA : s.activeBlock = some (ActiveBlock.agentRunB idx body lnw)) :
    runEmit s idx body lnw e =
      { s with buffer := s.buffer.drop e
               activeBlock := some (ActiveBlock.agentRunB idx
                 (body ++ s.buffer.take e)
                 (updateLastNonWhitespace lnw (s.buffer.take e))) } := by
  unfold runEmit
  split
  · rfl
  · next hneg =>
    have he : e = 0 := by omega
    subst he
    rw [List.take_zero, List.drop_zero, List.append_nil, updateLastNonWhitespace_nil]
    obtain ⟨buf, bi, md, ab, outs⟩ := s
    simp only at hA
    rw [hA]

/-- The guarded data emission in record form. -/
theorem dataEmit_eq (s : ParserState) (idx : Nat) (id body : List Char) (e : Nat)
    (hA : s.activeBlock = some (ActiveBlock.agentDataB idx id body)) :
    dataEmit s idx id body e =
      { s with buffer := s.buffer.drop e
               activeBlock := some (ActiveBlock.agentDataB idx id
                 (body ++ s.buffer.take e)) } := by
  unfold dataEmit
  split
  · rfl
  · next hneg =>
    have he : e = 0 := by omega
    subst he
    rw [List.take_zero, List.drop_zero, List.append_nil]
    obtain ⟨buf, bi, md, ab, outs⟩ := s
    simp only at hA
    rw [hA]

/-- A partial run-body emission commutes with appending input. -/
theorem runEmitComm (s : ParserState) (idx : Nat) (body : List Char)
    (lnw : Option Char) (u : List Char)
    (hA : s.activeBlock = some (ActiveBlock.agentRunB idx body lnw))
    (hF : findFence s.buffer = none)
    (hemit : 0 < s.buffer.length - MAX_TAIL) :
    drainP false (appendChunk s u) =
      drainP false
        (appendChunk (runEmit s idx body lnw (s.buffer.length - MAX_TAIL)) u) := by
  have httB := trailTicks_le_two_of_none _ hF
  have hMT : MAX_TAIL = 2 := rfl
  have hkk : (s.buffer.length - MAX_TAIL) + trailTicks s.buffer ≤ s.buffer.length := by
    omega
  have hre := runEmit_eq s idx body lnw (s.buffer.length - MAX_TAIL) hA
  have hshift := findFence_append_shift s.buffer u (s.buffer.length - MAX_TAIL) hF hkk
  have hL := runDrain (appendChunk s u) idx body lnw (by simp [appendChunk, hA])
  have hR := runDrain
      (appendChunk (runEmit s idx body lnw (s.buffer.length - MAX_TAIL)) u) idx
      (body ++ s.buffer.take (s.buffer.length - MAX_TAIL))
      (updateLastNonWhitespace lnw (s.buffer.take (s.buffer.length - MAX_TAIL)))
      (by rw [hre]; simp [appendChunk])
  have hbufL : (appendChunk s u).buffer = s.buffer ++ u := rfl
  have hbufR :
      (appendChunk (runEmit s idx body lnw (s.buffer.length - MAX_TAIL)) u).buffer =
        s.buffer.drop (s.buffer.length - MAX_TAIL) ++ u := by
    rw [hre]
    rfl
  rw [hL, hR, hbufL, hbufR, hshift]
  have hdlen : (s.buffer.drop (s.buffer.length - MAX_TAIL)).length = MAX_TAIL := by
    rw [List.length_drop]
    omega
  cases hfr : findFence (s.buffer.drop (s.buffer.length - MAX_TAIL) ++ u) with
  | some j =>
    simp only [Option.map_some']
    congr 1
    have hjb := findFence_some_bound _ _ hfr
    rw [List.length_append, hdlen] at hjb
    rw [hre]
    unfold closeRunState runTakeClose appendChunk
    obtain ⟨buf, bi, md, ab, outs⟩ := s
    dsimp only at hF hemit hkk hshift hfr hjb hdlen ⊢
    have htake : (buf ++ u).take (j + (buf.length - MAX_TAIL)) =
        buf.take (buf.length - MAX_TAIL) ++
          (buf.drop (buf.length - MAX_TAIL) ++ u).take j := by
      rw [show j + (buf.length - MAX_TAIL) = (buf.length - MAX_TAIL) + j by omega]
      exact take_append_split buf u (buf.length - MAX_TAIL) j (by omega)
    have hdrop : (buf ++ u).drop (j + (buf.length - MAX_TAIL) + 3) =
        (buf.drop (buf.length - MAX_TAIL) ++ u).drop (j + 3) := by
      rw [show j + (buf.length - MAX_TAIL) + 3 = (buf.length - MAX_TAIL) + (j + 3) by
        omega]
      exact drop_append_split buf u (buf.length - MAX_TAIL) (j + 3) (by omega)
    rw [htake, hdrop, updateLastNonWhitespace_append, List.append_assoc]
  | none =>
    simp only [Option.map_none']
    rw [hre]
    have hAL : (appendChunk s u).activeBlock =
        some (ActiveBlock.agentRunB idx body lnw) := by
      simp [appendChunk, hA]
    rw [runEmit_eq _ _ _ _ _ hAL]
    have hAR : (appendChunk ({ s with
        buffer := s.buffer.drop (s.buffer.length - MAX_TAIL)
        activeBlock := some (ActiveBlock.agentRunB idx
          (body ++ s.buffer.take (s.buffer.length - MAX_TAIL))
          (updateLastNonWhitespace lnw
            (s.buffer.take (s.buffer.length - MAX_TAIL)))) }) u).activeBlock =
        some (ActiveBlock.agentRunB idx
          (body ++ s.buffer.take (s.buffer.length - MAX_TAIL))
          (updateLastNonWhitespace lnw
            (s.buffer.take (s.buffer.length - MAX_TAIL)))) := by
      simp [appendChunk]
    rw [runEmit_eq _ _ _ _ _ hAR]
    unfold appendChunk
    obtain ⟨buf, bi, md, ab, outs⟩ := s
    dsimp only at hF hemit hkk hdlen ⊢
    have he1 : (buf ++ u).length - MAX_TAIL =
        (buf.length - MAX_TAIL) +
          ((buf.drop (buf.length - MAX_TAIL) ++ u).length - MAX_TAIL) := by
      rw [List.length_append, List.length_append, List.length_drop]
      omega
    rw [he1]
    rw [take_append_split buf u (buf.length - MAX_TAIL) _ (by omega),
      drop_append_split buf u (buf.length - MAX_TAIL) _ (by omega),
      updateLastNonWhitespace_append, List.append_assoc]

end Fenced

namespace Fenced

/-- A partial data-body emission commutes with appending input. -/
theorem dataEmitComm (s : ParserState) (idx : Nat) (id body : List Char)
    (u : List Char)
    (hA : s.activeBlock = some (ActiveBlock.agentDataB idx id body))
    (hF : findFence s.buffer = none)
    (hemit : 0 < s.buffer.length - MAX_TAIL) :
    drainP false (appendChunk s u) =
      drainP false
        (appendChunk (dataEmit s idx id body (s.buffer.length - MAX_TAIL)) u) := by
  have httB := trailTicks_le_two_of_none _ hF
  have hMT : MAX_TAIL = 2 := rfl
  have hkk : (s.buffer.length - MAX_TAIL) + trailTicks s.buffer ≤ s.buffer.length := by
    omega
  have hre := dataEmit_eq s idx id body (s.buffer.length - MAX_TAIL) hA
  have hshift := findFence_append_shift s.buffer u (s.buffer.length - MAX_TAIL) hF hkk
  have hL := dataDrain (appendChunk s u) idx id body (by simp [appendChunk, hA])
  have hR := dataDrain
      (appendChunk (dataEmit s idx id body (s.buffer.length - MAX_TAIL)) u) idx id
      (body ++ s.buffer.take (s.buffer.length - MAX_TAIL))
      (by rw [hre]; simp [appendChunk])
  have hbufL : (appendChunk s u).buffer = s.buffer ++ u := rfl
  have hbufR :
      (appendChunk (dataEmit s idx id body (s.buffer.length - MAX_TAIL)) u).buffer =
        s.buffer.drop (s.buffer.length - MAX_TAIL) ++ u := by
    rw [hre]
    rfl
  rw [hL, hR, hbufL, hbufR, hshift]
  have hdlen : (s.buffer.drop (s.buffer.length - MAX_TAIL)).length = MAX_TAIL := by
    rw [List.length_drop]
    omega
  cases hfr : findFence (s.buffer.drop (s.buffer.length - MAX_TAIL) ++ u) with
  | some j =>
    simp only [Option.map_some']
    congr 1
    have hjb := findFence_some_bound _ _ hfr
    rw [List.length_append, hdlen] at hjb
    rw [hre]
    unfold closeDataState dataTakeClose appendChunk
    obtain ⟨buf, bi, md, ab, outs⟩ := s
    dsimp only at hF hemit hkk hshift hfr hjb hdlen ⊢
    have htake : (buf ++ u).take (j + (buf.length - MAX_TAIL)) =
        buf.take (buf.length - MAX_TAIL) ++
          (buf.drop (buf.length - MAX_TAIL) ++ u).take j := by
      rw [show j + (buf.length - MAX_TAIL) = (buf.length - MAX_TAIL) + j by omega]
      exact take_append_split buf u (buf.length - MAX_TAIL) j (by omega)
    have hdrop : (buf ++ u).drop (j + (buf.length - MAX_TAIL) + 3) =
        (buf.drop (buf.length - MAX_TAIL) ++ u).drop (j + 3) := by
      rw [show j + (buf.length - MAX_TAIL) + 3 = (buf.length - MAX_TAIL) + (j + 3) by
        omega]
      exact drop_append_split buf u (buf.length - MAX_TAIL) (j + 3) (by omega)
    rw [htake, hdrop, List.append_assoc]
  | none =>
    simp only [Option.map_none']
    rw [hre]
    have hAL : (appendChunk s u).activeBlock =
        some (ActiveBlock.agentDataB idx id body) := by
      simp [appendChunk, hA]
    rw [dataEmit_eq _ _ _ _ _ hAL]
    have hAR : (appendChunk ({ s with
        buffer := s.buffer.drop (s.buffer.length - MAX_TAIL)
        activeBlock := some (ActiveBlock.agentDataB idx id
          (body ++ s.buffer.take (s.buffer.length - MAX_TAIL))) }) u).activeBlock =
        some (ActiveBlock.agentDataB idx id
          (body ++ s.buffer.take (s.buffer.length - MAX_TAIL))) := by
      simp [appendChunk]
    rw [dataEmit_eq _ _ _ _ _ hAR]
    unfold appendChunk
    obtain ⟨buf, bi, md, ab, outs⟩ := s
    dsimp only at hF hemit hkk hdlen ⊢
    have he1 : (buf ++ u).length - MAX_TAIL =
        (buf.length - MAX_TAIL) +
          ((buf.drop (buf.length - MAX_TAIL) ++ u).length - MAX_TAIL) := by
      rw [List.length_append, List.length_append, List.length_drop]
      omega
    rw [he1]
    rw [take_append_split buf u (buf.length - MAX_TAIL) _ (by omega),
      drop_append_split buf u (buf.length - MAX_TAIL) _ (by omega),
      List.append_assoc]

end Fenced

namespace Fenced

/-- A partial passthrough emission commutes with appending input. -/
theorem passEmitComm (s : ParserState) (u : List Char)
    (hA : s.activeBlock = some ActiveBlock.passthroughB)
    (hF : findFence s.buffer = none) :
    drainP false (appendChunk s u) =
      drainP false
        (appendChunk
          (passEmit s
            (s.buffer.length - min (countTrailingBackticks s.buffer) MAX_TAIL)) u) := by
  have httB := trailTicks_le_two_of_none _ hF
  have httl := trailTicks_le_length s.buffer
  have hE : s.buffer.length - min (countTrailingBackticks s.buffer) MAX_TAIL =
      s.buffer.length - trailTicks s.buffer := by
    rw [min_ctb]
    omega
  rw [hE]
  have hre : passEmit s (s.buffer.length - trailTicks s.buffer) =
      { s with
        mdStream := mdPushF s.mdStream
          (s.buffer.take (s.buffer.length - trailTicks s.buffer))
        buffer := s.buffer.drop (s.buffer.length - trailTicks s.buffer) } := by
    unfold passEmit
    rw [pushMarkdownForce_eq]
  have hkk : (s.buffer.length - trailTicks s.buffer) + trailTicks s.buffer ≤
      s.buffer.length := by
    omega
  have hshift :=
    findFence_append_shift s.buffer u (s.buffer.length - trailTicks s.buffer) hF hkk
  have htau := trailTicks_append_drop s.buffer u hF
  have hL := passDrain (appendChunk s u) (by simp [appendChunk, hA])
  have hR := passDrain
      (appendChunk (passEmit s (s.buffer.length - trailTicks s.buffer)) u)
      (by rw [hre]; simp [appendChunk, hA])
  have hbufL : (appendChunk s u).buffer = s.buffer ++ u := rfl
  have hbufR :
      (appendChunk (passEmit s (s.buffer.length - trailTicks s.buffer)) u).buffer =
        s.buffer.drop (s.buffer.length - trailTicks s.buffer) ++ u := by
    rw [hre]
    rfl
  rw [hL, hR, hbufL, hbufR, hshift]
  have hdlen : (s.buffer.drop (s.buffer.length - trailTicks s.buffer)).length =
      trailTicks s.buffer := by
    rw [List.length_drop]
    omega
  cases hfr :
      findFence (s.buffer.drop (s.buffer.length - trailTicks s.buffer) ++ u) with
  | some j =>
    simp only [Option.map_some']
    congr 1
    have hjb := findFence_some_bound _ _ hfr
    rw [List.length_append, hdlen] at hjb
    rw [hre]
    unfold passClose appendChunk
    obtain ⟨buf, bi, md, ab, outs⟩ := s
    dsimp only at hF httB httl hkk hfr hjb hdlen htau ⊢
    rw [pushMarkdownForce_eq, pushMarkdownForce_eq, pushMarkdownForce_eq,
      pushMarkdownForce_eq]
    dsimp only
    have htake : (buf ++ u).take (j + (buf.length - trailTicks buf)) =
        buf.take (buf.length - trailTicks buf) ++
          (buf.drop (buf.length - trailTicks buf) ++ u).take j := by
      rw [show j + (buf.length - trailTicks buf) =
        (buf.length - trailTicks buf) + j by omega]
      exact take_append_split buf u (buf.length - trailTicks buf) j (by omega)
    have hdrop : (buf ++ u).drop (j + (buf.length - trailTicks buf) + 3) =
        (buf.drop (buf.length - trailTicks buf) ++ u).drop (j + 3) := by
      rw [show j + (buf.length - trailTicks buf) + 3 =
        (buf.length - trailTicks buf) + (j + 3) by omega]
      exact drop_append_split buf u (buf.length - trailTicks buf) (j + 3) (by omega)
    rw [htake, hdrop, mdPushF_split]
  | none =>
    simp only [Option.map_none']
    rw [hre]
    unfold passEmit appendChunk
    obtain ⟨buf, bi, md, ab, outs⟩ := s
    dsimp only at hF httB httl hkk hdlen htau hE ⊢
    rw [pushMarkdownForce_eq, pushMarkdownForce_eq]
    dsimp only
    have htaul : trailTicks (buf.drop (buf.length - trailTicks buf) ++ u) ≤
        (buf.drop (buf.length - trailTicks buf) ++ u).length :=
      trailTicks_le_length _
    rw [List.length_append, hdlen] at htaul
    have he1 : (buf ++ u).length - min (countTrailingBackticks (buf ++ u)) MAX_TAIL =
        (buf.length - trailTicks buf) +
          ((buf.drop (buf.length - trailTicks buf) ++ u).length -
            min (countTrailingBackticks
              (buf.drop (buf.length - trailTicks buf) ++ u)) MAX_TAIL) := by
      rw [min_ctb, min_ctb, ← htau, List.length_append, List.length_append, hdlen]
      omega
    rw [he1]
    rw [take_append_split buf u (buf.length - trailTicks buf) _ (by omega),
      drop_append_split buf u (buf.length - trailTicks buf) _ (by omega),
      mdPushF_split]

end Fenced

namespace Fenced

/-- Any progressing non-final step commutes with appending later input. -/
theorem stepComm (s s' : ParserState) (u : List Char)
    (h : stepP false s = StepRes.more s') :
    drainP false (appendChunk s u) = drainP false (appendChunk s' u) := by
  unfold stepP at h
  split at h
  · next idx body lnw heq =>
    split at h
    · next hF =>
      rw [if_neg (show ¬((false : Bool) = true) by simp)] at h
      split at h
      · next hemit =>
        injection h with h'
        subst h'
        exact runEmitComm s idx body lnw u heq hF hemit
      · cases h
    · next i hF =>
      injection h with h'
      subst h'
      exact runCloseComm s idx body lnw u i heq hF
  · next idx id body heq =>
    split at h
    · next hF =>
      rw [if_neg (show ¬((false : Bool) = true) by simp)] at h
      split at h
      · next hemit =>
        injection h with h'
        subst h'
        exact dataEmitComm s idx id body u heq hF hemit
      · cases h
    · next i hF =>
      injection h with h'
      subst h'
      exact dataCloseComm s idx id body u i heq hF
  · next heq =>
    split at h
    · next hF =>
      rw [if_neg (show ¬((false : Bool) = true) by simp)] at h
      split at h
      · next hemit =>
        injection h with h'
        subst h'
        exact passEmitComm s u heq hF
      · cases h
    · next i hF =>
      injection h with h'
      subst h'
      exact passCloseComm s u i heq hF
  · next heq =>
    split at h
    · cases h
    · next fi hF =>
      split at h
      · next hfi0 =>
        split at h
        · rw [if_neg (show ¬((false : Bool) = true) by simp)] at h
          cases h
        · next he hNl =>
          injection h with h'
          subst h'
          exact openComm s u he heq (hfi0 ▸ hF) hNl
      · next hfi0 =>
        injection h with h'
        subst h'
        exact proseChunkComm s u fi heq hF hfi0

end Fenced

namespace Fenced

/-! ## Congruence of the drain under the invariance relation -/

/-- The final flush in stream-effect form. -/
theorem flushMarkdown_true_eq (s : ParserState) :
    flushMarkdown true s =
      closeMarkdownStream
        { s with mdStream := mdPush s.mdStream s.buffer, buffer := [] } := by
  by_cases hbuf : s.buffer = []
  · simp only [flushMarkdown, if_pos hbuf]
    rw [if_pos trivial]
    obtain ⟨buf, bi, md, ab, outs⟩ := s
    simp only at hbuf
    subst hbuf
    rw [mdPush_nil]
  · simp only [flushMarkdown, if_neg hbuf]
    rw [if_pos trivial, if_pos trivial, Nat.sub_zero]
    have hpos : 0 < s.buffer.length := by
      cases hb : s.buffer
      · exact absurd hb hbuf
      · simp [hb]
    unfold flushEmit
    rw [if_pos hpos, List.drop_length, List.take_length, pushMarkdown_eq]
    unfold flushFinalRest
    rw [if_neg (by simp)]

theorem srel_pushMarkdown {s s' : ParserState} (t : List Char) (h : SRel s s') :
    SRel (pushMarkdown s t) (pushMarkdown s' t) := by
  rw [pushMarkdown_eq, pushMarkdown_eq]
  obtain ⟨h1, h2, h3, h4, h5⟩ := h
  exact ⟨h1, h2, h3, mdPush_congr t h4, h5⟩

theorem srel_pushMarkdownForce {s s' : ParserState} (t : List Char) (h : SRel s s') :
    SRel (pushMarkdownForce s t) (pushMarkdownForce s' t) := by
  rw [pushMarkdownForce_eq, pushMarkdownForce_eq]
  obtain ⟨h1, h2, h3, h4, h5⟩ := h
  exact ⟨h1, h2, h3, mdPushF_congr t h4, h5⟩

theorem srel_closeMarkdownStream {s s' : ParserState} (h : SRel s s') :
    SRel (closeMarkdownStream s) (closeMarkdownStream s') := by
  obtain ⟨h1, h2, h3, h4, h5⟩ := h
  unfold closeMarkdownStream
  cases hm : s.mdStream with
  | none =>
    cases hm' : s'.mdStream with
    | none => exact ⟨h1, h2, h3, by rw [hm, hm'] at h4 ⊢; exact h4, h5⟩
    | some b' => rw [hm, hm'] at h4; exact h4.elim
  | some b =>
    cases hm' : s'.mdStream with
    | none => rw [hm, hm'] at h4; exact h4.elim
    | some b' =>
      rw [hm, hm'] at h4
      exact ⟨h1, h2, h3, trivial,
        outRel_append h5 (List.Forall₂.cons h4 List.Forall₂.nil)⟩

theorem srel_buffer_set {s s' : ParserState} (b : List Char) (h : SRel s s') :
    SRel { s with buffer := b } { s' with buffer := b } := by
  obtain ⟨h1, h2, h3, h4, h5⟩ := h
  exact ⟨rfl, h2, h3, h4, h5⟩

theorem srel_active_set {s s' : ParserState} (a : Option ActiveBlock) (h : SRel s s') :
    SRel { s with activeBlock := a } { s' with activeBlock := a } := by
  obtain ⟨h1, h2, h3, h4, h5⟩ := h
  exact ⟨h1, h2, rfl, h4, h5⟩

theorem srel_buffer_active_set {s s' : ParserState} (b : List Char)
    (a : Option ActiveBlock) (h : SRel s s') :
    SRel { s with buffer := b, activeBlock := a }
      { s' with buffer := b, activeBlock := a } := by
  obtain ⟨h1, h2, h3, h4, h5⟩ := h
  exact ⟨rfl, h2, rfl, h4, h5⟩

theorem srel_closeRunState {s s' : ParserState} (h : SRel s s') :
    SRel (closeRunState s) (closeRunState s') := by
  have h3 := h.2.2.1
  unfold closeRunState
  rw [← h3]
  cases ha : s.activeBlock with
  | none => exact h
  | some ab =>
    cases ab with
    | agentRunB idx body lnw =>
      obtain ⟨h1, h2, h3, h4, h5⟩ := h
      exact ⟨h1, h2, rfl, h4,
        outRel_append h5 (List.Forall₂.cons (segRel_refl _) List.Forall₂.nil)⟩
    | agentDataB idx id body => exact h
    | passthroughB => exact h

theorem srel_closeDataState {s s' : ParserState} (h : SRel s s') :
    SRel (closeDataState s) (closeDataState s') := by
  have h3 := h.2.2.1
  unfold closeDataState
  rw [← h3]
  cases ha : s.activeBlock with
  | none => exact h
  | some ab =>
    cases ab with
    | agentRunB idx body lnw => exact h
    | agentDataB idx id body =>
      obtain ⟨h1, h2, h3, h4, h5⟩ := h
      exact ⟨h1, h2, rfl, h4,
        outRel_append h5 (List.Forall₂.cons (segRel_refl _) List.Forall₂.nil)⟩
    | passthroughB => exact h

theorem srel_flushMarkdown (final : Bool) {s s' : ParserState} (h : SRel s s') :
    SRel (flushMarkdown final s) (flushMarkdown final s') := by
  have h1 := h.1
  cases final with
  | false =>
    rw [flushMarkdown_false_eq, flushMarkdown_false_eq, ← h1]
    obtain ⟨h1', h2, h3, h4, h5⟩ := h
    exact ⟨rfl, h2, h3, mdPush_congr _ h4, h5⟩
  | true =>
    rw [flushMarkdown_true_eq, flushMarkdown_true_eq, ← h1]
    refine srel_closeMarkdownStream ?_
    obtain ⟨h1', h2, h3, h4, h5⟩ := h
    exact ⟨rfl, h2, h3, mdPush_congr _ h4, h5⟩

end Fenced

namespace Fenced

theorem srel_bi_active_set {s s' : ParserState} (n : Nat) (a : Option ActiveBlock)
    (h : SRel s s') :
    SRel { s with blockIndex := n, activeBlock := a }
      { s' with blockIndex := n, activeBlock := a } :=
  ⟨h.1, rfl, rfl, h.2.2.2.1, h.2.2.2.2⟩

/-- Step results related pointwise. -/
def ResRel : StepRes → StepRes → Prop
  | StepRes.done a, StepRes.done b => SRel a b
  | StepRes.more a, StepRes.more b => SRel a b
  | _, _ => False

theorem srel_runEmit {s s' : ParserState} (idx : Nat) (body : List Char)
    (lnw : Option Char) (e : Nat) (h : SRel s s') :
    SRel (runEmit s idx body lnw e) (runEmit s' idx body lnw e) := by
  unfold runEmit
  rw [← h.1]
  split
  · exact srel_buffer_active_set _ _ h
  · exact h

theorem srel_dataEmit {s s' : ParserState} (idx : Nat) (id body : List Char)
    (e : Nat) (h : SRel s s') :
    SRel (dataEmit s idx id body e) (dataEmit s' idx id body e) := by
  unfold dataEmit
  rw [← h.1]
  split
  · exact srel_buffer_active_set _ _ h
  · exact h

theorem srel_runTakeClose {s s' : ParserState} (idx : Nat) (body : List Char)
    (lnw : Option Char) (i : Nat) (h : SRel s s') :
    SRel (runTakeClose s idx body lnw i) (runTakeClose s' idx body lnw i) := by
  unfold runTakeClose
  rw [← h.1]
  exact srel_buffer_active_set _ _ h

theorem srel_dataTakeClose {s s' : ParserState} (idx : Nat) (id body : List Char)
    (i : Nat) (h : SRel s s') :
    SRel (dataTakeClose s idx id body i) (dataTakeClose s' idx id body i) := by
  unfold dataTakeClose
  rw [← h.1]
  exact srel_buffer_active_set _ _ h

theorem srel_passFinal {s s' : ParserState} (h : SRel s s') :
    SRel (passFinal s) (passFinal s') := by
  unfold passFinal
  rw [← h.1]
  exact srel_buffer_active_set _ _ (srel_pushMarkdownForce _ h)

theorem srel_passEmit {s s' : ParserState} (e : Nat) (h : SRel s s') :
    SRel (passEmit s e) (passEmit s' e) := by
  unfold passEmit
  rw [← h.1]
  exact srel_buffer_set _ (srel_pushMarkdownForce _ h)

theorem srel_passClose {s s' : ParserState} (i : Nat) (h : SRel s s') :
    SRel (passClose s i) (passClose s' i) := by
  unfold passClose
  rw [← h.1]
  exact srel_buffer_active_set _ _
    (srel_pushMarkdownForce _ (srel_pushMarkdownForce _ h))

theorem srel_proseChunk {s s' : ParserState} (fi : Nat) (h : SRel s s') :
    SRel (proseChunk s fi) (proseChunk s' fi) := by
  unfold proseChunk
  rw [← h.1]
  exact srel_pushMarkdown _ (srel_buffer_set _ h)

theorem srel_headerAbort {s s' : ParserState} (h : SRel s s') :
    SRel (headerAbort s) (headerAbort s') := by
  unfold headerAbort
  rw [← h.1]
  exact srel_closeMarkdownStream (srel_pushMarkdown _ (srel_buffer_set _ h))

theorem srel_openFromHeader {s s' : ParserState} (he : Nat) (h : SRel s s') :
    SRel (openFromHeader s he) (openFromHeader s' he) := by
  simp only [openFromHeader]
  rw [← h.1]
  cases parseHeader (jsTrim (stripCarriageReturn ((s.buffer.take he).drop 3))) with
  | none =>
    exact srel_active_set _ (srel_pushMarkdownForce _ (srel_buffer_set _ h))
  | some bi2 =>
    cases bi2 with
    | runInfo =>
      have hcm := srel_closeMarkdownStream (srel_buffer_set (s.buffer.drop (he + 1)) h)
      exact ⟨hcm.1, by rw [h.2.1], by rw [h.2.1], hcm.2.2.2.1, hcm.2.2.2.2⟩
    | dataInfo id =>
      have hcm := srel_closeMarkdownStream (srel_buffer_set (s.buffer.drop (he + 1)) h)
      exact ⟨hcm.1, by rw [h.2.1], by rw [h.2.1], hcm.2.2.2.1, hcm.2.2.2.2⟩

/-- One step preserves the invariance relation. -/
theorem stepP_congr (final : Bool) (s s' : ParserState) (h : SRel s s') :
    ResRel (stepP final s) (stepP final s') := by
  unfold stepP
  rw [← h.1, ← h.2.2.1]
  cases ha : s.activeBlock with
  | some ab =>
    cases ab with
    | agentRunB idx body lnw =>
      dsimp only
      cases hf : findFence s.buffer with
      | none =>
        by_cases hfin : final = true
        · rw [if_pos hfin, if_pos hfin]
          exact srel_closeRunState (srel_runEmit _ _ _ _ h)
        · rw [if_neg hfin, if_neg hfin]
          by_cases hemit : 0 < s.buffer.length - MAX_TAIL
          · rw [if_pos hemit, if_pos hemit]
            exact srel_runEmit _ _ _ _ h
          · rw [if_neg hemit, if_neg hemit]
            exact h
      | some i =>
        exact srel_closeRunState (srel_runTakeClose _ _ _ _ h)
    | agentDataB idx id body =>
      dsimp only
      cases hf : findFence s.buffer with
      | none =>
        by_cases hfin : final = true
        · rw [if_pos hfin, if_pos hfin]
          exact srel_closeDataState (srel_dataEmit _ _ _ _ h)
        · rw [if_neg hfin, if_neg hfin]
          by_cases hemit : 0 < s.buffer.length - MAX_TAIL
          · rw [if_pos hemit, if_pos hemit]
            exact srel_dataEmit _ _ _ _ h
          · rw [if_neg hemit, if_neg hemit]
            exact h
      | some i =>
        exact srel_closeDataState (srel_dataTakeClose _ _ _ _ h)
    | passthroughB =>
      dsimp only
      cases hf : findFence s.buffer with
      | none =>
        by_cases hfin : final = true
        · rw [if_pos hfin, if_pos hfin]
          exact srel_passFinal h
        · rw [if_neg hfin, if_neg hfin]
          by_cases hemit :
              0 < s.buffer.length - min (countTrailingBackticks s.buffer) MAX_TAIL
          · rw [if_pos hemit, if_pos hemit]
            exact srel_passEmit _ h
          · rw [if_neg hemit, if_neg hemit]
            exact h
      | some i =>
        exact srel_passClose _ h
  | none =>
    dsimp only
    cases hf : findFence s.buffer with
    | none =>
      exact srel_flushMarkdown final h
    | some fi =>
      dsimp only
      by_cases hfi : fi = 0
      · rw [if_pos hfi, if_pos hfi]
        cases hnl : findNlFrom3 s.buffer with
        | none =>
          by_cases hfin : final = true
          · rw [if_pos hfin, if_pos hfin]
            exact srel_headerAbort h
          · rw [if_neg hfin, if_neg hfin]
            exact h
        | some he =>
          exact srel_openFromHeader _ h
      · rw [if_neg hfi, if_neg hfi]
        exact srel_proseChunk _ h

end Fenced

namespace Fenced

/-- The drain preserves the invariance relation. -/
theorem drain_congr (final : Bool) :
    ∀ (n : Nat) (s s' : ParserState), pMeasure s ≤ n → SRel s s' →
      SRel (drainP final s) (drainP final s')
  | 0, s, _, hn, _ => absurd (pMeasure_pos s) (by omega)
  | n + 1, s, s', hn, hrel => by
    have hres := stepP_congr final s s' hrel
    cases hL : stepP final s with
    | done d =>
      cases hR : stepP final s' with
      | done d' =>
        rw [drainP_done final s d hL, drainP_done final s' d' hR]
        rw [hL, hR] at hres
        exact hres
      | more m' =>
        rw [hL, hR] at hres
        exact hres.elim
    | more m =>
      cases hR : stepP final s' with
      | done d' =>
        rw [hL, hR] at hres
        exact hres.elim
      | more m' =>
        rw [drainP_more final s m hL, drainP_more final s' m' hR]
        rw [hL, hR] at hres
        have hlt := pMeasure_step final s m hL
        exact drain_congr final n m m' (by omega) hres

/-- Draining twice is draining once. -/
theorem drainP_idem : ∀ (n : Nat) (s : ParserState), pMeasure s ≤ n →
    drainP false (drainP false s) = drainP false s
  | 0, s, hn => absurd (pMeasure_pos s) (by omega)
  | n + 1, s, hn => by
    cases hL : stepP false s with
    | more m =>
      rw [drainP_more false s m hL]
      have hlt := pMeasure_step false s m hL
      exact drainP_idem n m (by omega)
    | done d =>
      rw [drainP_done false s d hL]
      rcases stepP_done_shape s d hL with rfl | ⟨hA, hF, rfl⟩
      · exact drainP_done false d d hL
      · have htt := trailTicks_le_two_of_none _ hF
        have httl := trailTicks_le_length s.buffer
        have hfl : flushMarkdown false s =
            { s with
              mdStream := mdPush s.mdStream
                (s.buffer.take (s.buffer.length - trailTicks s.buffer))
              buffer := s.buffer.drop (s.buffer.length - trailTicks s.buffer) } := by
          rw [flushMarkdown_false_eq]
          rw [show min (trailTicks s.buffer) 2 = trailTicks s.buffer by omega]
        have hdbuf : (flushMarkdown false s).buffer =
            s.buffer.drop (s.buffer.length - trailTicks s.buffer) := by
          rw [hfl]
        have hdact : (flushMarkdown false s).activeBlock = none := by
          rw [hfl]
          exact hA
        have hdlen : (flushMarkdown false s).buffer.length = trailTicks s.buffer := by
          rw [hdbuf, List.length_drop]
          omega
        have hdtt : trailTicks (flushMarkdown false s).buffer =
            trailTicks s.buffer := by
          rw [hdbuf, trailTicks_drop_trail]
        have hdF : findFence (flushMarkdown false s).buffer = none :=
          findFence_small _ (by omega)
        have hflush2 : flushMarkdown false (flushMarkdown false s) =
            flushMarkdown false s := by
          rw [flushMarkdown_false_eq (flushMarkdown false s)]
          have he0 : (flushMarkdown false s).buffer.length -
              min (trailTicks (flushMarkdown false s).buffer) 2 = 0 := by
            rw [hdlen, hdtt]
            omega
          rw [he0, List.take_zero, List.drop_zero, mdPush_nil]
        have hstep2 : stepP false (flushMarkdown false s) =
            StepRes.done (flushMarkdown false (flushMarkdown false s)) := by
          unfold stepP
          rw [hdact, hdF]
        rw [hflush2] at hstep2
        exact drainP_done false _ _ hstep2

/-- A fresh parser is already drained. -/
theorem drainP_init : drainP false initParser = initParser := rfl

end Fenced

namespace Fenced

/-- The non-final prose flush commutes with appending input, up to the
leading-whitespace relation on the markdown stream. -/
theorem flushComm (s : ParserState) (u : List Char) (hA : s.activeBlock = none)
    (hF : findFence s.buffer = none) :
    SRel (drainP false (appendChunk (flushMarkdown false s) u))
      (drainP false (appendChunk s u)) := by
  have htt := trailTicks_le_two_of_none _ hF
  have httl := trailTicks_le_length s.buffer
  have hfl : flushMarkdown false s =
      { s with
        mdStream := mdPush s.mdStream
          (s.buffer.take (s.buffer.length - trailTicks s.buffer))
        buffer := s.buffer.drop (s.buffer.length - trailTicks s.buffer) } := by
    rw [flushMarkdown_false_eq]
    rw [show min (trailTicks s.buffer) 2 = trailTicks s.buffer by omega]
  by_cases he0 : s.buffer.length - trailTicks s.buffer = 0
  · rw [hfl, he0, List.take_zero, List.drop_zero, mdPush_nil]
    exact srel_refl _
  · have hkk : (s.buffer.length - trailTicks s.buffer) + trailTicks s.buffer ≤
        s.buffer.length := by
      omega
    have hshift :=
      findFence_append_shift s.buffer u (s.buffer.length - trailTicks s.buffer) hF hkk
    have hdlen : (s.buffer.drop (s.buffer.length - trailTicks s.buffer)).length =
        trailTicks s.buffer := by
      rw [List.length_drop]
      omega
    cases hfr :
        findFence (s.buffer.drop (s.buffer.length - trailTicks s.buffer) ++ u) with
    | some j =>
      have hFu : findFence (s.buffer ++ u) =
          some (j + (s.buffer.length - trailTicks s.buffer)) := by
        rw [hshift, hfr]
        rfl
      have hne : ¬ (j + (s.buffer.length - trailTicks s.buffer) = 0) := by
        omega
      have hstepL : stepP false (appendChunk s u) = StepRes.more
          (proseChunk (appendChunk s u)
            (j + (s.buffer.length - trailTicks s.buffer))) := by
        simp [stepP, appendChunk, hA, hFu, hne]
      rw [drainP_more false _ _ hstepL]
      by_cases hj0 : j = 0
      · subst hj0
        have hPP : proseChunk (appendChunk s u)
            (0 + (s.buffer.length - trailTicks s.buffer)) =
            appendChunk (flushMarkdown false s) u := by
          rw [hfl]
          unfold proseChunk appendChunk
          obtain ⟨buf, bi, md, ab, outs⟩ := s
          dsimp only at httl htt he0 ⊢
          rw [Nat.zero_add,
            take_append_left buf u (buf.length - trailTicks buf) (by omega),
            drop_append_left buf u (buf.length - trailTicks buf) (by omega),
            pushMarkdown_eq]
        rw [hPP]
        exact srel_refl _
      · have hstepR : stepP false (appendChunk (flushMarkdown false s) u) =
            StepRes.more (proseChunk (appendChunk (flushMarkdown false s) u) j) := by
          simp [stepP, appendChunk, hfl, hA, hfr, hj0]
        rw [drainP_more false _ _ hstepR]
        refine drain_congr false (pMeasure _) _ _ (le_refl _) ?_
        have htake : (s.buffer ++ u).take
            (j + (s.buffer.length - trailTicks s.buffer)) =
            s.buffer.take (s.buffer.length - trailTicks s.buffer) ++
              (s.buffer.drop (s.buffer.length - trailTicks s.buffer) ++ u).take j := by
          rw [show j + (s.buffer.length - trailTicks s.buffer) =
            (s.buffer.length - trailTicks s.buffer) + j by omega]
          exact take_append_split s.buffer u _ j (by omega)
        have hdrop : (s.buffer ++ u).drop
            (j + (s.buffer.length - trailTicks s.buffer)) =
            (s.buffer.drop (s.buffer.length - trailTicks s.buffer) ++ u).drop j := by
          rw [show j + (s.buffer.length - trailTicks s.buffer) =
            (s.buffer.length - trailTicks s.buffer) + j by omega]
          exact drop_append_split s.buffer u _ j (by omega)
        rw [hfl]
        unfold proseChunk appendChunk
        obtain ⟨buf, bi, md, ab, outs⟩ := s
        dsimp only at httl htt he0 htake hdrop hF hA ⊢
        rw [pushMarkdown_eq, pushMarkdown_eq]
        dsimp only
        rw [htake, hdrop]
        exact ⟨rfl, rfl, by rw [hA], mdRel_symm (mdPush_split md _ _), outRel_refl _⟩
    | none =>
      have hFu : findFence (s.buffer ++ u) = none := by
        rw [hshift, hfr]
        rfl
      have hstepL : stepP false (appendChunk s u) =
          StepRes.done (flushMarkdown false (appendChunk s u)) := by
        simp [stepP, appendChunk, hA, hFu]
      have hstepR : stepP false (appendChunk (flushMarkdown false s) u) =
          StepRes.done (flushMarkdown false (appendChunk (flushMarkdown false s) u)) := by
        simp [stepP, appendChunk, hfl, hA, hfr]
      rw [drainP_done false _ _ hstepL, drainP_done false _ _ hstepR]
      have htau := trailTicks_append_drop s.buffer u hF
      have htaul : trailTicks (s.buffer.drop
          (s.buffer.length - trailTicks s.buffer) ++ u) ≤
          trailTicks s.buffer + u.length := by
        have hx := trailTicks_le_length
          (s.buffer.drop (s.buffer.length - trailTicks s.buffer) ++ u)
        rw [List.length_append, hdlen] at hx
        exact hx
      rw [hfl]
      unfold appendChunk
      obtain ⟨buf, bi, md, ab, outs⟩ := s
      dsimp only at hA hF htt httl he0 hdlen htau htaul ⊢
      rw [flushMarkdown_false_eq, flushMarkdown_false_eq]
      dsimp only
      have hE : (buf ++ u).length - min (trailTicks (buf ++ u)) 2 =
          (buf.length - trailTicks buf) +
            ((buf.drop (buf.length - trailTicks buf) ++ u).length -
              min (trailTicks (buf.drop (buf.length - trailTicks buf) ++ u)) 2) := by
        rw [htau, List.length_append, List.length_append, hdlen]
        omega
      rw [hE]
      rw [take_append_split buf u (buf.length - trailTicks buf) _ (by omega),
        drop_append_split buf u (buf.length - trailTicks buf) _ (by omega)]
      exact ⟨rfl, rfl, rfl, mdRel_symm (mdPush_split md _ _), outRel_refl _⟩

end Fenced

namespace Fenced

/-- Draining before more input arrives does not change the outcome, up to
the invariance relation. -/
theorem drain_merge : ∀ (n : Nat) (s : ParserState) (u : List Char),
    pMeasure s ≤ n →
    SRel (drainP false (appendChunk (drainP false s) u))
      (drainP false (appendChunk s u))
  | 0, s, _, hn => absurd (pMeasure_pos s) (by omega)
  | n + 1, s, u, hn => by
    cases hL : stepP false s with
    | more m =>
      rw [drainP_more false s m hL, stepComm s m u hL]
      have hlt := pMeasure_step false s m hL
      exact drain_merge n m u (by omega)
    | done d =>
      rw [drainP_done false s d hL]
      rcases stepP_done_shape s d hL with rfl | ⟨hA, hF, rfl⟩
      · exact srel_refl _
      · exact flushComm s u hA hF

/-- Feeding chunks one at a time relates to feeding their concatenation. -/
theorem fold_feed : ∀ (chunks : List (List Char)) (s : ParserState),
    drainP false s = s →
    SRel (chunks.foldl stepChunk s) (drainP false (appendChunk s chunks.flatten))
  | [], s, hs => by
    rw [List.foldl_nil, List.flatten_nil, appendChunk_nil, hs]
    exact srel_refl _
  | u :: rest, s, hs => by
    rw [List.foldl_cons, List.flatten_cons]
    have hdr : drainP false (stepChunk s u) = stepChunk s u := by
      unfold stepChunk
      exact drainP_idem (pMeasure (appendChunk s u)) _ (le_refl _)
    have hih := fold_feed rest (stepChunk s u) hdr
    refine srel_trans hih ?_
    show SRel (drainP false (appendChunk (drainP false (appendChunk s u)) rest.flatten)) _
    have hmerge := drain_merge (pMeasure (appendChunk s u)) (appendChunk s u)
      rest.flatten (le_refl _)
    rw [appendChunk_assoc] at hmerge
    exact hmerge

/-- Chunk invariance of the segment parser, up to leading whitespace of
markdown bodies: any two chunkings of the same text yield segment lists of
the same length and kinds, with equal block indices and data identifiers,
byte-identical code and data bodies, and markdown bodies equal after
dropping leading whitespace. -/
theorem parse_chunk_invariance (c1 c2 : List (List Char))
    (h : c1.flatten = c2.flatten) :
    List.Forall₂ SegRel (parse c1) (parse c2) := by
  have h1 := fold_feed c1 initParser drainP_init
  have h2 := fold_feed c2 initParser drainP_init
  rw [h] at h1
  have hrel := srel_trans h1 (srel_symm h2)
  have hfinal := drain_congr true (pMeasure (c1.foldl stepChunk initParser))
    _ _ (le_refl _) hrel
  exact hfinal.2.2.2.2

end Fenced

namespace Fenced

/-- Claim C1 fails as stated: the same text split differently can yield
different segment bodies, because whitespace-only markdown pushes are
dropped while no markdown stream is open. -/
theorem c1_counterexample :
    [(" a").toList].flatten = [(" ").toList, ("a").toList].flatten ∧
    parse [(" a").toList] ≠ parse [(" ").toList, ("a").toList] :=
  ⟨by decide, by decide⟩

/-- Claim C1 (amended): for any two chunkings of the same text, the parser
yields segment lists of the same length with the same kinds in the same
order, equal block indices and streamed-data identifiers, byte-identical
agent-run and agent-data bodies, and markdown bodies that agree after
dropping leading whitespace. -/
theorem c1_chunk_invariance_amended (c1 c2 : List (List Char))
    (h : c1.flatten = c2.flatten) :
    List.Forall₂ SegRel (parse c1) (parse c2) :=
  parse_chunk_invariance c1 c2 h

theorem c1_witness :
    List.Forall₂ SegRel
      (parse [("x``").toList, ("`tsx agent.run\nf()\n``").toList, ("`y").toList])
      (parse [("x```tsx agent.run\nf()\n```y").toList]) :=
  c1_chunk_invariance_amended _ _ (by decide)

end Fenced
